import Mathlib

/-!
Verification development for the PaperGen citation-consistency engine.

The definitions below are a shallow embedding of the functions in
src/utils.py, src/semanticscholar.py and the document shape of
src/models.py.  Text is modelled as lists of characters; Python regular
expression scanning is modelled by explicit left-to-right scanners that
mirror the behaviour of the two patterns used by the source
(a greedy bracket pattern with a non-empty interior, and a lazy bracket
pattern used by extract_citations).  Machine integers are Lean Int
(Python ints are unbounded, so no modular arithmetic is needed).
-/

namespace PaperGen

/-! ### Character and token primitives (Python str helpers) -/

/-- Python whitespace characters recognised by str.strip. -/
def isPySpace (c : Char) : Bool :=
  c = ' ' || c = '\t' || c = '\n' || c = '\r' || c = '\x0b' || c = '\x0c'

/-- Python str.strip: drop leading and trailing whitespace. -/
def pyStrip (cs : List Char) : List Char :=
  ((cs.dropWhile isPySpace).reverse.dropWhile isPySpace).reverse

/-- Python str.isdigit for ASCII text: non-empty and all decimal digits.
Python would also accept some non-ASCII digit characters; the document
texts the pipeline handles are ASCII, so this is the faithful core. -/
def isDigits (cs : List Char) : Bool :=
  !cs.isEmpty && cs.all Char.isDigit

/-- Numeric value of one decimal digit character. -/
def digitVal (c : Char) : Int :=
  (c.toNat : Int) - 48

/-- Numeric value of a digit string, most significant digit first. -/
def digitsVal (cs : List Char) : Int :=
  cs.foldl (fun a c => 10 * a + digitVal c) 0

/-- Python int(str): strip whitespace, optional sign, then digits.
(Python additionally allows underscore digit grouping, which never
occurs in citation tokens.) -/
def pyToInt? (cs : List Char) : Option Int :=
  match pyStrip cs with
  | [] => none
  | c :: ds =>
    if c = '-' then if isDigits ds then some (-(digitsVal ds)) else none
    else if c = '+' then if isDigits ds then some (digitsVal ds) else none
    else if isDigits (c :: ds) then some (digitsVal (c :: ds)) else none

/-- Character of one decimal digit value. -/
def digitChar : Nat → Char
  | 0 => '0' | 1 => '1' | 2 => '2' | 3 => '3' | 4 => '4'
  | 5 => '5' | 6 => '6' | 7 => '7' | 8 => '8' | _ => '9'

/-- Decimal digits of a natural number; the first argument is fuel,
always instantiated with a value larger than the number. -/
def natDigitsAux : Nat → Nat → List Char
  | 0, _ => []
  | fuel + 1, n =>
    if n < 10 then [digitChar n]
    else natDigitsAux fuel (n / 10) ++ [digitChar (n % 10)]

/-- Decimal digit string of a natural number. -/
def natDigits (n : Nat) : List Char :=
  natDigitsAux (n + 1) n

/-- Python str(int). -/
def intToStr (i : Int) : List Char :=
  if i < 0 then '-' :: natDigits (-i).toNat else natDigits i.toNat

/-- Python str.split(sep) for a one-character separator. -/
def splitOnChar (sep : Char) : List Char → List (List Char)
  | [] => [[]]
  | c :: rest =>
    if c = sep then [] :: splitOnChar sep rest
    else
      match splitOnChar sep rest with
      | [] => [[c]]
      | t :: ts => (c :: t) :: ts

/-- Python sep.join: interleave a one-character separator. -/
def joinSep (sep : Char) : List (List Char) → List Char
  | [] => []
  | [t] => t
  | t :: ts => t ++ sep :: joinSep sep ts

/-- Boolean membership of an integer in a list (the sets the Python code
builds are used only through membership tests, so lists model them). -/
def melem (x : Int) : List Int → Bool
  | [] => false
  | y :: t => x == y || melem x t

/-- Insertion into a sorted list of integers. -/
def insertSorted (x : Int) : List Int → List Int
  | [] => [x]
  | y :: t => if x ≤ y then x :: y :: t else y :: insertSorted x t

/-- Insertion sort, modelling Python sorted on integers. -/
def isort (l : List Int) : List Int :=
  l.foldr insertSorted []

/-- Pair each element with its 1-based position: Python
enumerate(l, start=1) reassembled as (element, position). -/
def enumFrom (i : Int) : List Int → List (Int × Int)
  | [] => []
  | x :: t => (x, i) :: enumFrom (i + 1) t

/-! ### Bracket scanners

Python scans text with re.sub / re.findall.  Both walk the string left
to right.  The greedy pattern used everywhere except extract_citations
matches a left bracket, one or more non-right-bracket characters, and a
right bracket.  The scanner below reproduces exactly that walk: chunks
are literal characters, the unmatched two-character text of an empty
bracket pair, a matched span carrying its interior, or a trailing
unclosed bracket. -/

inductive Chunk where
  | ch (c : Char) : Chunk
  | espan : Chunk
  | span (i : List Char) : Chunk
  | tailOpen (t : List Char) : Chunk
deriving DecidableEq

/-- Greedy bracket scanner.  The second argument is none outside a
bracket and some acc (interior so far, reversed) inside one. -/
def scanA : List Char → Option (List Char) → List Chunk
  | [], none => []
  | [], some acc => [.tailOpen acc.reverse]
  | c :: rest, none =>
    if c = '[' then scanA rest (some []) else .ch c :: scanA rest none
  | c :: rest, some acc =>
    if c = ']' then
      if acc.isEmpty then .espan :: scanA rest none
      else .span acc.reverse :: scanA rest none
    else scanA rest (some (c :: acc))

/-- Chunk decomposition of a text under the greedy bracket pattern. -/
def scan (cs : List Char) : List Chunk :=
  scanA cs none

/-- The text a chunk stands for. -/
def Chunk.render : Chunk → List Char
  | .ch c => [c]
  | .espan => ['[', ']']
  | .span i => '[' :: i ++ [']']
  | .tailOpen t => '[' :: t

/-- Replacement text of one chunk under re.sub: a span is replaced by
the value of the replacement function on its interior, anything else
keeps its own text. -/
def chunkSub (f : List Char → List Char) : Chunk → List Char
  | .span i => f i
  | k => k.render

/-- Python re.sub with the greedy bracket pattern and a replacement
function of the interior. -/
def subSpans (f : List Char → List Char) (cs : List Char) : List Char :=
  ((scan cs).map (chunkSub f)).flatten

/-- Python re.findall with the greedy bracket pattern: the matched
interiors in order. -/
def spansOf (cs : List Char) : List (List Char) :=
  (scan cs).filterMap fun c =>
    match c with
    | .span i => some i
    | _ => none

/-- Lazy bracket scanner used by extract_citations: the interior may be
empty and may not contain a newline (the dot of the lazy pattern); it
still ends at the first right bracket.  Aborted attempts cannot hide a
match, because every candidate start inside an aborted interior faces
the same blocking newline. -/
def lazyA : List Char → Option (List Char) → List (List Char)
  | [], _ => []
  | c :: rest, none =>
    if c = '[' then lazyA rest (some []) else lazyA rest none
  | c :: rest, some acc =>
    if c = ']' then acc.reverse :: lazyA rest none
    else if c = '\n' then lazyA rest none
    else lazyA rest (some (c :: acc))

/-- Interiors found by the lazy bracket pattern. -/
def lazySpans (cs : List Char) : List (List Char) :=
  lazyA cs none

/-! ### Citation parser (src/utils.py, expand_citation_ranges and
extract_citations) -/

/-- Tail of the full-match check for digits with comma or hyphen
separators: after the leading digit run, every separator must be
followed by at least one digit. -/
def isCSrest : List Char → Bool
  | [] => true
  | c :: rest =>
    if c.isDigit then isCSrest rest
    else if c = ',' || c = '-' then
      match rest with
      | [] => false
      | d :: rest2 => d.isDigit && isCSrest rest2
    else false

/-- Full match of a bracket interior against the citation pattern of
digits separated by commas or hyphens. -/
def isCitationSpan : List Char → Bool
  | [] => false
  | c :: rest => c.isDigit && isCSrest rest

/-- Integers from s to e inclusive, empty when e is below s
(Python range(s, e + 1)). -/
def intRange (s e : Int) : List Int :=
  (List.range (e + 1 - s).toNat).map fun (k : Nat) => s + (k : Int)

/-- Core of expand_citation_ranges over character lists. -/
def expandCR (citation : List Char) : List (List Char) :=
  (splitOnChar ',' citation).foldl
    (fun acc part =>
      if part.any (fun c => c == '-') then
        match splitOnChar '-' part with
        | [a, b] =>
          match pyToInt? a, pyToInt? b with
          | some s, some e => acc ++ (intRange s e).map intToStr
          | _, _ => acc
        | _ => acc
      else acc ++ [pyStrip part])
    []

/-- expand_citation_ranges from src/utils.py: expand a citation token
list such as 2,23-25 into the individual number strings. -/
def expand_citation_ranges (citation : String) : List String :=
  (expandCR citation.data).map String.mk

/-- extract_citations from src/utils.py: find lazy bracket spans, keep
those that fully match the citation pattern, and expand them.  The
result is a list of number strings in order of appearance. -/
def extract_citations (line : String) : List String :=
  ((lazySpans line.data).foldl
    (fun acc m => if isCitationSpan m then acc ++ expandCR m else acc)
    []).map String.mk

/-! ### JSON values

The document handed to clean_references is json.loads of the serialized
pydantic Article: nested dictionaries, lists, strings, integers and
nulls.  Lists and objects are separate mutually inductive types so that
every traversal below is structural and reduces inside the kernel. -/

mutual
inductive Json where
  | null : Json
  | str (s : String) : Json
  | int (n : Int) : Json
  | arr (xs : JList) : Json
  | obj (fs : JObj) : Json
deriving DecidableEq
inductive JList where
  | nil : JList
  | cons (hd : Json) (tl : JList) : JList
deriving DecidableEq
inductive JObj where
  | nil : JObj
  | cons (k : String) (v : Json) (tl : JObj) : JObj
deriving DecidableEq
end

/-- Python: key in dict. -/
def JObj.hasKey (key : String) : JObj → Bool
  | .nil => false
  | .cons k _ t => k == key || JObj.hasKey key t

/-- Python: dict.get(key) as an Option (first matching key; the dicts
produced by json.loads have unique keys). -/
def JObj.find? (key : String) : JObj → Option Json
  | .nil => none
  | .cons k v t => if k == key then some v else JObj.find? key t

/-- Replace the value stored under a key, modelling a Python item
assignment on a dict that already holds the key. -/
def JObj.mapVal (key : String) (f : Json → Json) : JObj → JObj
  | .nil => .nil
  | .cons k v t =>
    if k == key then .cons k (f v) (JObj.mapVal key f t)
    else .cons k v (JObj.mapVal key f t)

/-- Python truthiness of the values appearing in reference items. -/
def truthy : Option Json → Bool
  | none => false
  | some .null => false
  | some (.str s) => !s.isEmpty
  | some (.int n) => n != 0
  | some (.arr xs) => !(xs = JList.nil)
  | some (.obj fs) => !(fs = JObj.nil)

/-! ### Inline-citation collection
(src/utils.py, identify_all_inline_citations) -/

/-- Numeric values of the comma-separated tokens of one interior whose
stripped form is a digit string. -/
def tokVals (i : List Char) : List Int :=
  (splitOnChar ',' i).filterMap fun r =>
    let t := pyStrip r
    if isDigits t then some (digitsVal t) else none

/-- The helper extract_citations_from_text of
identify_all_inline_citations: digit tokens of every greedy bracket
span of a text. -/
def citsOfText (cs : List Char) : List Int :=
  ((spansOf cs).map tokVals).flatten

mutual
/-- Recursive walk of identify_all_inline_citations.  The flag is the
in_references_section argument; note that the dict branch of the source
discards the inherited flag and recomputes it as the presence of a
references key in the current dict. -/
def identifyJ : Json → Bool → List Int
  | .null, _ => []
  | .int _, _ => []
  | .str s, flag => if flag then [] else citsOfText s.data
  | .arr xs, flag => identifyL xs flag
  | .obj fs, _ => identifyO fs (fs.hasKey "references")
def identifyL : JList → Bool → List Int
  | .nil, _ => []
  | .cons x t, flag => identifyJ x flag ++ identifyL t flag
def identifyO : JObj → Bool → List Int
  | .nil, _ => []
  | .cons _ v t, flag => identifyJ v flag ++ identifyO t flag
end

/-- identify_all_inline_citations from src/utils.py (the result is a
set in Python; only membership in it is ever used). -/
def identify_all_inline_citations (data : Json) : List Int :=
  identifyJ data false

/-! ### Declared and bad reference numbers
(src/utils.py, get_all_reference_numbers and get_bad_references) -/

/-- Reference numbers of the items of a references content list.  The
pydantic ReferenceItem model makes reference_number a required int, so
collecting the integer values is faithful on every document the
pipeline produces. -/
def collectRefNums : JList → List Int
  | .nil => []
  | .cons x t =>
    (match x with
     | .obj ofs =>
       match ofs.find? "reference_number" with
       | some (.int n) => [n]
       | _ => []
     | _ => []) ++ collectRefNums t

/-- get_all_reference_numbers from src/utils.py. -/
def get_all_reference_numbers (references_section : Json) : List Int :=
  match references_section with
  | .obj fs =>
    match fs.find? "content" with
    | some (.arr xs) => collectRefNums xs
    | _ => []
  | _ => []

/-- Numbers of the reference items missing a truthy journal_source,
authors or year. -/
def badNums : JList → List Int
  | .nil => []
  | .cons x t =>
    (match x with
     | .obj ofs =>
       if !truthy (ofs.find? "journal_source")
           || !truthy (ofs.find? "authors")
           || !truthy (ofs.find? "year") then
         match ofs.find? "reference_number" with
         | some (.int n) => [n]
         | _ => []
       else []
     | _ => []) ++ badNums t

/-- get_bad_references from src/utils.py. -/
def get_bad_references (data : Json) : List Int :=
  match data with
  | .obj fs =>
    match fs.find? "references" with
    | some (.obj rfs) =>
      match rfs.find? "content" with
      | some (.arr xs) => badNums xs
      | _ => []
    | _ => []
  | _ => []

/-! ### Pruning the references section
(src/utils.py, remove_references) -/

/-- Keep the reference items whose number is outside the removal set. -/
def filterRefs (S : List Int) : JList → JList
  | .nil => .nil
  | .cons x t =>
    match x with
    | .obj ofs =>
      match ofs.find? "reference_number" with
      | some (.int n) =>
        if melem n S then filterRefs S t else .cons x (filterRefs S t)
      | _ => .cons x (filterRefs S t)
    | _ => .cons x (filterRefs S t)

/-- remove_references from src/utils.py. -/
def remove_references (data : Json) (references_to_remove : List Int) : Json :=
  match data with
  | .obj fs =>
    match fs.find? "references" with
    | some (.obj rfs) =>
      if rfs.hasKey "content" then
        .obj (fs.mapVal "references" fun r =>
          match r with
          | .obj rfs2 =>
            .obj (rfs2.mapVal "content" fun c =>
              match c with
              | .arr xs => .arr (filterRefs references_to_remove xs)
              | c => c)
          | r => r)
      else data
    | _ => data
  | _ => data

/-! ### Pruning inline citation markers
(src/utils.py, remove_inline_citations) -/

/-- Replacement function of the re.sub lambda in remove_inline_citations:
keep the marker, rebuilt from the stripped tokens that are not removed
digits, when some digit token survives outside the removal set, and
delete the whole marker otherwise. -/
def removeTok (S : List Int) (i : List Char) : List Char :=
  let refs := splitOnChar ',' i
  if refs.any (fun r => isDigits (pyStrip r) && !melem (digitsVal (pyStrip r)) S) then
    '[' :: joinSep ','
      (refs.filterMap fun r =>
        let t := pyStrip r
        if isDigits t && melem (digitsVal t) S then none else some t)
      ++ [']']
  else []

/-- The process_text helper of remove_inline_citations. -/
def removeText (S : List Int) (cs : List Char) : List Char :=
  subSpans (removeTok S) cs

mutual
/-- Recursive walk of remove_inline_citations.  Unlike identifyJ, a
dict containing a references key sets the skip flag only for the value
stored under that key, and other dicts inherit the flag. -/
def removeJ (S : List Int) : Json → Bool → Json
  | .str s, flag => if flag then .str s else .str (String.mk (removeText S s.data))
  | .arr xs, flag => .arr (removeL S xs flag)
  | .obj fs, flag =>
    if fs.hasKey "references" then .obj (removeORef S fs)
    else .obj (removeO S fs flag)
  | j, _ => j
def removeL (S : List Int) : JList → Bool → JList
  | .nil, _ => .nil
  | .cons x t, flag => .cons (removeJ S x flag) (removeL S t flag)
def removeO (S : List Int) : JObj → Bool → JObj
  | .nil, _ => .nil
  | .cons k v t, flag => .cons k (removeJ S v flag) (removeO S t flag)
def removeORef (S : List Int) : JObj → JObj
  | .nil => .nil
  | .cons k v t => .cons k (removeJ S v (k == "references")) (removeORef S t)
end

/-- remove_inline_citations from src/utils.py. -/
def remove_inline_citations (data : Json) (references_to_remove : List Int) : Json :=
  removeJ references_to_remove data false

/-! ### Renumbering
(src/utils.py, create_remap_dictionary, update_reference_numbers and
update_inline_citations) -/

/-- create_remap_dictionary from src/utils.py: sort the present
reference numbers ascending and pair each with its 1-based position.
The association list models the Python dict; a later pair for the same
key overwrites an earlier one, which remapGet reproduces. -/
def create_remap_dictionary (data : Json) : List (Int × Int) :=
  match data with
  | .obj fs =>
    match fs.find? "references" with
    | some (.obj rfs) =>
      match rfs.find? "content" with
      | some (.arr xs) => enumFrom 1 (isort (collectRefNums xs))
      | _ => []
    | _ => []
  | _ => []

/-- Python dict lookup on the remap association list: the last binding
of a key wins. -/
def remapGet (m : List (Int × Int)) (k : Int) : Option Int :=
  m.foldl (fun acc p => if p.1 == k then some p.2 else acc) none

/-- Renumber the reference items of a content list.  Python indexes the
remap dict directly; the keys are exactly the numbers the remap was
built from, so the fallback branch is unreachable there. -/
def setRefNums (m : List (Int × Int)) : JList → JList
  | .nil => .nil
  | .cons x t =>
    .cons
      (match x with
       | .obj ofs =>
         .obj (ofs.mapVal "reference_number" fun v =>
           match v with
           | .int n =>
             match remapGet m n with
             | some nw => .int nw
             | none => .int n
           | v => v)
       | x => x)
      (setRefNums m t)

/-- update_reference_numbers from src/utils.py. -/
def update_reference_numbers (data : Json) (remap : List (Int × Int)) : Json :=
  match data with
  | .obj fs =>
    match fs.find? "references" with
    | some (.obj rfs) =>
      if rfs.hasKey "content" then
        .obj (fs.mapVal "references" fun r =>
          match r with
          | .obj rfs2 =>
            .obj (rfs2.mapVal "content" fun c =>
              match c with
              | .arr xs => .arr (setRefNums remap xs)
              | c => c)
          | r => r)
      else data
    | _ => data
  | _ => data

/-- The replace_citation helper of update_inline_citations: every token
is stripped; a digit token found in the remap becomes the string of its
new number, any other token is kept as its stripped self. -/
def updateTok (m : List (Int × Int)) (i : List Char) : List Char :=
  '[' :: joinSep ','
    ((splitOnChar ',' i).map fun r =>
      let t := pyStrip r
      if isDigits t then
        match remapGet m (digitsVal t) with
        | some nw => intToStr nw
        | none => t
      else t)
    ++ [']']

/-- The process_text helper of update_inline_citations. -/
def updateText (m : List (Int × Int)) (cs : List Char) : List Char :=
  subSpans (updateTok m) cs

mutual
/-- Recursive walk of update_inline_citations; same skip structure as
removeJ. -/
def updateJ (m : List (Int × Int)) : Json → Bool → Json
  | .str s, flag => if flag then .str s else .str (String.mk (updateText m s.data))
  | .arr xs, flag => .arr (updateL m xs flag)
  | .obj fs, flag =>
    if fs.hasKey "references" then .obj (updateORef m fs)
    else .obj (updateO m fs flag)
  | j, _ => j
def updateL (m : List (Int × Int)) : JList → Bool → JList
  | .nil, _ => .nil
  | .cons x t, flag => .cons (updateJ m x flag) (updateL m t flag)
def updateO (m : List (Int × Int)) : JObj → Bool → JObj
  | .nil, _ => .nil
  | .cons k v t, flag => .cons k (updateJ m v flag) (updateO m t flag)
def updateORef (m : List (Int × Int)) : JObj → JObj
  | .nil => .nil
  | .cons k v t => .cons k (updateJ m v (k == "references")) (updateORef m t)
end

/-- update_inline_citations from src/utils.py. -/
def update_inline_citations (data : Json) (remap : List (Int × Int)) : Json :=
  updateJ remap data false

/-- Python data.get("references", empty dict). -/
def getRefsSection (data : Json) : Json :=
  match data with
  | .obj fs => (fs.find? "references").getD (.obj .nil)
  | _ => .obj .nil

/-- clean_references from src/utils.py.  The final
check_for_duplicate_references step only prints a warning and does not
change the returned document, so it is not part of the value model. -/
def clean_references (data : Json) : Json :=
  let inline_citations := identify_all_inline_citations data
  let all_reference_numbers := get_all_reference_numbers (getRefsSection data)
  let orphaned_citations := inline_citations.filter fun n => !melem n all_reference_numbers
  let unused_references := all_reference_numbers.filter fun n => !melem n inline_citations
  let bad_references := get_bad_references data
  let d1 := remove_inline_citations data orphaned_citations
  let d2 := remove_references d1 unused_references
  let d3 := remove_references d2 bad_references
  let d4 := remove_inline_citations d3 bad_references
  let remap_dict := create_remap_dictionary d4
  let d5 := update_reference_numbers d4 remap_dict
  update_inline_citations d5 remap_dict

/-! ### Deduplication (src/utils.py, remove_duplicates) -/

/-- A search-result record: the content string the fingerprint is taken
from, plus the rest of the record, which deduplication ignores. -/
structure SRecord where
  content : String
  payload : Json
deriving DecidableEq

/-- Boolean membership in the seen set of fingerprints. -/
def memS (x : String) : List String → Bool
  | [] => false
  | y :: t => x == y || memS x t

/-- Accumulator loop of remove_duplicates. -/
def removeDupAux (hash : String → String) (seen : List String) :
    List SRecord → List SRecord
  | [] => []
  | r :: rest =>
    let h := hash r.content
    if memS h seen then removeDupAux hash seen rest
    else r :: removeDupAux hash (h :: seen) rest

/-- remove_duplicates from src/utils.py.  The source fingerprints the
content with hashlib.md5; a cryptographic digest is not expressible in
this embedding, so the digest is a parameter, instantiated with any
injective function (collision freedom is exactly what the source
assumes of md5). -/
def remove_duplicates (hash : String → String) (results : List SRecord) :
    List SRecord :=
  removeDupAux hash [] results

/-! ### Documents

The document clean_references receives is json.loads of the serialized
Article of src/models.py: an object with title, subtitle, the sections,
and a references section whose content is a list of reference items.
The structures below are that document shape; encodeDoc is its JSON
image, over which the generic walks above run. -/

/-- Content of a non-references section: plain text, a list of strings,
or a list of question-and-answer pairs. -/
inductive SecContent where
  | text (s : String) : SecContent
  | items (xs : List String) : SecContent
  | faqs (qa : List (String × String)) : SecContent
deriving DecidableEq

/-- A non-references section. -/
structure DocSection where
  heading : String
  content : SecContent
deriving DecidableEq

/-- A reference item (src/models.py ReferenceItem): reference_number is
a required int, the remaining fields are optional strings. -/
structure RefItem where
  reference_number : Int
  authors : Option String
  year : Option String
  title : Option String
  journal_source : Option String
  url_doi : Option String
deriving DecidableEq

/-- A document: title, subtitle, sections, and the references section
with its heading string and its reference items. -/
structure Doc where
  title : String
  subtitle : String
  sections : List DocSection
  refHeading : String
  refs : List RefItem
deriving DecidableEq

/-- Embed a Lean list of values as a JSON array. -/
def JList.ofList : List Json → JList
  | [] => .nil
  | x :: t => .cons x (JList.ofList t)

/-- Optional strings serialize as null or a string. -/
def encOptStr : Option String → Json
  | none => .null
  | some s => .str s

/-- JSON image of a reference item, fields in model order. -/
def encRefItem (r : RefItem) : Json :=
  .obj (.cons "reference_number" (.int r.reference_number)
    (.cons "authors" (encOptStr r.authors)
      (.cons "year" (encOptStr r.year)
        (.cons "title" (encOptStr r.title)
          (.cons "journal_source" (encOptStr r.journal_source)
            (.cons "url_doi" (encOptStr r.url_doi) .nil))))))

/-- JSON image of section content. -/
def encContent : SecContent → Json
  | .text s => .str s
  | .items xs => .arr (JList.ofList (xs.map Json.str))
  | .faqs qa =>
    .arr (JList.ofList (qa.map fun p =>
      .obj (.cons "question" (.str p.1) (.cons "answer" (.str p.2) .nil))))

/-- JSON image of a section. -/
def encSection (s : DocSection) : Json :=
  .obj (.cons "heading" (.str s.heading)
    (.cons "content" (encContent s.content) .nil))

/-- JSON image of a document. -/
def encodeDoc (d : Doc) : Json :=
  .obj (.cons "title" (.str d.title)
    (.cons "subtitle" (.str d.subtitle)
      (.cons "sections" (.arr (JList.ofList (d.sections.map encSection)))
        (.cons "references"
          (.obj (.cons "heading" (.str d.refHeading)
            (.cons "content" (.arr (JList.ofList (d.refs.map encRefItem))) .nil)))
          .nil))))

/-! ### The Semantic Scholar fetch client
(src/semanticscholar.py, SemanticScholarAPI)

The network is modelled as an oracle giving the outcome of every
attempt of every request; the event loop, the global rate limiter and
the backoff sleeps only reorder waiting and do not change which
attempts happen or what the coroutine returns, so they have no value
content here.  Paths the Python code would leave by an uncaught
exception are Except.error values. -/

namespace SS

/-- Outcome of one HTTP attempt: a response with its status code and
parsed JSON body, or an aiohttp client error (the transient network
failure the source catches). -/
inductive Outcome where
  | response (status : Nat) (body : Json) : Outcome
  | clientError : Outcome

/-- The failure outcomes named by the retry contract: HTTP 429, a 5xx
status, or a transient client error. -/
def claimFailure : Outcome → Bool
  | .response st _ => st == 429 || (500 ≤ st && st < 600)
  | .clientError => true

/-- Attempt loop of request_with_backoff: the first argument gives the
outcome of each attempt, the fuel is the remaining number of attempts.
A 200 response returns its body; a 429 response only logs; any other
status falls through; a client error is caught.  All non-200 attempts
back off and retry, and exhaustion returns None. -/
def requestAux (attempts : Nat → Outcome) : Nat → Nat → Option Json
  | 0, _ => none
  | fuel + 1, i =>
    match attempts i with
    | .response st b =>
      if st == 200 then some b else requestAux attempts fuel (i + 1)
    | .clientError => requestAux attempts fuel (i + 1)

/-- request_with_backoff from src/semanticscholar.py. -/
def requestWithBackoff (max_retries : Nat) (attempts : Nat → Outcome) :
    Option Json :=
  requestAux attempts max_retries 0

/-- One search query: the outline section it belongs to and the query
text.  (The Python dict key named section is a Lean keyword, hence
sectionName.) -/
structure SQuery where
  sectionName : String
  query : String

/-- The per-query network environment: the outcomes of the attempts of
the search request and of the batch-detail request. -/
structure QueryEnv where
  searchAttempts : Nat → Outcome
  batchAttempts : Nat → Outcome

/-- Client configuration: retry bound and the post-fetch filter
thresholds.  SJR scores are floats in the source; the filter only
compares them, so rationals model them. -/
structure Config where
  max_retries : Nat
  sjr_threshold : Rat
  min_citation_count : Int

/-- A validated paper, carrying the fields the client logic reads.  The
pydantic Paper model validates further field shapes (urls and so on)
that no claim touches; they ride along in raw. -/
structure Paper where
  sectionName : String
  query : String
  title : String
  abstract : String
  citationCount : Option Int
  raw : Json

/-- Pydantic validation of one paper record as far as the client logic
observes it: title and abstract must be present strings, citationCount
an optional int. -/
def validatePaper (search_query : String) (pd : Json) : Option Paper :=
  match pd with
  | .obj fs =>
    match fs.find? "title", fs.find? "abstract" with
    | some (.str t), some (.str a) =>
      match fs.find? "citationCount" with
      | some (.int n) => some ⟨"temp", search_query, t, a, some n, pd⟩
      | some .null => some ⟨"temp", search_query, t, a, none, pd⟩
      | none => some ⟨"temp", search_query, t, a, none, pd⟩
      | _ => none
    | _, _ => none
  | _ => none

/-- ISSN normalization: drop hyphens, strip whitespace. -/
def cleanIssn (s : String) : String :=
  String.mk (pyStrip (s.data.filter fun c => c ≠ '-'))

/-- Processing of one batch-response record in query_batch: read the
publication venue ISSN, keep the paper only when the venue has an SJR
score above the threshold and the validated paper has a citation count
above the minimum.  A missing or null venue yields an empty ISSN.
Python would raise comparing a None citationCount; that path is an
error value. -/
def processPaper (cfg : Config) (sjrMap : List (String × Rat))
    (search_query : String) (pd : Json) : Except String (List Paper) :=
  match pd with
  | .obj fs =>
    let issn :=
      match fs.find? "publicationVenue" with
      | some (.obj pv) =>
        match pv.find? "issn" with
        | some (.str s) => s
        | _ => ""
      | _ => ""
    match (sjrMap.find? fun p => p.1 == cleanIssn issn) with
    | some (_, sjr) =>
      if cfg.sjr_threshold < sjr then
        match validatePaper search_query pd with
        | some p =>
          match p.citationCount with
          | some c => .ok (if cfg.min_citation_count < c then [p] else [])
          | none => .error "unsupported comparison of None citationCount"
        | none => .ok []
      else .ok []
    | none => .ok []
  | _ => .error "paper record is not an object"

/-- Fold of processPaper over the batch response list. -/
def processPapers (cfg : Config) (sjrMap : List (String × Rat))
    (search_query : String) : JList → Except String (List Paper)
  | .nil => .ok []
  | .cons x t => do
    let h ← processPaper cfg sjrMap search_query x
    let r ← processPapers cfg sjrMap search_query t
    .ok (h ++ r)

/-- query_batch from src/semanticscholar.py: one batch request with
backoff; no or falsy response data yields no papers. -/
def queryBatch (cfg : Config) (sjrMap : List (String × Rat))
    (attempts : Nat → Outcome) (search_query : String) :
    Except String (List Paper) :=
  match requestWithBackoff cfg.max_retries attempts with
  | none => .ok []
  | some body =>
    if truthy (some body) then
      match body with
      | .arr xs => processPapers cfg sjrMap search_query xs
      | _ => .error "batch response is not a list"
    else .ok []

/-- Paper ids of a search response: the paperId field of every entry of
the data list.  A missing paperId key or a malformed entry is the
KeyError or TypeError Python would raise. -/
def extractPaperIds (sd : Json) : Except String (List Json) :=
  match sd with
  | .obj fs =>
    match (fs.find? "data").getD (.arr .nil) with
    | .arr xs => collect xs
    | _ => .error "data field is not a list"
  | _ => .error "search response is not an object"
where
  collect : JList → Except String (List Json)
    | .nil => .ok []
    | .cons x t =>
      match x with
      | .obj o =>
        match o.find? "paperId" with
        | some v => do
          let r ← collect t
          .ok (v :: r)
        | none => .error "KeyError paperId"
      | _ => .error "paper entry is not an object"

/-- Python dict building of the results: extend the list stored under
an existing section key, create the key otherwise. -/
def extendResult (results : List (String × List Paper)) (sec : String)
    (ps : List Paper) : List (String × List Paper) :=
  if results.any (fun p => p.1 == sec) then
    results.map fun p => if p.1 == sec then (p.1, p.2 ++ ps) else p
  else results ++ [(sec, ps)]

/-- Python results.setdefault-style branch: create the section with an
empty list only when absent. -/
def setdefaultEmpty (results : List (String × List Paper)) (sec : String) :
    List (String × List Paper) :=
  if results.any (fun p => p.1 == sec) then results
  else results ++ [(sec, [])]

/-- Sequential query loop of SemanticScholarAPI.query: for each query,
one search request with backoff; a failed or falsy search yields the
empty-result branch, otherwise the paper ids are read and, when
non-empty, fetched in a batch. -/
def queryAux (cfg : Config) (sjrMap : List (String × Rat))
    (env : Nat → QueryEnv) :
    Nat → List SQuery → List (String × List Paper) →
    Except String (List (String × List Paper))
  | _, [], results => .ok results
  | qi, q :: rest, results =>
    match requestWithBackoff cfg.max_retries (env qi).searchAttempts with
    | some sd =>
      if truthy (some sd) then
        match extractPaperIds sd with
        | .error e => .error e
        | .ok ids =>
          if ids.isEmpty then
            queryAux cfg sjrMap env (qi + 1) rest
              (setdefaultEmpty results q.sectionName)
          else
            match queryBatch cfg sjrMap (env qi).batchAttempts q.query with
            | .error e => .error e
            | .ok details =>
              queryAux cfg sjrMap env (qi + 1) rest
                (extendResult results q.sectionName details)
      else
        queryAux cfg sjrMap env (qi + 1) rest
          (setdefaultEmpty results q.sectionName)
    | none =>
      queryAux cfg sjrMap env (qi + 1) rest
        (setdefaultEmpty results q.sectionName)

/-- SemanticScholarAPI.query from src/semanticscholar.py. -/
def query (cfg : Config) (sjrMap : List (String × Rat))
    (env : Nat → QueryEnv) (queries : List SQuery) :
    Except String (List (String × List Paper)) :=
  queryAux cfg sjrMap env 0 queries []

end SS

/-! ### Concrete documents and helper definitions used by the claim
statements -/

/-- A fully well-formed reference item with number n. -/
def goodRef (n : Int) (s : String) : RefItem :=
  { reference_number := n, authors := some ("Author " ++ s),
    year := some ("2020"), title := some ("Title " ++ s),
    journal_source := some ("Journal " ++ s), url_doi := some ("url " ++ s) }

/-- End-to-end scenario input: markers 1, 3 and 1,4 in the section
content; declared items 1,2,3,4; item 2 cited nowhere; item 4 missing
authors. -/
def scenarioInput : Doc :=
  { title := "Topic", subtitle := "About the topic",
    sections := [⟨"Overview", .text "Alpha [1] beta [3] gamma [1,4]."⟩],
    refHeading := "References",
    refs := [goodRef 1 "one", goodRef 2 "two", goodRef 3 "three",
             { goodRef 4 "four" with authors := none }] }

/-- End-to-end scenario expected output: items 2 and 4 removed, the
survivors renumbered 1 and 2, markers rewritten to 1, 2 and 1. -/
def scenarioExpected : Doc :=
  { title := "Topic", subtitle := "About the topic",
    sections := [⟨"Overview", .text "Alpha [1] beta [2] gamma [1]."⟩],
    refHeading := "References",
    refs := [goodRef 1 "one", { goodRef 3 "three" with reference_number := 2 }] }

/-- True when an earlier record of the prefix has identical content. -/
def seenBefore (r : SRecord) (prev : List SRecord) : Bool :=
  prev.any fun x => x.content == r.content

/-- Order-preserving first-occurrence filter, the contract wording of
the deduplicator: drop a record exactly when some earlier record of the
input has byte-identical content. -/
def dedupFilterAux (prev : List SRecord) : List SRecord → List SRecord
  | [] => []
  | r :: rest =>
    if seenBefore r prev then dedupFilterAux (prev ++ [r]) rest
    else r :: dedupFilterAux (prev ++ [r]) rest

/-- First-occurrence deduplication by content. -/
def dedupFilter (rs : List SRecord) : List SRecord :=
  dedupFilterAux [] rs

/-- Concatenated text of a chunk list. -/
def renderChunks (l : List Chunk) : List Char :=
  (l.map Chunk.render).flatten

/-- Well-formedness of a chunk list as the greedy scanner produces it:
literal characters are never a left bracket, span interiors are
non-empty and free of right brackets, and an unclosed tail can only
close the list. -/
inductive SpanNF : List Chunk → Prop
  | nil : SpanNF []
  | last (t : List Char) (h : ']' ∉ t) : SpanNF [.tailOpen t]
  | ch (c : Char) (h : c ≠ '[') {l : List Chunk} (hl : SpanNF l) :
      SpanNF (.ch c :: l)
  | espan {l : List Chunk} (hl : SpanNF l) : SpanNF (.espan :: l)
  | span (i : List Char) (h1 : i ≠ []) (h2 : ']' ∉ i) {l : List Chunk}
      (hl : SpanNF l) : SpanNF (.span i :: l)

/-- Document with a purely non-numeric bracket and a sole marker: used
to exhibit the deletion behaviour of every clean_references run. -/
def nonNumericBracketDoc : Doc :=
  { title := "Topic", subtitle := "About the topic",
    sections := [⟨"Overview", .text "Intro [Smith] and [1], also [sic]."⟩],
    refHeading := "References", refs := [goodRef 1 "one"] }

/-- Expected output for nonNumericBracketDoc: the non-numeric brackets
are erased, the numeric marker survives. -/
def nonNumericBracketDocExpected : Doc :=
  { title := "Topic", subtitle := "About the topic",
    sections := [⟨"Overview", .text "Intro  and [1], also ."⟩],
    refHeading := "References", refs := [goodRef 1 "one"] }

/-- Document whose single marker points only at a bad reference. -/
def soleBadMarkerDoc : Doc :=
  { title := "Topic", subtitle := "About the topic",
    sections := [⟨"Overview", .text "Alpha [1] beta."⟩],
    refHeading := "References",
    refs := [{ goodRef 1 "one" with year := none }] }

/-- Expected output for soleBadMarkerDoc: the item and its sole marker
disappear entirely. -/
def soleBadMarkerDocExpected : Doc :=
  { title := "Topic", subtitle := "About the topic",
    sections := [⟨"Overview", .text "Alpha  beta."⟩],
    refHeading := "References", refs := [] }

/-- Document whose only marker mixes a numeric and a non-numeric token
and whose sole reference item is missing its year. -/
def mixedSoleDoc : Doc :=
  { title := "Topic", subtitle := "About the topic",
    sections := [⟨"Overview", .text "see [1,x]."⟩],
    refHeading := "References",
    refs := [{ goodRef 1 "one" with year := none }] }

/-- Expected output for mixedSoleDoc: the bad item is pruned and the
whole mixed marker, including the non-numeric token x, is deleted. -/
def mixedSoleDocExpected : Doc :=
  { title := "Topic", subtitle := "About the topic",
    sections := [⟨"Overview", .text "see ."⟩],
    refHeading := "References", refs := [] }

/-! ### Document-level mirror of the pipeline -/

/-- Truthiness of an optional string field of a reference item. -/
def optTruthy : Option String → Bool
  | none => false
  | some s => !s.isEmpty

/-- Well-formedness failure of a reference item: a missing or empty
journal_source, authors or year. -/
def refBad (r : RefItem) : Bool :=
  !optTruthy r.journal_source || !optTruthy r.authors || !optTruthy r.year

/-- Content strings of one section in walk order. -/
def contentStringsOf (s : DocSection) : List String :=
  match s.content with
  | .text t => [t]
  | .items xs => xs
  | .faqs qa => (qa.map fun p => [p.1, p.2]).flatten

/-- Strings of one section in walk order: the heading, then the
content strings. -/
def secStrings (s : DocSection) : List String :=
  s.heading :: contentStringsOf s

/-- String fields of a reference item in walk order. -/
def refItemStrings (r : RefItem) : List String :=
  r.authors.toList ++ r.year.toList ++ r.title.toList ++
    r.journal_source.toList ++ r.url_doi.toList

/-- The strings the citation-collection walk visits, in walk order:
every section string, then the references heading, then every
reference item string field; the top-level title and subtitle are
skipped. -/
def identifyVisibleStrings (d : Doc) : List String :=
  (d.sections.map secStrings).flatten ++
    d.refHeading :: (d.refs.map refItemStrings).flatten

/-- Inline citations of a list of strings. -/
def citsOfStrings (l : List String) : List Int :=
  (l.map fun s => citsOfText s.data).flatten

/-- Map a text transformation over section content. -/
def mapContent (f : String → String) : SecContent → SecContent
  | .text t => .text (f t)
  | .items xs => .items (xs.map f)
  | .faqs qa => .faqs (qa.map fun p => (f p.1, f p.2))

/-- Map a text transformation over a section. -/
def mapSection (f : String → String) (s : DocSection) : DocSection :=
  ⟨f s.heading, mapContent f s.content⟩

/-- Map a text transformation over the strings the marker-rewriting
walks process: title, subtitle, section headings and contents; the
references subtree is untouched by those walks. -/
def mapDocStrings (f : String → String) (d : Doc) : Doc :=
  { d with
    title := f d.title
    subtitle := f d.subtitle
    sections := d.sections.map (mapSection f) }

/-- String-level stage of remove_inline_citations. -/
def remS (S : List Int) (s : String) : String :=
  String.mk (removeText S s.data)

/-- String-level stage of update_inline_citations. -/
def updS (m : List (Int × Int)) (s : String) : String :=
  String.mk (updateText m s.data)

/-- Renumbered reference item. -/
def remapRefItem (m : List (Int × Int)) (r : RefItem) : RefItem :=
  { r with reference_number := (remapGet m r.reference_number).getD r.reference_number }

/-- Document with a bracketed number 2 occurring only inside a
reference item title: the body cites only 1, both items are
well-formed. -/
def refTitleCiteDoc : Doc :=
  { title := "Topic", subtitle := "About the topic",
    sections := [⟨"Overview", .text "Intro [1]."⟩],
    refHeading := "References",
    refs := [{ goodRef 1 "one" with title := some "T [2] more" }, goodRef 2 "two"] }

/-- Document whose reference item 2 carries a bracketed 3 in its title
while the body cites only 2: renumbering shifts the declared numbers
away from the frozen bracketed 3, so a second cleaning pass prunes
differently than the first. -/
def refShiftDoc : Doc :=
  { title := "Topic", subtitle := "About the topic",
    sections := [⟨"Overview", .text "Body [2]."⟩],
    refHeading := "References",
    refs := [{ goodRef 2 "two" with title := some "B [3] C" }, goodRef 3 "three"] }

/-- First cleaning pass of refShiftDoc: the remap sends 2 to 1 and 3
to 2, the body marker becomes 1, the bracketed 3 in the item title is
frozen because the references subtree is never rewritten. -/
def refShiftMid : Doc :=
  { title := "Topic", subtitle := "About the topic",
    sections := [⟨"Overview", .text "Body [1]."⟩],
    refHeading := "References",
    refs := [{ goodRef 2 "two" with reference_number := 1, title := some "B [3] C" },
             { goodRef 3 "three" with reference_number := 2 }] }

/-- Second cleaning pass of refShiftMid: the frozen bracketed 3 is now
orphaned and item 2 is unused, so it is pruned. -/
def refShiftFinal : Doc :=
  { title := "Topic", subtitle := "About the topic",
    sections := [⟨"Overview", .text "Body [1]."⟩],
    refHeading := "References",
    refs := [{ goodRef 2 "two" with reference_number := 1, title := some "B [3] C" }] }

/-- Integer values denoted by the citation markers of a string under
the Citation Parser semantics (extract_citations, ranges expanded). -/
def strCitVals (s : String) : List Int :=
  (extract_citations s).filterMap fun t => pyToInt? t.data

/-- Content strings of the non-references sections of a document. -/
def docContentStrings (d : Doc) : List String :=
  (d.sections.map contentStringsOf).flatten

/-- Reference numbers denoted by inline citation markers in the
non-references section content of a document, per the Citation Parser
semantics. -/
def docCitedInContent (d : Doc) : List Int :=
  ((docContentStrings d).map strCitVals).flatten

/-! ### Chunk-level view of the rewriting stages -/

/-- Interior of a span chunk. -/
def spanOf? : Chunk → Option (List Char)
  | .span i => some i
  | _ => none

/-- Digit values of one chunk: a span contributes its token values. -/
def chunkCits : Chunk → List Int
  | .span i => tokVals i
  | _ => []

/-- Keep condition of remove_inline_citations on one interior: some
token is a digit outside the removal set. -/
def keepCond (S : List Int) (i : List Char) : Bool :=
  (splitOnChar ',' i).any fun r =>
    isDigits (pyStrip r) && !melem (digitsVal (pyStrip r)) S

/-- Surviving stripped tokens of one interior under the remove stage. -/
def outToksR (S : List Int) (i : List Char) : List (List Char) :=
  (splitOnChar ',' i).filterMap fun r =>
    if isDigits (pyStrip r) && melem (digitsVal (pyStrip r)) S then none
    else some (pyStrip r)

/-- Image of one chunk under the remove stage, at the chunk level. -/
def chunkRemove (S : List Int) : Chunk → List Chunk
  | .span i =>
    if keepCond S i then [.span (joinSep ',' (outToksR S i))] else []
  | k => [k]

/-- Rewriting of one token by the update stage. -/
def newTokU (m : List (Int × Int)) (r : List Char) : List Char :=
  let t := pyStrip r
  if isDigits t then
    match remapGet m (digitsVal t) with
    | some nw => intToStr nw
    | none => t
  else t

/-- Rewritten tokens of one interior under the update stage. -/
def newToksU (m : List (Int × Int)) (i : List Char) : List (List Char) :=
  (splitOnChar ',' i).map (newTokU m)

/-- Image of one chunk under the update stage. -/
def chunkUpdate (m : List (Int × Int)) : Chunk → Chunk
  | .span i =>
    if (joinSep ',' (newToksU m i)).isEmpty then .espan
    else .span (joinSep ',' (newToksU m i))
  | k => k

/-- Applied remap: the new number of a key, the key itself otherwise. -/
def remapApply (m : List (Int × Int)) (v : Int) : Int :=
  (remapGet m v).getD v

/-- Interior the lazy scanner reports for one greedy chunk: matched
spans keep their interior, an empty bracket pair is an empty lazy
match, and literal characters and an unclosed tail yield nothing. -/
def lazKind : Chunk → Option (List Char)
  | .span i => some i
  | .espan => some []
  | _ => none

/-! ### Span-shape predicates on texts -/

/-- Every greedy span interior has tokens that strip to digit strings. -/
def spanToksDigit (cs : List Char) : Prop :=
  ∀ i, Chunk.span i ∈ scan cs → ∀ r ∈ splitOnChar ',' i, isDigits (pyStrip r) = true

/-- Normalized text: every greedy span interior is digit tokens joined
by commas, with no surrounding whitespace. -/
def normSpans (cs : List Char) : Prop :=
  ∀ i, Chunk.span i ∈ scan cs → ∀ r ∈ splitOnChar ',' i, isDigits r = true

/-- Text without greedy spans. -/
def noSpans (cs : List Char) : Prop :=
  ∀ i, Chunk.span i ∉ scan cs

/-- Canonical marker text over a key set: every token is the decimal
string of a non-negative key. -/
def canonSpans (K : List Int) (cs : List Char) : Prop :=
  ∀ i, Chunk.span i ∈ scan cs → ∀ r ∈ splitOnChar ',' i,
    ∃ v : Int, 0 ≤ v ∧ melem v K = true ∧ r = intToStr v

/-- Document-level mirror of clean_references on Article-shaped
documents; proved equal to the source pipeline through encodeDoc. -/
def cleanDoc (d : Doc) : Doc :=
  let cited := citsOfStrings (identifyVisibleStrings d)
  let declared := d.refs.map fun r => r.reference_number
  let orphaned := cited.filter fun n => !melem n declared
  let unused := declared.filter fun n => !melem n cited
  let bad := (d.refs.filter refBad).map fun r => r.reference_number
  let e1 := mapDocStrings (remS orphaned) d
  let e2 := { e1 with refs := e1.refs.filter fun r => !melem r.reference_number unused }
  let e3 := { e2 with refs := e2.refs.filter fun r => !melem r.reference_number bad }
  let e4 := mapDocStrings (remS bad) e3
  let m := enumFrom 1 (isort (e4.refs.map fun r => r.reference_number))
  let e5 := { e4 with refs := e4.refs.map (remapRefItem m) }
  mapDocStrings (updS m) e5

/-! ### Named stages of cleanDoc -/

/-- Citations the collection walk sees. -/
def citedL (d : Doc) : List Int := citsOfStrings (identifyVisibleStrings d)

/-- Declared reference numbers. -/
def declaredL (d : Doc) : List Int := d.refs.map fun r => r.reference_number

/-- Orphaned citations: cited but not declared. -/
def orphL (d : Doc) : List Int :=
  (citedL d).filter fun n => !melem n (declaredL d)

/-- Unused references: declared but not cited. -/
def unusedL (d : Doc) : List Int :=
  (declaredL d).filter fun n => !melem n (citedL d)

/-- Numbers of the ill-formed reference items. -/
def badL (d : Doc) : List Int :=
  (d.refs.filter refBad).map fun r => r.reference_number

/-- Reference items that survive the unused and bad prunings. -/
def survivorsL (d : Doc) : List RefItem :=
  (d.refs.filter fun r => !melem r.reference_number (unusedL d)).filter fun r =>
    !melem r.reference_number (badL d)

/-- The remap dictionary of the cleaning run. -/
def remapFin (d : Doc) : List (Int × Int) :=
  enumFrom 1 (isort ((survivorsL d).map fun r => r.reference_number))

/-- Composite string transformation of one cleaning run. -/
def gFun (d : Doc) (s : String) : String :=
  updS (remapFin d) (remS (badL d) (remS (orphL d) s))

end PaperGen

namespace PaperGen

/-! ## Theorems -/

/-! ### Digit-string and token facts -/

theorem digitChar_isDigit {m : Nat} (h : m < 10) : (digitChar m).isDigit = true := by
  interval_cases m <;> decide

theorem digitVal_digitChar {m : Nat} (h : m < 10) : digitVal (digitChar m) = (m : Int) := by
  interval_cases m <;> decide

theorem digitsVal_snoc (a : List Char) (c : Char) :
    digitsVal (a ++ [c]) = 10 * digitsVal a + digitVal c := by
  unfold digitsVal
  rw [List.foldl_append]
  rfl

theorem natDigitsAux_spec :
    ∀ fuel n : Nat, n < fuel →
      (∀ c ∈ natDigitsAux fuel n, c.isDigit = true) ∧
        natDigitsAux fuel n ≠ [] ∧
        digitsVal (natDigitsAux fuel n) = (n : Int) := by
  intro fuel
  induction fuel with
  | zero => intro n h; omega
  | succ fuel ih =>
    intro n _
    by_cases h10 : n < 10
    · simp only [natDigitsAux, if_pos h10]
      refine ⟨?_, by simp, ?_⟩
      · intro c hc
        simp only [List.mem_singleton] at hc
        subst hc
        exact digitChar_isDigit h10
      · simp [digitsVal, digitVal_digitChar h10]
    · have hdiv : n / 10 < fuel := by omega
      obtain ⟨hd, _, hv⟩ := ih (n / 10) hdiv
      simp only [natDigitsAux, if_neg h10]
      refine ⟨?_, by simp, ?_⟩
      · intro c hc
        rcases List.mem_append.1 hc with hc | hc
        · exact hd c hc
        · simp only [List.mem_singleton] at hc
          subst hc
          exact digitChar_isDigit (Nat.mod_lt _ (by omega))
      · rw [digitsVal_snoc, hv, digitVal_digitChar (Nat.mod_lt _ (by omega))]
        omega

theorem natDigits_isDigit {n : Nat} : ∀ c ∈ natDigits n, c.isDigit = true :=
  (natDigitsAux_spec (n + 1) n (Nat.lt_succ_self n)).1

theorem natDigits_ne_nil {n : Nat} : natDigits n ≠ [] :=
  (natDigitsAux_spec (n + 1) n (Nat.lt_succ_self n)).2.1

theorem digitsVal_natDigits {n : Nat} : digitsVal (natDigits n) = (n : Int) :=
  (natDigitsAux_spec (n + 1) n (Nat.lt_succ_self n)).2.2

theorem intToStr_nonneg {v : Int} (h : 0 ≤ v) : intToStr v = natDigits v.toNat := by
  unfold intToStr
  rw [if_neg (by omega)]

theorem intToStr_isDigit {v : Int} (h : 0 ≤ v) : ∀ c ∈ intToStr v, c.isDigit = true := by
  rw [intToStr_nonneg h]
  exact natDigits_isDigit

theorem intToStr_ne_nil {v : Int} (h : 0 ≤ v) : intToStr v ≠ [] := by
  rw [intToStr_nonneg h]
  exact natDigits_ne_nil

theorem digitsVal_intToStr {v : Int} (h : 0 ≤ v) : digitsVal (intToStr v) = v := by
  rw [intToStr_nonneg h, digitsVal_natDigits, Int.toNat_of_nonneg h]

/-- A digit character is distinct from any non-digit character. -/
theorem digit_ne {c d : Char} (h : c.isDigit = true) (hd : d.isDigit = false) : c ≠ d := by
  intro e
  rw [e, hd] at h
  exact Bool.false_ne_true h

theorem isPySpace_of_digit {c : Char} (h : c.isDigit = true) : isPySpace c = false := by
  rcases hs : isPySpace c with _ | _
  · rfl
  · exfalso
    simp only [isPySpace, Bool.or_eq_true, decide_eq_true_eq] at hs
    rcases hs with ((((e | e) | e) | e) | e) | e <;> (subst e; exact absurd h (by decide))

theorem dropWhile_eq_self_of_false {p : Char → Bool} {cs : List Char}
    (h : ∀ c ∈ cs, p c = false) : cs.dropWhile p = cs := by
  cases cs with
  | nil => rfl
  | cons c t =>
    rw [List.dropWhile_cons_of_neg]
    simp [h c (List.mem_cons_self c t)]

theorem pyStrip_of_no_space {cs : List Char} (h : ∀ c ∈ cs, isPySpace c = false) :
    pyStrip cs = cs := by
  unfold pyStrip
  rw [dropWhile_eq_self_of_false h,
    dropWhile_eq_self_of_false (fun c hc => h c (List.mem_reverse.1 hc)),
    List.reverse_reverse]

theorem pyStrip_digits {cs : List Char} (h : ∀ c ∈ cs, c.isDigit = true) :
    pyStrip cs = cs :=
  pyStrip_of_no_space fun c hc => isPySpace_of_digit (h c hc)

theorem isDigits_of_forall {cs : List Char} (hne : cs ≠ [])
    (h : ∀ c ∈ cs, c.isDigit = true) : isDigits cs = true := by
  cases cs with
  | nil => exact absurd rfl hne
  | cons c t =>
    unfold isDigits
    simp only [List.isEmpty_cons, Bool.not_false, Bool.true_and, List.all_eq_true]
    exact fun x hx => h x hx

theorem pyToInt?_digits {cs : List Char} (hne : cs ≠ [])
    (h : ∀ c ∈ cs, c.isDigit = true) : pyToInt? cs = some (digitsVal cs) := by
  cases cs with
  | nil => exact absurd rfl hne
  | cons c t =>
    have hc : c.isDigit = true := h c (List.mem_cons_self c t)
    have hs : pyStrip (c :: t) = c :: t := pyStrip_digits h
    simp only [pyToInt?, hs]
    rw [if_neg (digit_ne hc (by decide)), if_neg (digit_ne hc (by decide)),
      if_pos (isDigits_of_forall hne h)]

theorem splitOnChar_of_not_mem {sep : Char} {cs : List Char} (h : sep ∉ cs) :
    splitOnChar sep cs = [cs] := by
  induction cs with
  | nil => rfl
  | cons c t ih =>
    have hc : c ≠ sep := fun e => h (e ▸ List.mem_cons_self c t)
    have ht : sep ∉ t := fun e => h (List.mem_cons_of_mem c e)
    simp only [splitOnChar, if_neg hc, ih ht]

theorem splitOnChar_append {sep : Char} {a b : List Char} (h : sep ∉ a) :
    splitOnChar sep (a ++ sep :: b) = a :: splitOnChar sep b := by
  induction a with
  | nil => simp [splitOnChar]
  | cons c t ih =>
    have hc : c ≠ sep := fun e => h (e ▸ List.mem_cons_self c t)
    have ht : sep ∉ t := fun e => h (List.mem_cons_of_mem c e)
    have heq := ih ht
    simp only [List.cons_append, splitOnChar, if_neg hc, List.append_eq, heq]

/-! ### Lazy scanner facts -/

theorem lazyA_litRun {pre cs : List Char} (h : ∀ c ∈ pre, c ≠ '[') :
    lazyA (pre ++ cs) none = lazyA cs none := by
  induction pre with
  | nil => rfl
  | cons c t ih =>
    have hc : c ≠ '[' := h c (List.mem_cons_self c t)
    simp only [List.cons_append, lazyA, if_neg hc]
    exact ih fun d hd => h d (List.mem_cons_of_mem c hd)

theorem lazyA_span {i : List Char} (h1 : ']' ∉ i) (h2 : '\n' ∉ i) :
    ∀ (acc rest : List Char),
      lazyA (i ++ ']' :: rest) (some acc) = (acc.reverse ++ i) :: lazyA rest none := by
  induction i with
  | nil => intro acc rest; simp [lazyA]
  | cons c t ih =>
    intro acc rest
    have hc1 : c ≠ ']' := fun e => h1 (e ▸ List.mem_cons_self c t)
    have hc2 : c ≠ '\n' := fun e => h2 (e ▸ List.mem_cons_self c t)
    have ht1 : ']' ∉ t := fun e => h1 (List.mem_cons_of_mem c e)
    have ht2 : '\n' ∉ t := fun e => h2 (List.mem_cons_of_mem c e)
    simp only [List.cons_append, lazyA, if_neg hc1, if_neg hc2, List.append_eq]
    rw [ih ht1 ht2, List.reverse_cons, List.append_assoc]
    rfl

/-! ### Citation-span character facts -/

theorem isCSrest_chars : ∀ i : List Char, isCSrest i = true →
    ∀ c ∈ i, c.isDigit = true ∨ c = ',' ∨ c = '-'
  | [], _, c, hc => absurd hc (List.not_mem_nil c)
  | c :: rest, h, d, hd => by
    unfold isCSrest at h
    by_cases hdig : c.isDigit = true
    · rw [if_pos hdig] at h
      rcases List.mem_cons.1 hd with e | hd'
      · exact Or.inl (e ▸ hdig)
      · exact isCSrest_chars rest h d hd'
    · rw [if_neg hdig] at h
      by_cases hsep : (decide (c = ',') || decide (c = '-')) = true
      · rw [if_pos hsep] at h
        cases rest with
        | nil => exact absurd h (by simp)
        | cons d0 rest2 =>
          simp only [Bool.and_eq_true] at h
          rcases List.mem_cons.1 hd with e | hd'
          · have hsep2 : c = ',' ∨ c = '-' := by simpa using hsep
            rcases hsep2 with e2 | e2
            · exact Or.inr (Or.inl (e.trans e2))
            · exact Or.inr (Or.inr (e.trans e2))
          · rcases List.mem_cons.1 hd' with e | hd''
            · exact Or.inl (e ▸ h.1)
            · exact isCSrest_chars rest2 h.2 d hd''
      · rw [if_neg hsep] at h
        exact absurd h (by simp)

theorem isCitationSpan_chars {i : List Char} (h : isCitationSpan i = true) :
    ∀ c ∈ i, c.isDigit = true ∨ c = ',' ∨ c = '-' := by
  cases i with
  | nil => intro c hc; exact absurd hc (List.not_mem_nil c)
  | cons c rest =>
    simp only [isCitationSpan, Bool.and_eq_true] at h
    intro d hd
    rcases List.mem_cons.1 hd with e | hd'
    · exact Or.inl (e ▸ h.1)
    · exact isCSrest_chars rest h.2 d hd'

theorem isCitationSpan_no_rbracket {i : List Char} (h : isCitationSpan i = true) :
    ']' ∉ i := by
  intro hm
  rcases isCitationSpan_chars h ']' hm with hc | hc | hc <;> simp at hc

theorem isCitationSpan_no_newline {i : List Char} (h : isCitationSpan i = true) :
    '\n' ∉ i := by
  intro hm
  rcases isCitationSpan_chars h '\n' hm with hc | hc | hc <;> simp at hc

/-! ### C1: end-to-end scenario -/

/-- C1: for the document whose section content carries the inline
markers 1, 3 and 1,4 and whose references section declares items
1,2,3,4 with item 2 uncited and item 4 missing authors,
clean_references removes items 2 and 4, renumbers the survivors with
the map sending 1 to 1 and 3 to 2, and rewrites the three markers to 1,
2 and 1; the marker 1,4 loses only the token 4. -/
theorem clean_references_end_to_end_scenario :
    clean_references (encodeDoc scenarioInput) = encodeDoc scenarioExpected := by
  decide

/-! ### C8: deduplication -/

/-- Auxiliary invariant: the accumulator run of remove_duplicates
agrees with the first-occurrence filter whenever the seen set holds
exactly the digests of the already-processed prefix. -/
theorem removeDupAux_eq_dedupFilterAux (hash : String → String)
    (hinj : Function.Injective hash) :
    ∀ (rest : List SRecord) (seen : List String) (prev : List SRecord),
      (∀ s, memS s seen = true ↔ ∃ x ∈ prev, hash x.content = s) →
      removeDupAux hash seen rest = dedupFilterAux prev rest := by
  intro rest
  induction rest with
  | nil => intro seen prev _; rfl
  | cons r rest ih =>
    intro seen prev hseen
    have hmem : memS (hash r.content) seen = seenBefore r prev := by
      by_cases h : ∃ x ∈ prev, x.content = r.content
      · obtain ⟨x, hx, hxc⟩ := h
        have h1 : memS (hash r.content) seen = true :=
          (hseen (hash r.content)).2 ⟨x, hx, by rw [hxc]⟩
        have h2 : seenBefore r prev = true := by
          simp only [seenBefore, List.any_eq_true]
          exact ⟨x, hx, by simp [hxc]⟩
        rw [h1, h2]
      · have h1 : memS (hash r.content) seen = false := by
          rcases hb : memS (hash r.content) seen with _ | _
          · rfl
          · exfalso
            obtain ⟨x, hx, hxc⟩ := (hseen (hash r.content)).1 hb
            exact h ⟨x, hx, hinj hxc⟩
        have h2 : seenBefore r prev = false := by
          rcases hb : seenBefore r prev with _ | _
          · rfl
          · exfalso
            simp only [seenBefore, List.any_eq_true] at hb
            obtain ⟨x, hx, hxc⟩ := hb
            exact h ⟨x, hx, by simpa using hxc⟩
        rw [h1, h2]
    have hstep : ∀ s, memS s (hash r.content :: seen) = true ↔
        ∃ x ∈ prev ++ [r], hash x.content = s := by
      intro s
      simp only [memS, Bool.or_eq_true, beq_iff_eq, hseen s, List.mem_append,
        List.mem_singleton]
      constructor
      · rintro (h | ⟨x, hx, hxs⟩)
        · exact ⟨r, Or.inr rfl, h.symm⟩
        · exact ⟨x, Or.inl hx, hxs⟩
      · rintro ⟨x, hx | hx, hxs⟩
        · exact Or.inr ⟨x, hx, hxs⟩
        · exact Or.inl (by rw [← hxs, hx])
    have hstep2 : seenBefore r prev = true →
        ∀ s, memS s seen = true ↔ ∃ x ∈ prev ++ [r], hash x.content = s := by
      intro hb s
      rw [hseen s]
      constructor
      · rintro ⟨x, hx, hxs⟩
        exact ⟨x, List.mem_append.2 (Or.inl hx), hxs⟩
      · rintro ⟨x, hx, hxs⟩
        rcases List.mem_append.1 hx with hx | hx
        · exact ⟨x, hx, hxs⟩
        · simp only [seenBefore, List.any_eq_true, beq_iff_eq] at hb
          obtain ⟨y, hy, hyc⟩ := hb
          have hx' : x = r := by simpa using hx
          exact ⟨y, hy, by rw [hyc, ← hx', hxs]⟩
    rcases hb : seenBefore r prev with _ | _
    · have hihc := ih (hash r.content :: seen) (prev ++ [r]) hstep
      simp only [removeDupAux, dedupFilterAux, hmem, hb]
      simp [hihc]
    · have hihc := ih seen (prev ++ [r]) (hstep2 hb)
      simp only [removeDupAux, dedupFilterAux, hmem, hb]
      simp [hihc]

/-- C8: deduplication preserves input order and keeps exactly the first
occurrence of each content fingerprint: with a collision-free digest,
remove_duplicates equals the first-occurrence filter on every record
list, and on a list a, b, a, c with pairwise distinct contents it
returns a, b, c. -/
theorem remove_duplicates_keeps_first_occurrence (hash : String → String)
    (hinj : Function.Injective hash) :
    (∀ rs : List SRecord, remove_duplicates hash rs = dedupFilter rs) ∧
    (∀ a b c : SRecord, a.content ≠ b.content → a.content ≠ c.content →
      b.content ≠ c.content →
      remove_duplicates hash [a, b, a, c] = [a, b, c]) := by
  have hgen : ∀ rs : List SRecord, remove_duplicates hash rs = dedupFilter rs := by
    intro rs
    refine removeDupAux_eq_dedupFilterAux hash hinj rs [] [] ?_
    intro s
    simp [memS]
  refine ⟨hgen, ?_⟩
  intro a b c hab hac hbc
  rw [hgen]
  have hba : b.content ≠ a.content := fun h => hab h.symm
  have hca : c.content ≠ a.content := fun h => hac h.symm
  have hcb : c.content ≠ b.content := fun h => hbc h.symm
  simp [dedupFilter, dedupFilterAux, seenBefore, hab, hac, hbc, hba, hca, hcb]

/-- Witness for C8 at concrete records with the identity digest. -/
theorem remove_duplicates_keeps_first_occurrence_witness :
    remove_duplicates id
        [⟨"alpha", .null⟩, ⟨"beta", .null⟩, ⟨"alpha", .int 7⟩, ⟨"gamma", .null⟩]
      = [⟨"alpha", .null⟩, ⟨"beta", .null⟩, ⟨"gamma", .null⟩] :=
  (remove_duplicates_keeps_first_occurrence id fun _ _ h => h).2
    ⟨"alpha", .null⟩ ⟨"beta", .null⟩ ⟨"gamma", .null⟩
    (by decide) (by decide) (by decide)

/-! ### C9: exhausted retries degrade to an empty result -/

/-- Auxiliary fact: when every attempted outcome is one of the retried
failures, the backoff loop returns none. -/
theorem requestAux_all_fail (attempts : Nat → SS.Outcome) :
    ∀ (fuel i : Nat),
      (∀ k, i ≤ k → k < i + fuel → SS.claimFailure (attempts k) = true) →
      SS.requestAux attempts fuel i = none := by
  intro fuel
  induction fuel with
  | zero => intro i _; rfl
  | succ fuel ih =>
    intro i h
    have hi : SS.claimFailure (attempts i) = true :=
      h i (Nat.le_refl i) (Nat.lt_of_lt_of_le (Nat.lt_succ_self i) (by omega))
    have hrec : SS.requestAux attempts fuel (i + 1) = none := by
      refine ih (i + 1) ?_
      intro k h1 h2
      exact h k (by omega) (by omega)
    cases ha : attempts i with
    | response st b =>
      have hst : (st == 200) = false := by
        rw [ha] at hi
        simp only [SS.claimFailure, Bool.or_eq_true, beq_iff_eq] at hi
        rcases hi with h429 | h5xx
        · simp [h429]
        · simp only [Bool.and_eq_true, decide_eq_true_eq] at h5xx
          have : st ≠ 200 := by omega
          simp [this]
      simp [SS.requestAux, ha, hst, hrec]
    | clientError => simp [SS.requestAux, ha, hrec]

/-- Auxiliary fact: with every search attempt failing, the query loop
only takes the empty-result branch. -/
theorem queryAux_all_fail (cfg : SS.Config) (sjrMap : List (String × Rat))
    (env : Nat → SS.QueryEnv)
    (h : ∀ qi i, i < cfg.max_retries →
      SS.claimFailure ((env qi).searchAttempts i) = true) :
    ∀ (queries : List SS.SQuery) (qi : Nat)
      (results : List (String × List SS.Paper)),
      SS.queryAux cfg sjrMap env qi queries results =
        .ok (queries.foldl (fun acc q => SS.setdefaultEmpty acc q.sectionName) results) := by
  intro queries
  induction queries with
  | nil => intro qi results; rfl
  | cons q rest ih =>
    intro qi results
    have hr : SS.requestWithBackoff cfg.max_retries (env qi).searchAttempts = none := by
      refine requestAux_all_fail _ cfg.max_retries 0 ?_
      intro k _ hk
      exact h qi k (by omega)
    simp only [SS.queryAux, hr, List.foldl_cons]
    exact ih (qi + 1) (SS.setdefaultEmpty results q.sectionName)

/-- C9: when every attempt of a search request fails with HTTP 429, a
5xx status or a transient network error, up to the configured retry
bound, the query operation returns the empty result for each query and
never raises: the result is an ok value mapping every section to an
empty paper list. -/
theorem query_exhausted_retries_returns_empty (cfg : SS.Config)
    (sjrMap : List (String × Rat)) (env : Nat → SS.QueryEnv)
    (queries : List SS.SQuery)
    (h : ∀ qi i, i < cfg.max_retries →
      SS.claimFailure ((env qi).searchAttempts i) = true) :
    SS.query cfg sjrMap env queries =
      .ok (queries.foldl (fun acc q => SS.setdefaultEmpty acc q.sectionName) []) :=
  queryAux_all_fail cfg sjrMap env h queries 0 []

/-! ### Greedy scanner facts -/

theorem scanA_ch {c : Char} (h : c ≠ '[') (cs : List Char) :
    scanA (c :: cs) none = .ch c :: scanA cs none := by
  simp [scanA, h]

theorem scan_litRun {pre : List Char} (h : ∀ c ∈ pre, c ≠ '[') (cs : List Char) :
    scan (pre ++ cs) = pre.map Chunk.ch ++ scan cs := by
  unfold scan
  induction pre with
  | nil => rfl
  | cons c t ih =>
    have hc : c ≠ '[' := h c (List.mem_cons_self c t)
    simp only [List.cons_append, List.map_cons, scanA_ch hc]
    rw [ih fun d hd => h d (List.mem_cons_of_mem c hd)]

theorem scanA_close {i : List Char} (h : ']' ∉ i) :
    ∀ acc rest : List Char,
      scanA (i ++ ']' :: rest) (some acc) =
        (if (acc.reverse ++ i).isEmpty then Chunk.espan
         else .span (acc.reverse ++ i)) :: scanA rest none := by
  induction i with
  | nil =>
    intro acc rest
    cases acc with
    | nil => rfl
    | cons a as => simp [scanA]
  | cons c t ih =>
    intro acc rest
    have hc : c ≠ ']' := fun e => h (e ▸ List.mem_cons_self c t)
    have ht : ']' ∉ t := fun e => h (List.mem_cons_of_mem c e)
    simp only [List.cons_append, scanA, if_neg hc, List.append_eq]
    rw [ih ht (c :: acc) rest]
    simp

theorem scan_span {i : List Char} (h1 : i ≠ []) (h2 : ']' ∉ i)
    (rest : List Char) :
    scan ('[' :: (i ++ ']' :: rest)) = .span i :: scan rest := by
  unfold scan
  have hstep : scanA ('[' :: (i ++ ']' :: rest)) none =
      scanA (i ++ ']' :: rest) (some []) := rfl
  rw [hstep, scanA_close h2 [] rest]
  simp [h1]

theorem scan_espan (rest : List Char) :
    scan ('[' :: ']' :: rest) = .espan :: scan rest := rfl

theorem scanA_eof {t : List Char} (h : ']' ∉ t) :
    ∀ acc : List Char, scanA t (some acc) = [.tailOpen (acc.reverse ++ t)] := by
  induction t with
  | nil => intro acc; simp [scanA]
  | cons c rest ih =>
    intro acc
    have hc : c ≠ ']' := fun e => h (e ▸ List.mem_cons_self c rest)
    have ht : ']' ∉ rest := fun e => h (List.mem_cons_of_mem c e)
    simp only [scanA, if_neg hc]
    rw [ih ht (c :: acc)]
    simp

theorem scan_tailOpen {t : List Char} (h : ']' ∉ t) :
    scan ('[' :: t) = [.tailOpen t] := by
  unfold scan
  have hstep : scanA ('[' :: t) none = scanA t (some []) := rfl
  rw [hstep, scanA_eof h []]
  rfl

theorem renderChunks_scanA :
    ∀ (cs : List Char) (st : Option (List Char)),
      renderChunks (scanA cs st) =
        (match st with | none => [] | some acc => '[' :: acc.reverse) ++ cs := by
  intro cs
  induction cs with
  | nil =>
    intro st
    cases st with
    | none => rfl
    | some acc => simp [scanA, renderChunks, Chunk.render]
  | cons c rest ih =>
    intro st
    cases st with
    | none =>
      by_cases hc : c = '['
      · subst hc
        have hstep : scanA ('[' :: rest) none = scanA rest (some []) := rfl
        rw [hstep, ih (some [])]
        rfl
      · rw [scanA_ch hc rest]
        have hr : renderChunks (Chunk.ch c :: scanA rest none) =
            c :: renderChunks (scanA rest none) := rfl
        rw [hr, ih none]
        rfl
    | some acc =>
      by_cases hc : c = ']'
      · subst hc
        cases acc with
        | nil =>
          have hstep : scanA (']' :: rest) (some []) = .espan :: scanA rest none := rfl
          rw [hstep]
          have hr : renderChunks (Chunk.espan :: scanA rest none) =
              '[' :: ']' :: renderChunks (scanA rest none) := rfl
          rw [hr, ih none]
          rfl
        | cons a as =>
          have hstep : scanA (']' :: rest) (some (a :: as)) =
              .span (a :: as).reverse :: scanA rest none := rfl
          rw [hstep]
          have hr : renderChunks (Chunk.span (a :: as).reverse :: scanA rest none) =
              ('[' :: ((a :: as).reverse ++ [']'])) ++ renderChunks (scanA rest none) := rfl
          rw [hr, ih none]
          simp
      · have hstep : scanA (c :: rest) (some acc) = scanA rest (some (c :: acc)) := by
          simp only [scanA, if_neg hc]
        rw [hstep, ih (some (c :: acc))]
        simp

theorem renderChunks_scan (cs : List Char) : renderChunks (scan cs) = cs := by
  unfold scan
  rw [renderChunks_scanA cs none]
  rfl

theorem scanA_NF :
    ∀ cs : List Char,
      SpanNF (scanA cs none) ∧ ∀ acc, ']' ∉ acc → SpanNF (scanA cs (some acc)) := by
  intro cs
  induction cs with
  | nil =>
    refine ⟨SpanNF.nil, ?_⟩
    intro acc hacc
    exact SpanNF.last _ fun hm => hacc (List.mem_reverse.1 hm)
  | cons c rest ih =>
    constructor
    · by_cases hc : c = '['
      · subst hc
        have hstep : scanA ('[' :: rest) none = scanA rest (some []) := rfl
        rw [hstep]
        exact ih.2 [] (List.not_mem_nil ']')
      · rw [scanA_ch hc rest]
        exact SpanNF.ch c hc ih.1
    · intro acc hacc
      by_cases hc : c = ']'
      · subst hc
        cases acc with
        | nil =>
          have hstep : scanA (']' :: rest) (some []) = .espan :: scanA rest none := rfl
          rw [hstep]
          exact SpanNF.espan ih.1
        | cons a as =>
          have hstep : scanA (']' :: rest) (some (a :: as)) =
              .span (a :: as).reverse :: scanA rest none := rfl
          rw [hstep]
          exact SpanNF.span _ (by simp) (fun hm => hacc (List.mem_reverse.1 hm)) ih.1
      · have hstep : scanA (c :: rest) (some acc) = scanA rest (some (c :: acc)) := by
          simp only [scanA, if_neg hc]
        rw [hstep]
        refine ih.2 (c :: acc) ?_
        intro hm
        rcases List.mem_cons.1 hm with e | hm
        · exact hc e.symm
        · exact hacc hm

theorem scan_NF (cs : List Char) : SpanNF (scan cs) := (scanA_NF cs).1

theorem flatten_map_ch (pre : List Char) (f : List Char → List Char) :
    ((pre.map Chunk.ch).map (chunkSub f)).flatten = pre := by
  induction pre with
  | nil => rfl
  | cons c t ih =>
    simp only [List.map_cons, List.flatten_cons, ih]
    rfl

theorem subSpans_decomp {pre i : List Char} (hpre : ∀ c ∈ pre, c ≠ '[')
    (h1 : i ≠ []) (h2 : ']' ∉ i) (f : List Char → List Char)
    (post : List Char) :
    subSpans f (pre ++ '[' :: (i ++ ']' :: post)) = pre ++ f i ++ subSpans f post := by
  unfold subSpans
  rw [scan_litRun hpre, scan_span h1 h2]
  simp only [List.map_append, List.map_cons, List.flatten_append, List.flatten_cons]
  rw [flatten_map_ch pre f]
  exact (List.append_assoc pre (f i) _).symm

/-! ### Token-list facts -/

theorem dropWhile_head_false {p : Char → Bool} :
    ∀ {l : List Char} {c : Char} {t : List Char}, l.dropWhile p = c :: t → p c = false := by
  intro l
  induction l with
  | nil => intro c t h; exact absurd h (by simp)
  | cons a l ih =>
    intro c t h
    rw [List.dropWhile_cons] at h
    by_cases hp : p a = true
    · rw [if_pos hp] at h
      exact ih h
    · rw [if_neg hp] at h
      cases h
      cases hpa : p a
      · rfl
      · exact absurd hpa hp

theorem dropWhile_idem {p : Char → Bool} (l : List Char) :
    (l.dropWhile p).dropWhile p = l.dropWhile p := by
  cases h : l.dropWhile p with
  | nil => rfl
  | cons c t =>
    rw [List.dropWhile_cons, dropWhile_head_false h]
    simp

theorem dropWhile_eq_self_of_head {p : Char → Bool} {l : List Char}
    (h : ∀ c t, l = c :: t → p c = false) : l.dropWhile p = l := by
  cases l with
  | nil => rfl
  | cons c t =>
    rw [List.dropWhile_cons, h c t rfl]
    simp

theorem pyStrip_idem (cs : List Char) : pyStrip (pyStrip cs) = pyStrip cs := by
  unfold pyStrip
  have hA : ∀ c t, cs.dropWhile isPySpace = c :: t → isPySpace c = false :=
    fun c t h => dropWhile_head_false h
  have hsuf : ((cs.dropWhile isPySpace).reverse.dropWhile isPySpace) <:+
      (cs.dropWhile isPySpace).reverse := List.dropWhile_suffix isPySpace
  have hpre : ((cs.dropWhile isPySpace).reverse.dropWhile isPySpace).reverse <+:
      cs.dropWhile isPySpace := by
    have h2 := hsuf.reverse
    rwa [List.reverse_reverse] at h2
  have hstep1 : (((cs.dropWhile isPySpace).reverse.dropWhile isPySpace).reverse).dropWhile
      isPySpace = ((cs.dropWhile isPySpace).reverse.dropWhile isPySpace).reverse := by
    refine dropWhile_eq_self_of_head ?_
    intro c t h
    obtain ⟨rest, hrest⟩ := hpre
    rw [h] at hrest
    exact hA c (t ++ rest) hrest.symm
  rw [hstep1, List.reverse_reverse, dropWhile_idem]

theorem pyStrip_no_mem {cs : List Char} {c : Char} (h : c ∈ pyStrip cs) : c ∈ cs := by
  unfold pyStrip at h
  rw [List.mem_reverse] at h
  have h2 := (List.dropWhile_sublist isPySpace).mem h
  rw [List.mem_reverse] at h2
  exact (List.dropWhile_sublist isPySpace).mem h2

theorem splitOnChar_ne_nil {sep : Char} : ∀ cs : List Char, splitOnChar sep cs ≠ [] := by
  intro cs
  cases cs with
  | nil => simp [splitOnChar]
  | cons c rest =>
    unfold splitOnChar
    by_cases hc : c = sep
    · simp [hc]
    · rw [if_neg hc]
      cases h : splitOnChar sep rest <;> simp

theorem splitOnChar_parts_no_sep {sep : Char} :
    ∀ (cs part : List Char), part ∈ splitOnChar sep cs → sep ∉ part := by
  intro cs
  induction cs with
  | nil =>
    intro part h
    simp only [splitOnChar, List.mem_singleton] at h
    subst h
    exact List.not_mem_nil sep
  | cons c rest ih =>
    intro part h
    unfold splitOnChar at h
    by_cases hc : c = sep
    · rw [if_pos hc] at h
      rcases List.mem_cons.1 h with e | h2
      · subst e; exact List.not_mem_nil sep
      · exact ih part h2
    · rw [if_neg hc] at h
      cases hs : splitOnChar sep rest with
      | nil => exact absurd hs (splitOnChar_ne_nil rest)
      | cons t ts =>
        rw [hs] at h
        rcases List.mem_cons.1 h with e | h2
        · subst e
          intro hm
          rcases List.mem_cons.1 hm with e2 | hm2
          · exact hc e2.symm
          · exact ih t (hs ▸ List.mem_cons_self t ts) hm2
        · exact ih part (hs ▸ List.mem_cons_of_mem t h2)

theorem splitOnChar_parts_subset {sep : Char} :
    ∀ (cs part : List Char), part ∈ splitOnChar sep cs → ∀ c ∈ part, c ∈ cs := by
  intro cs
  induction cs with
  | nil =>
    intro part h
    simp only [splitOnChar, List.mem_singleton] at h
    subst h
    intro c hc
    exact absurd hc (List.not_mem_nil c)
  | cons a rest ih =>
    intro part h
    unfold splitOnChar at h
    by_cases hc : a = sep
    · rw [if_pos hc] at h
      rcases List.mem_cons.1 h with e | h2
      · subst e
        intro c hc2
        exact absurd hc2 (List.not_mem_nil c)
      · intro c hc2
        exact List.mem_cons_of_mem a (ih part h2 c hc2)
    · rw [if_neg hc] at h
      cases hs : splitOnChar sep rest with
      | nil => exact absurd hs (splitOnChar_ne_nil rest)
      | cons t ts =>
        rw [hs] at h
        rcases List.mem_cons.1 h with e | h2
        · subst e
          intro c hc2
          rcases List.mem_cons.1 hc2 with e2 | hm2
          · exact e2 ▸ List.mem_cons_self a rest
          · exact List.mem_cons_of_mem a
              (ih t (hs ▸ List.mem_cons_self t ts) c hm2)
        · intro c hc2
          exact List.mem_cons_of_mem a
            (ih part (hs ▸ List.mem_cons_of_mem t h2) c hc2)

theorem joinSep_mem {sep : Char} :
    ∀ (ts : List (List Char)) (c : Char), c ∈ joinSep sep ts →
      c = sep ∨ ∃ t ∈ ts, c ∈ t := by
  intro ts
  induction ts with
  | nil => intro c h; exact absurd h (List.not_mem_nil c)
  | cons t rest ih =>
    intro c h
    cases rest with
    | nil =>
      exact Or.inr ⟨t, List.mem_cons_self t [], by simpa [joinSep] using h⟩
    | cons t2 rest2 =>
      rw [show joinSep sep (t :: t2 :: rest2) = t ++ sep :: joinSep sep (t2 :: rest2)
        from rfl] at h
      rcases List.mem_append.1 h with h2 | h2
      · exact Or.inr ⟨t, List.mem_cons_self t _, h2⟩
      · rcases List.mem_cons.1 h2 with e | h3
        · exact Or.inl e
        · rcases ih c h3 with e | ⟨t3, ht3, hc3⟩
          · exact Or.inl e
          · exact Or.inr ⟨t3, List.mem_cons_of_mem t ht3, hc3⟩

theorem joinSep_ne_nil {sep : Char} {ts : List (List Char)} {t0 : List Char}
    (h0 : t0 ∈ ts) (hne : t0 ≠ []) : joinSep sep ts ≠ [] := by
  cases ts with
  | nil => exact absurd h0 (List.not_mem_nil t0)
  | cons t rest =>
    cases rest with
    | nil =>
      have : t0 = t := by simpa using h0
      subst this
      simpa [joinSep] using hne
    | cons t2 rest2 =>
      rw [show joinSep sep (t :: t2 :: rest2) = t ++ sep :: joinSep sep (t2 :: rest2)
        from rfl]
      cases t <;> simp

theorem splitOnChar_joinSep {sep : Char} :
    ∀ ts : List (List Char), ts ≠ [] → (∀ t ∈ ts, sep ∉ t) →
      splitOnChar sep (joinSep sep ts) = ts := by
  intro ts
  induction ts with
  | nil => intro h; exact absurd rfl h
  | cons t rest ih =>
    intro _ hns
    cases rest with
    | nil =>
      rw [show joinSep sep [t] = t from rfl]
      exact splitOnChar_of_not_mem (hns t (List.mem_cons_self t []))
    | cons t2 rest2 =>
      rw [show joinSep sep (t :: t2 :: rest2) = t ++ sep :: joinSep sep (t2 :: rest2)
        from rfl]
      rw [splitOnChar_append (hns t (List.mem_cons_self t _))]
      rw [ih (by simp) fun u hu => hns u (List.mem_cons_of_mem t hu)]

theorem isDigits_mem {cs : List Char} (h : isDigits cs = true) :
    ∀ c ∈ cs, c.isDigit = true := by
  unfold isDigits at h
  rw [Bool.and_eq_true, List.all_eq_true] at h
  exact h.2

theorem isDigits_ne_nil {cs : List Char} (h : isDigits cs = true) : cs ≠ [] := by
  unfold isDigits at h
  rw [Bool.and_eq_true] at h
  intro e
  subst e
  exact absurd h.1 (by decide)

theorem digitsVal_nonneg {cs : List Char} (h : ∀ c ∈ cs, c.isDigit = true) :
    0 ≤ digitsVal cs := by
  unfold digitsVal
  have hgen : ∀ (l : List Char) (a : Int), (∀ c ∈ l, c.isDigit = true) → 0 ≤ a →
      0 ≤ l.foldl (fun a c => 10 * a + digitVal c) a := by
    intro l
    induction l with
    | nil => intro a _ ha; simpa using ha
    | cons c t ih =>
      intro a hl ha
      rw [List.foldl_cons]
      refine ih _ (fun d hd => hl d (List.mem_cons_of_mem c hd)) ?_
      have hc : c.isDigit = true := hl c (List.mem_cons_self c t)
      have : (48 : Int) ≤ c.toNat := by
        have := hc
        unfold Char.isDigit at this
        rw [Bool.and_eq_true, decide_eq_true_eq, decide_eq_true_eq] at this
        have h48 : ('0' : Char).toNat = 48 := rfl
        have hle : ('0' : Char) ≤ c := this.1
        have : ('0' : Char).toNat ≤ c.toNat := hle
        omega
      unfold digitVal
      omega
  exact hgen cs 0 h (le_refl 0)

/-! ### C10: non-numeric brackets are erased -/

/-- C10: for every removal set, a bracketed span in processed text
whose token list has no digit token outside the set is deleted in its
entirety, and in particular a clean_references run erases purely
non-numeric brackets such as Smith or sic from section content. -/
theorem remove_inline_citations_deletes_nonnumeric_brackets :
    (∀ (S : List Int) (pre i post : List Char),
      (∀ c ∈ pre, c ≠ '[') → i ≠ [] → ']' ∉ i →
      (∀ r ∈ splitOnChar ',' i, isDigits (pyStrip r) = true →
        melem (digitsVal (pyStrip r)) S = true) →
      removeText S (pre ++ '[' :: (i ++ ']' :: post)) = pre ++ removeText S post) ∧
    clean_references (encodeDoc nonNumericBracketDoc) =
      encodeDoc nonNumericBracketDocExpected := by
  refine ⟨?_, by decide⟩
  intro S pre i post hpre h1 h2 htok
  unfold removeText
  rw [subSpans_decomp hpre h1 h2]
  have hnot : ¬(((splitOnChar ',' i).any fun r =>
      isDigits (pyStrip r) && !melem (digitsVal (pyStrip r)) S) = true) := by
    rw [List.any_eq_true]
    rintro ⟨r, hr, hcond⟩
    rw [Bool.and_eq_true, Bool.not_eq_true'] at hcond
    rw [htok r hr hcond.1] at hcond
    exact absurd hcond.2 (by decide)
  have hany : ((splitOnChar ',' i).any fun r =>
      isDigits (pyStrip r) && !melem (digitsVal (pyStrip r)) S) = false := by
    cases hb : (splitOnChar ',' i).any fun r =>
        isDigits (pyStrip r) && !melem (digitsVal (pyStrip r)) S
    · rfl
    · exact absurd hb hnot
  have hz : removeTok S i = [] := by
    simp [removeTok, hany]
  rw [hz]
  simp [removeText]

/-- Witness for the universal part of C10 at a concrete non-numeric
bracket. -/
theorem remove_inline_citations_deletes_nonnumeric_brackets_witness :
    removeText [] ("a ".data ++ '[' :: ("Smith".data ++ ']' :: "b".data)) =
      "a ".data ++ removeText [] "b".data :=
  remove_inline_citations_deletes_nonnumeric_brackets.1 [] "a ".data "Smith".data
    "b".data (by decide) (by decide) (by decide) (by decide)

/-! ### C6: marker rewriting during pruning -/

/-- C6 counterexample: with removal set containing 1, the marker
holding the tokens 1 and x is deleted whole, although x is not an
offending numeric token; under the claim the result would keep the
bracket with the token x. -/
theorem remove_inline_citations_prunes_nonoffending_token :
    String.mk (removeText [1] "see [1,x].".data) = "see ." ∧
      ("see ." : String) ≠ "see [x]." :=
  ⟨by decide, by decide⟩

/-- C6 amended: pruning deletes the offending numeric tokens of a
marker and keeps the marker, rebuilt from the stripped surviving
tokens, exactly when some numeric token survives outside the removal
set; otherwise the whole marker is deleted, including any non-numeric
tokens, and never left behind as an empty bracket pair; in particular a
sole marker pointing only at a pruned bad reference disappears
entirely. -/
theorem removeText_marker_rewriting :
    (∀ (S : List Int) (pre i post : List Char),
      (∀ c ∈ pre, c ≠ '[') → i ≠ [] → ']' ∉ i →
      ((((splitOnChar ',' i).any fun r =>
          isDigits (pyStrip r) && !melem (digitsVal (pyStrip r)) S) = true →
        removeText S (pre ++ '[' :: (i ++ ']' :: post)) =
          pre ++ '[' :: (joinSep ','
            ((splitOnChar ',' i).filterMap fun r =>
              if isDigits (pyStrip r) && melem (digitsVal (pyStrip r)) S then none
              else some (pyStrip r))
            ++ ']' :: removeText S post)) ∧
       (((splitOnChar ',' i).any fun r =>
          isDigits (pyStrip r) && !melem (digitsVal (pyStrip r)) S) = false →
        removeText S (pre ++ '[' :: (i ++ ']' :: post)) =
          pre ++ removeText S post))) ∧
    clean_references (encodeDoc soleBadMarkerDoc) =
      encodeDoc soleBadMarkerDocExpected := by
  refine ⟨?_, by decide⟩
  intro S pre i post hpre h1 h2
  constructor
  · intro hany
    unfold removeText
    rw [subSpans_decomp hpre h1 h2]
    have hkeep : removeTok S i = '[' :: (joinSep ','
        ((splitOnChar ',' i).filterMap fun r =>
          if isDigits (pyStrip r) && melem (digitsVal (pyStrip r)) S then none
          else some (pyStrip r)) ++ [']']) := by
      simp [removeTok, hany]
    rw [hkeep]
    simp [removeText]
  · intro hany
    unfold removeText
    rw [subSpans_decomp hpre h1 h2]
    have hz : removeTok S i = [] := by
      simp [removeTok, hany]
    rw [hz]
    simp [removeText]

/-- Witness for C6 at a marker with tokens 1 and 2 and removal set
containing only 2: the surviving token keeps the marker. -/
theorem removeText_marker_rewriting_witness :
    removeText [2] ("x ".data ++ '[' :: ("1,2".data ++ ']' :: [])) =
      "x ".data ++ '[' :: (joinSep ','
        ((splitOnChar ',' "1,2".data).filterMap fun r =>
          if isDigits (pyStrip r) && melem (digitsVal (pyStrip r)) [2] then none
          else some (pyStrip r))
        ++ ']' :: removeText [2] []) :=
  (removeText_marker_rewriting.1 [2] "x ".data "1,2".data []
    (by decide) (by decide) (by decide)).1 (by decide)

/-! ### Encoding lemmas: the generic walks on Article-shaped documents -/

theorem citsOfStrings_append (a b : List String) :
    citsOfStrings (a ++ b) = citsOfStrings a ++ citsOfStrings b := by
  simp [citsOfStrings]

theorem citsOfStrings_flatten (l : List (List String)) :
    citsOfStrings l.flatten = (l.map citsOfStrings).flatten := by
  induction l with
  | nil => rfl
  | cons x t ih => simp [citsOfStrings_append, ih]

theorem identifyL_ofList (xs : List Json) (flag : Bool) :
    identifyL (JList.ofList xs) flag = (xs.map fun j => identifyJ j flag).flatten := by
  induction xs with
  | nil => rfl
  | cons x t ih => simp [JList.ofList, identifyL, ih]

theorem identifyJ_encOptStr (o : Option String) :
    identifyJ (encOptStr o) false = citsOfStrings o.toList := by
  cases o with
  | none => rfl
  | some s => simp [encOptStr, identifyJ, citsOfStrings]

theorem identifyJ_encRefItem (r : RefItem) :
    identifyJ (encRefItem r) false = citsOfStrings (refItemStrings r) := by
  have hk : JObj.hasKey "references"
      (.cons "reference_number" (.int r.reference_number)
        (.cons "authors" (encOptStr r.authors)
          (.cons "year" (encOptStr r.year)
            (.cons "title" (encOptStr r.title)
              (.cons "journal_source" (encOptStr r.journal_source)
                (.cons "url_doi" (encOptStr r.url_doi) .nil)))))) = false := rfl
  simp only [encRefItem, identifyJ, hk, identifyO, identifyJ_encOptStr,
    refItemStrings, citsOfStrings_append]
  simp [citsOfStrings]

theorem identifyJ_strList (xs : List String) :
    identifyL (JList.ofList (xs.map Json.str)) false = citsOfStrings xs := by
  induction xs with
  | nil => rfl
  | cons x t ih =>
    simp only [List.map_cons, JList.ofList, identifyL, identifyJ, ih]
    simp [citsOfStrings]

theorem identifyJ_faqList (qa : List (String × String)) :
    identifyL (JList.ofList (qa.map fun p =>
        Json.obj (.cons "question" (.str p.1) (.cons "answer" (.str p.2) .nil)))) false =
      citsOfStrings ((qa.map fun p => [p.1, p.2]).flatten) := by
  induction qa with
  | nil => rfl
  | cons p t ih =>
    have hkf : JObj.hasKey "references"
        (.cons "question" (.str p.1) (.cons "answer" (.str p.2) .nil)) = false := rfl
    simp only [List.map_cons, JList.ofList, identifyL, identifyJ, hkf, identifyO,
      List.flatten_cons, ih]
    simp [citsOfStrings, List.append_assoc]

theorem identifyJ_encSection (s : DocSection) (flag : Bool) :
    identifyJ (encSection s) flag = citsOfStrings (secStrings s) := by
  have hk : JObj.hasKey "references"
      (.cons "heading" (.str s.heading)
        (.cons "content" (encContent s.content) .nil)) = false := rfl
  simp only [encSection, identifyJ, hk, identifyO]
  cases hc : s.content with
  | text t =>
    simp [encContent, identifyJ, secStrings, contentStringsOf, hc, citsOfStrings]
  | items xs =>
    simp only [encContent, identifyJ, identifyJ_strList, secStrings,
      contentStringsOf, hc]
    simp [citsOfStrings]
  | faqs qa =>
    simp only [encContent, identifyJ, identifyJ_faqList, secStrings,
      contentStringsOf, hc]
    simp [citsOfStrings]

/-- The identify walk on an encoded document collects exactly the
citations of the visible strings. -/
theorem identify_encodeDoc (d : Doc) :
    identify_all_inline_citations (encodeDoc d) =
      citsOfStrings (identifyVisibleStrings d) := by
  have hk : JObj.hasKey "references"
      (.cons "title" (.str d.title)
        (.cons "subtitle" (.str d.subtitle)
          (.cons "sections" (.arr (JList.ofList (d.sections.map encSection)))
            (.cons "references"
              (.obj (.cons "heading" (.str d.refHeading)
                (.cons "content" (.arr (JList.ofList (d.refs.map encRefItem))) .nil)))
              .nil)))) = true := rfl
  have hk2 : JObj.hasKey "references"
      (.cons "heading" (.str d.refHeading)
        (.cons "content" (.arr (JList.ofList (d.refs.map encRefItem))) .nil)) = false := rfl
  simp only [identify_all_inline_citations, encodeDoc, identifyJ, hk, hk2, identifyO,
    identifyL_ofList, List.map_map]
  have hcompsec : ((fun j => identifyJ j true) ∘ encSection) = citsOfStrings ∘ secStrings :=
    funext fun s => identifyJ_encSection s true
  have hcompref : ((fun j => identifyJ j false) ∘ encRefItem) = citsOfStrings ∘ refItemStrings :=
    funext fun r => identifyJ_encRefItem r
  rw [hcompsec, hcompref]
  have hcons : citsOfStrings (d.refHeading :: (d.refs.map refItemStrings).flatten) =
      citsOfText d.refHeading.data ++ citsOfStrings ((d.refs.map refItemStrings).flatten) := by
    simp [citsOfStrings]
  simp only [identifyVisibleStrings, citsOfStrings_append, hcons, citsOfStrings_flatten,
    List.map_map]
  simp [List.append_assoc]

/-! ### Encoding lemmas: the rewriting walks and the reference-section
operations -/

theorem removeJ_encOptStr (S : List Int) (o : Option String) :
    removeJ S (encOptStr o) true = encOptStr o := by
  cases o <;> rfl

theorem removeJ_encRefItem (S : List Int) (r : RefItem) :
    removeJ S (encRefItem r) true = encRefItem r := by
  simp [encRefItem, removeJ, JObj.hasKey, removeO, removeJ_encOptStr]

theorem removeL_ofList (S : List Int) (xs : List Json) (flag : Bool) :
    removeL S (JList.ofList xs) flag = JList.ofList (xs.map fun j => removeJ S j flag) := by
  induction xs with
  | nil => rfl
  | cons x t ih => simp [JList.ofList, removeL, ih]

theorem removeJ_strList (S : List Int) (xs : List String) :
    removeL S (JList.ofList (xs.map Json.str)) false =
      JList.ofList ((xs.map (remS S)).map Json.str) := by
  induction xs with
  | nil => rfl
  | cons x t ih => simp [JList.ofList, removeL, removeJ, ih, remS]

theorem removeJ_faqList (S : List Int) (qa : List (String × String)) :
    removeL S (JList.ofList (qa.map fun p =>
        Json.obj (.cons "question" (.str p.1) (.cons "answer" (.str p.2) .nil)))) false =
      JList.ofList ((qa.map fun p => (remS S p.1, remS S p.2)).map fun p =>
        Json.obj (.cons "question" (.str p.1) (.cons "answer" (.str p.2) .nil))) := by
  induction qa with
  | nil => rfl
  | cons p t ih =>
    simp [JList.ofList, removeL, removeJ, JObj.hasKey, removeO, ih, remS]

theorem removeJ_encSection (S : List Int) (s : DocSection) :
    removeJ S (encSection s) false = encSection (mapSection (remS S) s) := by
  cases hc : s.content with
  | text t =>
    simp [encSection, encContent, removeJ, JObj.hasKey, removeO, mapSection, mapContent,
      hc, remS]
  | items xs =>
    simp [encSection, encContent, removeJ, JObj.hasKey, removeO, mapSection, mapContent,
      hc, remS, removeJ_strList]
  | faqs qa =>
    simp [encSection, encContent, removeJ, JObj.hasKey, removeO, mapSection, mapContent,
      hc, remS, removeJ_faqList]

theorem remove_encodeDoc (S : List Int) (d : Doc) :
    remove_inline_citations (encodeDoc d) S = encodeDoc (mapDocStrings (remS S) d) := by
  have hcomp : (fun j => removeJ S j false) ∘ encSection =
      encSection ∘ mapSection (remS S) :=
    funext fun s => removeJ_encSection S s
  have hcompr : (fun j => removeJ S j true) ∘ encRefItem = encRefItem :=
    funext fun r => removeJ_encRefItem S r
  simp [remove_inline_citations, encodeDoc, removeJ, JObj.hasKey, removeORef, removeO,
    removeL_ofList, List.map_map, hcomp, hcompr, mapDocStrings, remS]

theorem updateJ_encOptStr (m : List (Int × Int)) (o : Option String) :
    updateJ m (encOptStr o) true = encOptStr o := by
  cases o <;> rfl

theorem updateJ_encRefItem (m : List (Int × Int)) (r : RefItem) :
    updateJ m (encRefItem r) true = encRefItem r := by
  simp [encRefItem, updateJ, JObj.hasKey, updateO, updateJ_encOptStr]

theorem updateL_ofList (m : List (Int × Int)) (xs : List Json) (flag : Bool) :
    updateL m (JList.ofList xs) flag = JList.ofList (xs.map fun j => updateJ m j flag) := by
  induction xs with
  | nil => rfl
  | cons x t ih => simp [JList.ofList, updateL, ih]

theorem updateJ_strList (m : List (Int × Int)) (xs : List String) :
    updateL m (JList.ofList (xs.map Json.str)) false =
      JList.ofList ((xs.map (updS m)).map Json.str) := by
  induction xs with
  | nil => rfl
  | cons x t ih => simp [JList.ofList, updateL, updateJ, ih, updS]

theorem updateJ_faqList (m : List (Int × Int)) (qa : List (String × String)) :
    updateL m (JList.ofList (qa.map fun p =>
        Json.obj (.cons "question" (.str p.1) (.cons "answer" (.str p.2) .nil)))) false =
      JList.ofList ((qa.map fun p => (updS m p.1, updS m p.2)).map fun p =>
        Json.obj (.cons "question" (.str p.1) (.cons "answer" (.str p.2) .nil))) := by
  induction qa with
  | nil => rfl
  | cons p t ih =>
    simp [JList.ofList, updateL, updateJ, JObj.hasKey, updateO, ih, updS]

theorem updateJ_encSection (m : List (Int × Int)) (s : DocSection) :
    updateJ m (encSection s) false = encSection (mapSection (updS m) s) := by
  cases hc : s.content with
  | text t =>
    simp [encSection, encContent, updateJ, JObj.hasKey, updateO, mapSection, mapContent,
      hc, updS]
  | items xs =>
    simp [encSection, encContent, updateJ, JObj.hasKey, updateO, mapSection, mapContent,
      hc, updS, updateJ_strList]
  | faqs qa =>
    simp [encSection, encContent, updateJ, JObj.hasKey, updateO, mapSection, mapContent,
      hc, updS, updateJ_faqList]

theorem update_encodeDoc (m : List (Int × Int)) (d : Doc) :
    update_inline_citations (encodeDoc d) m = encodeDoc (mapDocStrings (updS m) d) := by
  have hcomp : (fun j => updateJ m j false) ∘ encSection =
      encSection ∘ mapSection (updS m) :=
    funext fun s => updateJ_encSection m s
  have hcompr : (fun j => updateJ m j true) ∘ encRefItem = encRefItem :=
    funext fun r => updateJ_encRefItem m r
  simp [update_inline_citations, encodeDoc, updateJ, JObj.hasKey, updateORef, updateO,
    updateL_ofList, List.map_map, hcomp, hcompr, mapDocStrings, updS]

theorem truthy_encOptStr (o : Option String) :
    truthy (some (encOptStr o)) = optTruthy o := by
  cases o <;> rfl

theorem collectRefNums_ofList (rs : List RefItem) :
    collectRefNums (JList.ofList (rs.map encRefItem)) =
      rs.map fun r => r.reference_number := by
  induction rs with
  | nil => rfl
  | cons r t ih => simp [JList.ofList, collectRefNums, encRefItem, JObj.find?, ih]

theorem get_all_encodeDoc (d : Doc) :
    get_all_reference_numbers (getRefsSection (encodeDoc d)) =
      d.refs.map fun r => r.reference_number := by
  simp [getRefsSection, encodeDoc, JObj.find?, get_all_reference_numbers,
    collectRefNums_ofList]

theorem badNums_ofList (rs : List RefItem) :
    badNums (JList.ofList (rs.map encRefItem)) =
      (rs.filter refBad).map fun r => r.reference_number := by
  induction rs with
  | nil => rfl
  | cons r t ih =>
    have hcond : (!truthy (JObj.find? "journal_source"
          (.cons "reference_number" (.int r.reference_number)
            (.cons "authors" (encOptStr r.authors)
              (.cons "year" (encOptStr r.year)
                (.cons "title" (encOptStr r.title)
                  (.cons "journal_source" (encOptStr r.journal_source)
                    (.cons "url_doi" (encOptStr r.url_doi) .nil))))))) ||
        !truthy (JObj.find? "authors"
          (.cons "reference_number" (.int r.reference_number)
            (.cons "authors" (encOptStr r.authors)
              (.cons "year" (encOptStr r.year)
                (.cons "title" (encOptStr r.title)
                  (.cons "journal_source" (encOptStr r.journal_source)
                    (.cons "url_doi" (encOptStr r.url_doi) .nil))))))) ||
        !truthy (JObj.find? "year"
          (.cons "reference_number" (.int r.reference_number)
            (.cons "authors" (encOptStr r.authors)
              (.cons "year" (encOptStr r.year)
                (.cons "title" (encOptStr r.title)
                  (.cons "journal_source" (encOptStr r.journal_source)
                    (.cons "url_doi" (encOptStr r.url_doi) .nil)))))))) = refBad r := by
      have h1 : JObj.find? "journal_source"
          (.cons "reference_number" (.int r.reference_number)
            (.cons "authors" (encOptStr r.authors)
              (.cons "year" (encOptStr r.year)
                (.cons "title" (encOptStr r.title)
                  (.cons "journal_source" (encOptStr r.journal_source)
                    (.cons "url_doi" (encOptStr r.url_doi) .nil)))))) =
          some (encOptStr r.journal_source) := rfl
      have h2 : JObj.find? "authors"
          (.cons "reference_number" (.int r.reference_number)
            (.cons "authors" (encOptStr r.authors)
              (.cons "year" (encOptStr r.year)
                (.cons "title" (encOptStr r.title)
                  (.cons "journal_source" (encOptStr r.journal_source)
                    (.cons "url_doi" (encOptStr r.url_doi) .nil)))))) =
          some (encOptStr r.authors) := rfl
      have h3 : JObj.find? "year"
          (.cons "reference_number" (.int r.reference_number)
            (.cons "authors" (encOptStr r.authors)
              (.cons "year" (encOptStr r.year)
                (.cons "title" (encOptStr r.title)
                  (.cons "journal_source" (encOptStr r.journal_source)
                    (.cons "url_doi" (encOptStr r.url_doi) .nil)))))) =
          some (encOptStr r.year) := rfl
      rw [h1, h2, h3, truthy_encOptStr, truthy_encOptStr, truthy_encOptStr]
      rfl
    simp only [List.map_cons, JList.ofList, badNums, encRefItem]
    rw [hcond]
    cases hb : refBad r
    · simp [JObj.find?, List.filter_cons, hb, ih]
    · simp [JObj.find?, List.filter_cons, hb, ih]

theorem get_bad_encodeDoc (d : Doc) :
    get_bad_references (encodeDoc d) =
      (d.refs.filter refBad).map fun r => r.reference_number := by
  simp [get_bad_references, encodeDoc, JObj.find?, badNums_ofList]

theorem filterRefs_ofList (S : List Int) (rs : List RefItem) :
    filterRefs S (JList.ofList (rs.map encRefItem)) =
      JList.ofList ((rs.filter fun r => !melem r.reference_number S).map encRefItem) := by
  induction rs with
  | nil => rfl
  | cons r t ih =>
    by_cases hm : melem r.reference_number S = true
    · simp [JList.ofList, filterRefs, encRefItem, JObj.find?, hm, ih, List.filter]
    · have hm2 : melem r.reference_number S = false := by
        cases hmm : melem r.reference_number S
        · rfl
        · exact absurd hmm hm
      simp [JList.ofList, filterRefs, encRefItem, JObj.find?, hm2, ih, List.filter]

theorem remove_references_encodeDoc (S : List Int) (d : Doc) :
    remove_references (encodeDoc d) S =
      encodeDoc { d with refs := d.refs.filter fun r => !melem r.reference_number S } := by
  simp [remove_references, encodeDoc, JObj.find?, JObj.hasKey, JObj.mapVal,
    filterRefs_ofList]

theorem create_remap_encodeDoc (d : Doc) :
    create_remap_dictionary (encodeDoc d) =
      enumFrom 1 (isort (d.refs.map fun r => r.reference_number)) := by
  simp [create_remap_dictionary, encodeDoc, JObj.find?, collectRefNums_ofList]

theorem setRefNums_ofList (m : List (Int × Int)) (rs : List RefItem) :
    setRefNums m (JList.ofList (rs.map encRefItem)) =
      JList.ofList ((rs.map (remapRefItem m)).map encRefItem) := by
  induction rs with
  | nil => rfl
  | cons r t ih =>
    have hitem : (JObj.mapVal "reference_number"
        (fun v => match v with
          | .int n =>
            match remapGet m n with
            | some nw => .int nw
            | none => .int n
          | v => v)
        (.cons "reference_number" (.int r.reference_number)
          (.cons "authors" (encOptStr r.authors)
            (.cons "year" (encOptStr r.year)
              (.cons "title" (encOptStr r.title)
                (.cons "journal_source" (encOptStr r.journal_source)
                  (.cons "url_doi" (encOptStr r.url_doi) .nil))))))) =
        (.cons "reference_number" (.int ((remapGet m r.reference_number).getD r.reference_number))
          (.cons "authors" (encOptStr r.authors)
            (.cons "year" (encOptStr r.year)
              (.cons "title" (encOptStr r.title)
                (.cons "journal_source" (encOptStr r.journal_source)
                  (.cons "url_doi" (encOptStr r.url_doi) .nil)))))) := by
      cases hg : remapGet m r.reference_number with
      | none => simp [JObj.mapVal, hg]
      | some nw => simp [JObj.mapVal, hg]
    simp only [List.map_cons, JList.ofList, setRefNums, encRefItem, hitem, ih,
      remapRefItem]

theorem update_reference_numbers_encodeDoc (m : List (Int × Int)) (d : Doc) :
    update_reference_numbers (encodeDoc d) m =
      encodeDoc { d with refs := d.refs.map (remapRefItem m) } := by
  simp [update_reference_numbers, encodeDoc, JObj.find?, JObj.hasKey, JObj.mapVal,
    setRefNums_ofList]

/-- The source pipeline on an encoded document is the document-level
pipeline. -/
theorem clean_references_encodeDoc (d : Doc) :
    clean_references (encodeDoc d) = encodeDoc (cleanDoc d) := by
  unfold clean_references cleanDoc
  simp only [identify_encodeDoc, get_all_encodeDoc, get_bad_encodeDoc, remove_encodeDoc,
    remove_references_encodeDoc, create_remap_encodeDoc,
    update_reference_numbers_encodeDoc, update_encodeDoc]

/-! ### C4: the references subtree and the collection walk -/

/-- C4 counterexample: the number 2 occurs only inside a reference item
title, yet identify_all_inline_citations counts it as an inline
citation; the walk result on the document is exactly the numbers 1
and 2. -/
theorem identify_counts_references_internal_number :
    identify_all_inline_citations (encodeDoc refTitleCiteDoc) = [1, 2] := by
  decide

/-- C4 amended: the collection walk recomputes its skip flag at every
dict, so on an Article-shaped document it skips only the strings
hanging directly off the references-bearing top dict, the title and
the subtitle; it collects the citations of every section heading and
content string, of the references heading, and of every reference item
string field, in that order.  Numbers inside the References section
items are therefore counted as inline citations. -/
theorem identify_walk_characterization (d : Doc) :
    identify_all_inline_citations (encodeDoc d) =
      citsOfStrings ((d.sections.map secStrings).flatten) ++
        (citsOfText d.refHeading.data ++
          citsOfStrings ((d.refs.map refItemStrings).flatten)) := by
  rw [identify_encodeDoc d]
  simp only [identifyVisibleStrings, citsOfStrings_append]
  have hcons : citsOfStrings (d.refHeading :: (d.refs.map refItemStrings).flatten) =
      citsOfText d.refHeading.data ++ citsOfStrings ((d.refs.map refItemStrings).flatten) := by
    simp [citsOfStrings]
  rw [hcons]

/-! ### C2 and C3 counterexamples -/

/-- C2 counterexample: after a clean_references run on the document
whose reference item 1 carries a bracketed 2 in its title, the output
equals the input, so reference number 2 stays declared although no
inline marker in the section content denotes it under the Citation
Parser semantics. -/
theorem clean_references_leaves_uncited_declared_reference :
    clean_references (encodeDoc refTitleCiteDoc) = encodeDoc refTitleCiteDoc ∧
      (2 : Int) ∈ (refTitleCiteDoc.refs.map fun r => r.reference_number) ∧
      (2 : Int) ∉ docCitedInContent refTitleCiteDoc := by
  refine ⟨by decide, by decide, by decide⟩

/-- C3 counterexample: clean_references is not idempotent; on the
document whose reference item 2 carries a bracketed 3 in its title, the
first pass renumbers items 2 and 3 to 1 and 2, after which the frozen
bracketed 3 makes item 2 count as cited no longer, so the second pass
removes it. -/
theorem clean_references_not_idempotent :
    clean_references (clean_references (encodeDoc refShiftDoc)) ≠
      clean_references (encodeDoc refShiftDoc) := by
  have h1 : clean_references (encodeDoc refShiftDoc) = encodeDoc refShiftMid := by decide
  rw [h1]
  have h2 : clean_references (encodeDoc refShiftMid) = encodeDoc refShiftFinal := by decide
  rw [h2]
  decide

/-! ### C5: extract_citations -/

/-- C5 counterexample: extract_citations does not return a set of
integers; on the text see bracket-1 bracket-1 it returns the list of
strings 1, 1, which has a duplicate element. -/
theorem extract_citations_returns_duplicate_strings :
    extract_citations "see [1],[1]" = ["1", "1"] ∧
      ¬(extract_citations "see [1],[1]").Nodup :=
  ⟨by decide, by decide⟩

/-- C5 amended: extract_citations returns the concatenated list, in
textual order, of the expanded tokens of every matching bracket span as
decimal strings, with duplicates kept: a span whose interior fully
matches the citation pattern expands through expand_citation_ranges;
an inclusive range from va to vb with va at most vb expands to the
decimal strings of the integers va through vb; and on the text
see bracket 2 comma 5 dash 7 the result is the strings 2, 5, 6, 7,
whose integer values form the set 2, 5, 6, 7. -/
theorem extract_citations_expansion :
    (∀ pre i : List Char, (∀ c ∈ pre, c ≠ '[') → isCitationSpan i = true →
      extract_citations (String.mk (pre ++ '[' :: (i ++ [']']))) =
        (expandCR i).map String.mk) ∧
    (∀ va vb : Int, 0 ≤ va → va ≤ vb →
      expandCR (intToStr va ++ '-' :: intToStr vb) =
        (intRange va vb).map intToStr) ∧
    extract_citations "see [2,5-7]" = ["2", "5", "6", "7"] := by
  refine ⟨?_, ?_, by decide⟩
  · intro pre i hpre hi
    have hlz : lazySpans (pre ++ '[' :: (i ++ [']'])) = [i] := by
      unfold lazySpans
      rw [@lazyA_litRun pre ('[' :: (i ++ [']'])) hpre]
      have h1 : ']' ∉ i := isCitationSpan_no_rbracket hi
      have h2 : '\n' ∉ i := isCitationSpan_no_newline hi
      have hstep : lazyA ('[' :: (i ++ [']'])) none = lazyA (i ++ [']']) (some []) := by
        simp [lazyA]
      rw [hstep]
      have := lazyA_span h1 h2 [] []
      simpa using this
    unfold extract_citations
    have hdata : (String.mk (pre ++ '[' :: (i ++ [']']))).data = pre ++ '[' :: (i ++ [']']) := rfl
    rw [hdata, hlz]
    simp [hi]
  · intro va vb h0 hvb
    have h0b : (0 : Int) ≤ vb := le_trans h0 hvb
    have ha : ∀ c ∈ intToStr va, c.isDigit = true := intToStr_isDigit h0
    have hb : ∀ c ∈ intToStr vb, c.isDigit = true := intToStr_isDigit h0b
    have hnc : ',' ∉ (intToStr va ++ '-' :: intToStr vb) := by
      intro hm
      rcases List.mem_append.1 hm with hm | hm
      · exact absurd (ha ',' hm) (by decide)
      · rcases List.mem_cons.1 hm with e | hm
        · exact absurd e (by decide)
        · exact absurd (hb ',' hm) (by decide)
    have hna : '-' ∉ intToStr va := by
      intro hm
      exact absurd (ha '-' hm) (by decide)
    have hnb : '-' ∉ intToStr vb := by
      intro hm
      exact absurd (hb '-' hm) (by decide)
    have hany : (intToStr va ++ '-' :: intToStr vb).any (fun c => c == '-') = true := by
      rw [List.any_eq_true]
      exact ⟨'-', List.mem_append.2 (Or.inr (List.mem_cons_self _ _)), by simp⟩
    have hsplit : splitOnChar '-' (intToStr va ++ '-' :: intToStr vb) =
        [intToStr va, intToStr vb] := by
      rw [splitOnChar_append hna, splitOnChar_of_not_mem hnb]
    unfold expandCR
    rw [splitOnChar_of_not_mem hnc]
    simp only [List.foldl_cons, List.foldl_nil, hany, if_true, hsplit,
      pyToInt?_digits (intToStr_ne_nil h0) ha, pyToInt?_digits (intToStr_ne_nil h0b) hb,
      digitsVal_intToStr h0, digitsVal_intToStr h0b]
    simp

/-- Witness for C5: the amended theorem applied to the text see
bracket 3 comma 4 and to the range bounds 5 and 7. -/
theorem extract_citations_expansion_witness :
    extract_citations (String.mk ("see ".data ++ '[' :: ("3,4".data ++ [']']))) =
        (expandCR "3,4".data).map String.mk ∧
      expandCR (intToStr 5 ++ '-' :: intToStr 7) = (intRange 5 7).map intToStr :=
  ⟨extract_citations_expansion.1 "see ".data "3,4".data (by decide) (by decide),
   extract_citations_expansion.2.1 5 7 (by decide) (by decide)⟩

/-! ### Chunk-level machinery: membership bridges -/

theorem melem_iff {v : Int} : ∀ {S : List Int}, melem v S = true ↔ v ∈ S := by
  intro S
  induction S with
  | nil => simp [melem]
  | cons y t ih => simp [melem, ih]

theorem melem_false_iff {v : Int} {S : List Int} : melem v S = false ↔ v ∉ S := by
  constructor
  · intro h hm
    exact absurd (melem_iff.2 hm) (by simp [h])
  · intro h
    cases hb : melem v S
    · rfl
    · exact absurd (melem_iff.1 hb) h

theorem spansOf_mem {cs : List Char} {i : List Char} :
    i ∈ spansOf cs ↔ Chunk.span i ∈ scan cs := by
  unfold spansOf
  rw [List.mem_filterMap]
  constructor
  · rintro ⟨k, hk, hke⟩
    cases k with
    | span j =>
      have : j = i := by simpa using hke
      exact this ▸ hk
    | ch c => exact absurd hke (by simp)
    | espan => exact absurd hke (by simp)
    | tailOpen t => exact absurd hke (by simp)
  · intro hk
    exact ⟨.span i, hk, rfl⟩

theorem scan_ch {c : Char} (h : c ≠ '[') (cs : List Char) :
    scan (c :: cs) = .ch c :: scan cs :=
  scanA_ch h cs

theorem citsOfText_chunks (cs : List Char) :
    citsOfText cs = ((scan cs).map chunkCits).flatten := by
  unfold citsOfText spansOf
  generalize scan cs = l
  induction l with
  | nil => rfl
  | cons k t ih =>
    cases k <;> simp [chunkCits, ih]

theorem removeTok_eq (S : List Int) (i : List Char) :
    removeTok S i =
      if keepCond S i then '[' :: (joinSep ',' (outToksR S i) ++ [']']) else [] := rfl

theorem updateTok_eq (m : List (Int × Int)) (i : List Char) :
    updateTok m i = '[' :: (joinSep ',' (newToksU m i) ++ [']']) := rfl

theorem keepCond_survivor {S : List Int} {i : List Char} (h : keepCond S i = true) :
    ∃ r ∈ splitOnChar ',' i,
      isDigits (pyStrip r) = true ∧ melem (digitsVal (pyStrip r)) S = false := by
  unfold keepCond at h
  rw [List.any_eq_true] at h
  obtain ⟨r, hr, hc⟩ := h
  rw [Bool.and_eq_true, Bool.not_eq_true'] at hc
  exact ⟨r, hr, hc.1, hc.2⟩

theorem outToksR_sub {S : List Int} {i t : List Char} (h : t ∈ outToksR S i) :
    ∃ r ∈ splitOnChar ',' i, t = pyStrip r := by
  unfold outToksR at h
  rw [List.mem_filterMap] at h
  obtain ⟨r, hr, he⟩ := h
  by_cases hc : (isDigits (pyStrip r) && melem (digitsVal (pyStrip r)) S) = true
  · rw [if_pos hc] at he
    exact absurd he (by simp)
  · rw [if_neg hc] at he
    exact ⟨r, hr, (Option.some_inj.1 he).symm⟩

theorem outToksR_ne_nil {S : List Int} {i : List Char} (h : keepCond S i = true) :
    ∃ t ∈ outToksR S i, t ≠ [] := by
  obtain ⟨r, hr, hd, hm⟩ := keepCond_survivor h
  refine ⟨pyStrip r, ?_, isDigits_ne_nil hd⟩
  unfold outToksR
  rw [List.mem_filterMap]
  exact ⟨r, hr, by simp [hd, hm]⟩

theorem outToksR_no_comma {S : List Int} {i t : List Char} (h : t ∈ outToksR S i) :
    ',' ∉ t := by
  obtain ⟨r, hr, he⟩ := outToksR_sub h
  intro hm
  exact splitOnChar_parts_no_sep i r hr (pyStrip_no_mem (he ▸ hm))

theorem outToksR_chars {S : List Int} {i t : List Char} (h : t ∈ outToksR S i) :
    ∀ c ∈ t, c ∈ i := by
  obtain ⟨r, hr, he⟩ := outToksR_sub h
  intro c hc
  exact splitOnChar_parts_subset i r hr c (pyStrip_no_mem (he ▸ hc))

theorem not_mem_joinSep {sep c : Char} (hc : c ≠ sep) {ts : List (List Char)}
    (h : ∀ t ∈ ts, c ∉ t) : c ∉ joinSep sep ts := by
  intro hm
  rcases joinSep_mem ts c hm with e | ⟨t, ht, hct⟩
  · exact hc e
  · exact h t ht hct

theorem joinSep_splitOnChar {sep : Char} : ∀ cs : List Char,
    joinSep sep (splitOnChar sep cs) = cs := by
  intro cs
  induction cs with
  | nil => rfl
  | cons c rest ih =>
    unfold splitOnChar
    by_cases hc : c = sep
    · rw [if_pos hc]
      cases hs : splitOnChar sep rest with
      | nil => exact absurd hs (splitOnChar_ne_nil rest)
      | cons t ts =>
        rw [show joinSep sep ([] :: t :: ts) = [] ++ sep :: joinSep sep (t :: ts)
          from rfl]
        rw [← hs, ih, hc]
        rfl
    · rw [if_neg hc]
      cases hs : splitOnChar sep rest with
      | nil => exact absurd hs (splitOnChar_ne_nil rest)
      | cons t ts =>
        cases ts with
        | nil =>
          have ht : t = rest := by
            have h2 := ih
            rw [hs] at h2
            simpa [joinSep] using h2
          simp [joinSep, ht]
        | cons t2 ts2 =>
          have h2 := ih
          rw [hs] at h2
          rw [show joinSep sep (t :: t2 :: ts2) = t ++ sep :: joinSep sep (t2 :: ts2)
            from rfl] at h2
          rw [show joinSep sep ((c :: t) :: t2 :: ts2) =
            (c :: t) ++ sep :: joinSep sep (t2 :: ts2) from rfl]
          rw [List.cons_append, h2]

theorem intToStr_chars (v : Int) : ∀ c ∈ intToStr v, c.isDigit = true ∨ c = '-' := by
  unfold intToStr
  by_cases hv : v < 0
  · rw [if_pos hv]
    intro c hc
    rcases List.mem_cons.1 hc with e | hc2
    · exact Or.inr e
    · exact Or.inl (natDigits_isDigit c hc2)
  · rw [if_neg hv]
    intro c hc
    exact Or.inl (natDigits_isDigit c hc)

theorem intToStr_ne_nil_any (v : Int) : intToStr v ≠ [] := by
  unfold intToStr
  by_cases hv : v < 0
  · rw [if_pos hv]
    simp
  · rw [if_neg hv]
    exact natDigits_ne_nil

theorem not_mem_intToStr {c : Char} (hc1 : c.isDigit = false) (hc2 : c ≠ '-')
    (v : Int) : c ∉ intToStr v := by
  intro hm
  rcases intToStr_chars v c hm with h | h
  · rw [hc1] at h
    exact absurd h (by decide)
  · exact hc2 h

theorem newToksU_sub {m : List (Int × Int)} {i t : List Char} (h : t ∈ newToksU m i) :
    (∃ r ∈ splitOnChar ',' i, t = pyStrip r) ∨ ∃ v : Int, t = intToStr v := by
  unfold newToksU at h
  rw [List.mem_map] at h
  obtain ⟨r, hr, he⟩ := h
  unfold newTokU at he
  by_cases hd : isDigits (pyStrip r) = true
  · simp only [hd, if_true] at he
    cases hg : remapGet m (digitsVal (pyStrip r)) with
    | some nw =>
      rw [hg] at he
      exact Or.inr ⟨nw, he.symm⟩
    | none =>
      rw [hg] at he
      exact Or.inl ⟨r, hr, he.symm⟩
  · simp [hd] at he
    exact Or.inl ⟨r, hr, he.symm⟩

theorem newToksU_no_comma {m : List (Int × Int)} {i t : List Char}
    (h : t ∈ newToksU m i) : ',' ∉ t := by
  rcases newToksU_sub h with ⟨r, hr, he⟩ | ⟨v, he⟩
  · intro hm
    exact splitOnChar_parts_no_sep i r hr (pyStrip_no_mem (he ▸ hm))
  · exact he ▸ not_mem_intToStr (by decide) (by decide) v

theorem newToksU_no_rbracket {m : List (Int × Int)} {i t : List Char}
    (h2 : ']' ∉ i) (h : t ∈ newToksU m i) : ']' ∉ t := by
  rcases newToksU_sub h with ⟨r, hr, he⟩ | ⟨v, he⟩
  · intro hm
    exact h2 (splitOnChar_parts_subset i r hr ']' (pyStrip_no_mem (he ▸ hm)))
  · exact he ▸ not_mem_intToStr (by decide) (by decide) v

theorem newToksU_ne_nil {m : List (Int × Int)} {i : List Char} :
    newToksU m i ≠ [] := by
  unfold newToksU
  intro h
  exact splitOnChar_ne_nil i (List.map_eq_nil_iff.1 h)

/-! ### Rescanning the outputs of the rewriting stages -/

theorem scan_removeText_chunks (S : List Int) :
    ∀ {l : List Chunk}, SpanNF l →
      scan ((l.map (chunkSub (removeTok S))).flatten) = l.flatMap (chunkRemove S) := by
  intro l hl
  induction hl with
  | nil => rfl
  | last t h =>
    simp only [List.map_cons, List.map_nil, List.flatten_cons, List.flatten_nil,
      List.append_nil]
    rw [show chunkSub (removeTok S) (Chunk.tailOpen t) = '[' :: t from rfl]
    rw [scan_tailOpen h]
    rfl
  | ch c hc hl ih =>
    simp only [List.map_cons, List.flatten_cons, List.flatMap_cons]
    rw [show chunkSub (removeTok S) (Chunk.ch c) = [c] from rfl,
      List.singleton_append, scan_ch hc, ih]
    rfl
  | espan hl ih =>
    simp only [List.map_cons, List.flatten_cons, List.flatMap_cons]
    rw [show chunkSub (removeTok S) Chunk.espan = ['[', ']'] from rfl]
    simp only [List.cons_append, List.nil_append]
    rw [scan_espan, ih]
    rfl
  | span i h1 h2 hl ih =>
    simp only [List.map_cons, List.flatten_cons, List.flatMap_cons]
    rw [show chunkSub (removeTok S) (Chunk.span i) = removeTok S i from rfl,
      removeTok_eq]
    by_cases hk : keepCond S i = true
    · rw [if_pos hk]
      have hJne : joinSep ',' (outToksR S i) ≠ [] := by
        obtain ⟨t, ht, htne⟩ := outToksR_ne_nil hk
        exact joinSep_ne_nil ht htne
      have hJnr : ']' ∉ joinSep ',' (outToksR S i) := by
        refine not_mem_joinSep (by decide) ?_
        intro t ht hm
        exact h2 (outToksR_chars ht ']' hm)
      rw [List.cons_append, List.append_assoc, List.singleton_append,
        scan_span hJne hJnr, ih]
      simp [chunkRemove, hk]
    · rw [if_neg hk, List.nil_append, ih]
      simp only [chunkRemove]
      rw [if_neg hk, List.nil_append]

theorem scan_updateText_chunks (m : List (Int × Int)) :
    ∀ {l : List Chunk}, SpanNF l →
      scan ((l.map (chunkSub (updateTok m))).flatten) = l.map (chunkUpdate m) := by
  intro l hl
  induction hl with
  | nil => rfl
  | last t h =>
    simp only [List.map_cons, List.map_nil, List.flatten_cons, List.flatten_nil,
      List.append_nil]
    rw [show chunkSub (updateTok m) (Chunk.tailOpen t) = '[' :: t from rfl]
    rw [scan_tailOpen h]
    rfl
  | ch c hc hl ih =>
    simp only [List.map_cons, List.flatten_cons]
    rw [show chunkSub (updateTok m) (Chunk.ch c) = [c] from rfl,
      List.singleton_append, scan_ch hc, ih]
    rfl
  | espan hl ih =>
    simp only [List.map_cons, List.flatten_cons]
    rw [show chunkSub (updateTok m) Chunk.espan = ['[', ']'] from rfl]
    simp only [List.cons_append, List.nil_append]
    rw [scan_espan, ih]
    rfl
  | span i h1 h2 hl ih =>
    simp only [List.map_cons, List.flatten_cons]
    rw [show chunkSub (updateTok m) (Chunk.span i) = updateTok m i from rfl,
      updateTok_eq]
    cases hJ : joinSep ',' (newToksU m i) with
    | nil =>
      simp only [List.nil_append]
      simp only [List.cons_append, List.nil_append]
      rw [scan_espan, ih]
      simp only [List.map_cons, chunkUpdate, hJ]
      rfl
    | cons a as =>
      have hJne : joinSep ',' (newToksU m i) ≠ [] := by rw [hJ]; simp
      have hJnr : ']' ∉ joinSep ',' (newToksU m i) := by
        refine not_mem_joinSep (by decide) ?_
        intro t ht hm
        exact newToksU_no_rbracket h2 ht hm
      rw [← hJ, List.cons_append, List.append_assoc, List.singleton_append,
        scan_span hJne hJnr, ih]
      simp only [List.map_cons, chunkUpdate]
      rw [if_neg (by simp [hJ])]

theorem scan_removeText (S : List Int) (cs : List Char) :
    scan (removeText S cs) = (scan cs).flatMap (chunkRemove S) :=
  scan_removeText_chunks S (scan_NF cs)

theorem scan_updateText (m : List (Int × Int)) (cs : List Char) :
    scan (updateText m cs) = (scan cs).map (chunkUpdate m) :=
  scan_updateText_chunks m (scan_NF cs)

/-! ### Token values through the rewriting stages -/

theorem tokVals_joinSep {ts : List (List Char)} (hne : ts ≠ [])
    (hcomma : ∀ t ∈ ts, ',' ∉ t) :
    tokVals (joinSep ',' ts) = ts.filterMap fun t =>
      if isDigits (pyStrip t) then some (digitsVal (pyStrip t)) else none := by
  unfold tokVals
  rw [splitOnChar_joinSep ts hne hcomma]

theorem filterMapConsNone {α β : Type} (f : α → Option β) (a : α) (l : List α)
    (h : f a = none) : (a :: l).filterMap f = l.filterMap f := by
  rw [List.filterMap_cons, h]

theorem filterMapConsSome {α β : Type} (f : α → Option β) (a : α) (l : List α)
    {b : β} (h : f a = some b) : (a :: l).filterMap f = b :: l.filterMap f := by
  rw [List.filterMap_cons, h]

theorem outToksR_vals (S : List Int) : ∀ rs : List (List Char),
    ((rs.filterMap fun r =>
        if isDigits (pyStrip r) && melem (digitsVal (pyStrip r)) S then none
        else some (pyStrip r)).filterMap fun t =>
      if isDigits (pyStrip t) then some (digitsVal (pyStrip t)) else none)
    = (rs.filterMap fun r =>
        if isDigits (pyStrip r) then some (digitsVal (pyStrip r)) else none).filter
        fun v => !melem v S := by
  intro rs
  induction rs with
  | nil => rfl
  | cons r t ih =>
    have hss : pyStrip (pyStrip r) = pyStrip r := pyStrip_idem r
    by_cases hd : isDigits (pyStrip r) = true
    · by_cases hm : melem (digitsVal (pyStrip r)) S = true
      · have h1 : (fun r =>
            if isDigits (pyStrip r) && melem (digitsVal (pyStrip r)) S then none
            else some (pyStrip r)) r = none := by
          simp [hd, hm]
        have h2 : (fun r =>
            if isDigits (pyStrip r) then some (digitsVal (pyStrip r)) else none) r =
            some (digitsVal (pyStrip r)) := by
          simp [hd]
        rw [filterMapConsNone (fun r =>
            if isDigits (pyStrip r) && melem (digitsVal (pyStrip r)) S then none
            else some (pyStrip r)) r t h1,
          filterMapConsSome (fun r =>
            if isDigits (pyStrip r) then some (digitsVal (pyStrip r)) else none)
            r t h2,
          List.filter_cons_of_neg (by simp [hm])]
        exact ih
      · have hm2 : melem (digitsVal (pyStrip r)) S = false := by
          cases hb : melem (digitsVal (pyStrip r)) S
          · rfl
          · exact absurd hb hm
        have h1 : (fun r =>
            if isDigits (pyStrip r) && melem (digitsVal (pyStrip r)) S then none
            else some (pyStrip r)) r = some (pyStrip r) := by
          simp [hm2]
        have h2 : (fun r =>
            if isDigits (pyStrip r) then some (digitsVal (pyStrip r)) else none) r =
            some (digitsVal (pyStrip r)) := by
          simp [hd]
        have h3 : (fun t =>
            if isDigits (pyStrip t) then some (digitsVal (pyStrip t)) else none)
            (pyStrip r) = some (digitsVal (pyStrip r)) := by
          simp [hss, hd]
        rw [filterMapConsSome (fun r =>
            if isDigits (pyStrip r) && melem (digitsVal (pyStrip r)) S then none
            else some (pyStrip r)) r t h1,
          filterMapConsSome (fun t =>
            if isDigits (pyStrip t) then some (digitsVal (pyStrip t)) else none)
            (pyStrip r) _ h3,
          filterMapConsSome (fun r =>
            if isDigits (pyStrip r) then some (digitsVal (pyStrip r)) else none)
            r t h2,
          List.filter_cons_of_pos (by simp [hm2]), ih]
    · have hd2 : isDigits (pyStrip r) = false := by
        cases hb : isDigits (pyStrip r)
        · rfl
        · exact absurd hb hd
      have h1 : (fun r =>
          if isDigits (pyStrip r) && melem (digitsVal (pyStrip r)) S then none
          else some (pyStrip r)) r = some (pyStrip r) := by
        simp [hd2]
      have h2 : (fun r =>
          if isDigits (pyStrip r) then some (digitsVal (pyStrip r)) else none) r =
          none := by
        simp [hd2]
      have h3 : (fun t =>
          if isDigits (pyStrip t) then some (digitsVal (pyStrip t)) else none)
          (pyStrip r) = none := by
        simp [hss, hd2]
      rw [filterMapConsSome (fun r =>
          if isDigits (pyStrip r) && melem (digitsVal (pyStrip r)) S then none
          else some (pyStrip r)) r t h1,
        filterMapConsNone (fun t =>
          if isDigits (pyStrip t) then some (digitsVal (pyStrip t)) else none)
          (pyStrip r) _ h3,
        filterMapConsNone (fun r =>
          if isDigits (pyStrip r) then some (digitsVal (pyStrip r)) else none)
          r t h2]
      exact ih

theorem keepCond_false_vals {S : List Int} {i : List Char}
    (h : keepCond S i = false) :
    (tokVals i).filter (fun v => !melem v S) = [] := by
  rw [List.filter_eq_nil_iff]
  intro v hv
  unfold tokVals at hv
  rw [List.mem_filterMap] at hv
  obtain ⟨r, hr, he⟩ := hv
  unfold keepCond at h
  rw [List.any_eq_false] at h
  have hr2 := h r hr
  by_cases hd : isDigits (pyStrip r) = true
  · have hmel : melem (digitsVal (pyStrip r)) S = true := by
      cases hb : melem (digitsVal (pyStrip r)) S
      · rw [hd, hb] at hr2
        exact absurd hr2 (by decide)
      · rfl
    simp only [hd, if_true] at he
    have hev : digitsVal (pyStrip r) = v := by simpa using he
    rw [← hev, hmel]
    decide
  · simp [hd] at he

theorem remapGet_mem {m : List (Int × Int)} {k v : Int}
    (h : remapGet m k = some v) : ∃ p ∈ m, p.1 = k ∧ p.2 = v := by
  unfold remapGet at h
  have hgen : ∀ (l : List (Int × Int)) (acc : Option Int),
      l.foldl (fun acc p => if p.1 == k then some p.2 else acc) acc = some v →
      (∃ p ∈ l, p.1 = k ∧ p.2 = v) ∨ acc = some v := by
    intro l
    induction l with
    | nil => intro acc h2; exact Or.inr h2
    | cons p t ihl =>
      intro acc h2
      rw [List.foldl_cons] at h2
      rcases ihl _ h2 with ⟨q, hq, hqe⟩ | h3
      · exact Or.inl ⟨q, List.mem_cons_of_mem p hq, hqe⟩
      · by_cases hp : (p.1 == k) = true
        · rw [if_pos hp] at h3
          exact Or.inl ⟨p, List.mem_cons_self p t, by simpa using hp, by simpa using h3⟩
        · rw [if_neg hp] at h3
          exact Or.inr h3
  rcases hgen m none h with h2 | h2
  · exact h2
  · exact absurd h2 (by simp)

theorem newToksU_vals (m : List (Int × Int)) (hm : ∀ p ∈ m, 0 ≤ p.2) :
    ∀ rs : List (List Char),
    ((rs.map (newTokU m)).filterMap fun t =>
        if isDigits (pyStrip t) then some (digitsVal (pyStrip t)) else none)
      = (rs.filterMap fun r =>
          if isDigits (pyStrip r) then some (digitsVal (pyStrip r)) else none).map
          (remapApply m) := by
  intro rs
  induction rs with
  | nil => rfl
  | cons r t ih =>
    rw [List.map_cons, List.filterMap_cons, List.filterMap_cons]
    by_cases hd : isDigits (pyStrip r) = true
    · cases hg : remapGet m (digitsVal (pyStrip r)) with
      | some nw =>
        have hnw : 0 ≤ nw := by
          obtain ⟨p, hp, hp1, hp2⟩ := remapGet_mem hg
          rw [← hp2]
          exact hm p hp
        have hTok : newTokU m r = intToStr nw := by
          unfold newTokU
          simp [hd, hg]
        have h1 : pyStrip (intToStr nw) = intToStr nw :=
          pyStrip_digits (intToStr_isDigit hnw)
        have h2 : isDigits (intToStr nw) = true :=
          isDigits_of_forall (intToStr_ne_nil hnw) (intToStr_isDigit hnw)
        rw [hTok]
        simp only [h1, h2, hd, if_true, digitsVal_intToStr hnw, ih]
        rw [List.map_cons]
        rw [show remapApply m (digitsVal (pyStrip r)) = nw from by
          unfold remapApply; rw [hg]; rfl]
      | none =>
        have hTok : newTokU m r = pyStrip r := by
          unfold newTokU
          simp [hd, hg]
        rw [hTok, pyStrip_idem]
        simp only [hd, if_true, ih]
        rw [List.map_cons]
        rw [show remapApply m (digitsVal (pyStrip r)) = digitsVal (pyStrip r) from by
          unfold remapApply; rw [hg]; rfl]
    · have hd2 : isDigits (pyStrip r) = false := by
        cases hb : isDigits (pyStrip r)
        · rfl
        · exact absurd hb hd
      have hTok : newTokU m r = pyStrip r := by
        unfold newTokU
        simp [hd2]
      rw [hTok, pyStrip_idem]
      simp [hd2, ih]

theorem joinSep_eq_nil {sep : Char} : ∀ {ts : List (List Char)},
    joinSep sep ts = [] → ts = [] ∨ ts = [[]] := by
  intro ts h
  cases ts with
  | nil => exact Or.inl rfl
  | cons t rest =>
    cases rest with
    | nil =>
      simp [joinSep] at h
      exact Or.inr (by rw [h])
    | cons t2 ts2 =>
      rw [show joinSep sep (t :: t2 :: ts2) = t ++ sep :: joinSep sep (t2 :: ts2)
        from rfl] at h
      exact absurd h (by cases t <;> simp)

theorem newToksU_nil_vals {m : List (Int × Int)} {i : List Char}
    (hJ : joinSep ',' (newToksU m i) = []) : tokVals i = [] := by
  rcases joinSep_eq_nil hJ with h | h
  · exact absurd h newToksU_ne_nil
  · have hsplit : ∃ r0, splitOnChar ',' i = [r0] ∧ newTokU m r0 = [] := by
      unfold newToksU at h
      cases hs : splitOnChar ',' i with
      | nil => exact absurd hs (splitOnChar_ne_nil i)
      | cons r0 rs =>
        rw [hs, List.map_cons] at h
        cases rs with
        | nil =>
          refine ⟨r0, rfl, ?_⟩
          simpa using h
        | cons r1 rs2 => simp at h
    obtain ⟨r0, hs, hr0⟩ := hsplit
    have hd : isDigits (pyStrip r0) = false := by
      cases hb : isDigits (pyStrip r0)
      · rfl
      · exfalso
        unfold newTokU at hr0
        simp only [hb, if_true] at hr0
        cases hg : remapGet m (digitsVal (pyStrip r0)) with
        | some nw =>
          rw [hg] at hr0
          exact intToStr_ne_nil_any nw hr0
        | none =>
          rw [hg] at hr0
          exact isDigits_ne_nil hb hr0
    unfold tokVals
    rw [hs]
    simp [hd]

theorem chunkCits_flatMap_remove (S : List Int) : ∀ l : List Chunk,
    ((l.flatMap (chunkRemove S)).map chunkCits).flatten =
      ((l.map chunkCits).flatten).filter fun v => !melem v S := by
  intro l
  induction l with
  | nil => rfl
  | cons k t ih =>
    rw [List.flatMap_cons, List.map_append, List.flatten_append, ih,
      List.map_cons, List.flatten_cons, List.filter_append]
    congr 1
    cases k with
    | ch c => rfl
    | espan => rfl
    | tailOpen t2 => rfl
    | span i =>
      by_cases hk : keepCond S i = true
      · simp only [chunkRemove, if_pos hk, List.map_cons, List.map_nil,
          List.flatten_cons, List.flatten_nil, List.append_nil]
        have hne : outToksR S i ≠ [] := by
          obtain ⟨u, hu, _⟩ := outToksR_ne_nil hk
          intro e
          rw [e] at hu
          exact absurd hu (List.not_mem_nil u)
        rw [show chunkCits (Chunk.span (joinSep ',' (outToksR S i))) =
          tokVals (joinSep ',' (outToksR S i)) from rfl]
        rw [tokVals_joinSep hne fun u hu => outToksR_no_comma hu]
        rw [show chunkCits (Chunk.span i) = tokVals i from rfl]
        exact outToksR_vals S (splitOnChar ',' i)
      · have hk2 : keepCond S i = false := by
          cases hb : keepCond S i
          · rfl
          · exact absurd hb hk
        simp only [chunkRemove, if_neg hk, List.map_nil, List.flatten_nil]
        rw [show chunkCits (Chunk.span i) = tokVals i from rfl]
        exact (keepCond_false_vals hk2).symm

theorem chunkCits_map_update (m : List (Int × Int)) (hm : ∀ p ∈ m, 0 ≤ p.2) :
    ∀ l : List Chunk,
    (((l.map (chunkUpdate m)).map chunkCits).flatten) =
      ((l.map chunkCits).flatten).map (remapApply m) := by
  intro l
  induction l with
  | nil => rfl
  | cons k t ih =>
    simp only [List.map_cons, List.flatten_cons, List.map_append, ih]
    congr 1
    cases k with
    | ch c => rfl
    | espan => rfl
    | tailOpen t2 => rfl
    | span i =>
      cases hJ : joinSep ',' (newToksU m i) with
      | nil =>
        simp only [chunkUpdate, hJ, List.isEmpty_nil, if_true]
        rw [show chunkCits Chunk.espan = [] from rfl,
          show chunkCits (Chunk.span i) = tokVals i from rfl,
          newToksU_nil_vals hJ]
        rfl
      | cons a as =>
        simp only [chunkUpdate]
        rw [if_neg (by simp [hJ])]
        rw [show chunkCits (Chunk.span (joinSep ',' (newToksU m i))) =
          tokVals (joinSep ',' (newToksU m i)) from rfl]
        rw [tokVals_joinSep newToksU_ne_nil fun u hu => newToksU_no_comma hu]
        rw [show chunkCits (Chunk.span i) = tokVals i from rfl]
        exact newToksU_vals m hm (splitOnChar ',' i)

/-! ### Citation values of the stage outputs -/

theorem citsOfText_removeText (S : List Int) (cs : List Char) :
    citsOfText (removeText S cs) = (citsOfText cs).filter fun v => !melem v S := by
  rw [citsOfText_chunks (removeText S cs), scan_removeText S cs,
    citsOfText_chunks cs]
  exact chunkCits_flatMap_remove S (scan cs)

theorem citsOfText_updateText (m : List (Int × Int)) (hm : ∀ p ∈ m, 0 ≤ p.2)
    (cs : List Char) :
    citsOfText (updateText m cs) = (citsOfText cs).map (remapApply m) := by
  rw [citsOfText_chunks (updateText m cs), scan_updateText m cs,
    citsOfText_chunks cs]
  exact chunkCits_map_update m hm (scan cs)

/-! ### Normalization of marker interiors through the stages -/

theorem isDigits_pyStrip_self {r : List Char} (h : isDigits r = true) :
    pyStrip r = r := pyStrip_digits (isDigits_mem h)

theorem removeText_norm {S : List Int} {cs : List Char}
    (h : ∀ i, Chunk.span i ∈ scan cs → ∀ r ∈ splitOnChar ',' i,
      isDigits (pyStrip r) = true) :
    normSpans (removeText S cs) := by
  intro j hj t ht
  rw [scan_removeText S cs, List.mem_flatMap] at hj
  obtain ⟨k, hk, hjk⟩ := hj
  cases k with
  | ch c => exact absurd hjk (by simp [chunkRemove])
  | espan => exact absurd hjk (by simp [chunkRemove])
  | tailOpen t2 => exact absurd hjk (by simp [chunkRemove])
  | span i =>
    by_cases hkc : keepCond S i = true
    · have hne : outToksR S i ≠ [] := by
        obtain ⟨u, hu, _⟩ := outToksR_ne_nil hkc
        intro e
        rw [e] at hu
        exact absurd hu (List.not_mem_nil u)
      have hj2 : j = joinSep ',' (outToksR S i) := by
        simp only [chunkRemove, if_pos hkc] at hjk
        simpa using hjk
      subst hj2
      rw [splitOnChar_joinSep _ hne fun u hu => outToksR_no_comma hu] at ht
      obtain ⟨r, hr, he⟩ := outToksR_sub ht
      rw [he]
      exact h i hk r hr
    · simp only [chunkRemove, if_neg hkc] at hjk
      exact absurd hjk (List.not_mem_nil _)

theorem normSpans_strip {cs : List Char} (h : normSpans cs) :
    ∀ i, Chunk.span i ∈ scan cs → ∀ r ∈ splitOnChar ',' i,
      isDigits (pyStrip r) = true := by
  intro i hi r hr
  rw [isDigits_pyStrip_self (h i hi r hr)]
  exact h i hi r hr

theorem updateText_norm {m : List (Int × Int)} (hm : ∀ p ∈ m, 0 ≤ p.2)
    {cs : List Char} (h : normSpans cs) : normSpans (updateText m cs) := by
  intro j hj t ht
  rw [scan_updateText m cs, List.mem_map] at hj
  obtain ⟨k, hk, hjk⟩ := hj
  cases k with
  | ch c => exact absurd hjk (by simp [chunkUpdate])
  | espan => exact absurd hjk (by simp [chunkUpdate])
  | tailOpen t2 => exact absurd hjk (by simp [chunkUpdate])
  | span i =>
    by_cases hJ : (joinSep ',' (newToksU m i)).isEmpty = true
    · simp only [chunkUpdate, if_pos hJ] at hjk
      exact absurd hjk (by simp)
    · simp only [chunkUpdate, if_neg hJ] at hjk
      have hj2 : j = joinSep ',' (newToksU m i) := by simpa using hjk.symm
      subst hj2
      rw [splitOnChar_joinSep _ newToksU_ne_nil
        fun u hu => newToksU_no_comma hu] at ht
      unfold newToksU at ht
      rw [List.mem_map] at ht
      obtain ⟨r, hr, he⟩ := ht
      have hdr : isDigits r = true := h i hk r hr
      rw [← he]
      unfold newTokU
      rw [isDigits_pyStrip_self hdr]
      simp only [hdr, if_true]
      cases hg : remapGet m (digitsVal r) with
      | some nw =>
        have hnw : 0 ≤ nw := by
          obtain ⟨p, hp, _, hp2⟩ := remapGet_mem hg
          rw [← hp2]
          exact hm p hp
        exact isDigits_of_forall (intToStr_ne_nil hnw) (intToStr_isDigit hnw)
      | none => exact hdr

/-! ### Texts without spans and fixed points of the stages -/

theorem removeText_of_noSpans {S : List Int} {cs : List Char} (h : noSpans cs) :
    removeText S cs = cs := by
  unfold removeText subSpans
  have hcongr : ∀ k ∈ scan cs, chunkSub (removeTok S) k = k.render := by
    intro k hk
    cases k with
    | span i => exact absurd hk (h i)
    | ch c => rfl
    | espan => rfl
    | tailOpen t => rfl
  rw [List.map_congr_left hcongr]
  exact renderChunks_scan cs

theorem updateText_of_noSpans {m : List (Int × Int)} {cs : List Char}
    (h : noSpans cs) : updateText m cs = cs := by
  unfold updateText subSpans
  have hcongr : ∀ k ∈ scan cs, chunkSub (updateTok m) k = k.render := by
    intro k hk
    cases k with
    | span i => exact absurd hk (h i)
    | ch c => rfl
    | espan => rfl
    | tailOpen t => rfl
  rw [List.map_congr_left hcongr]
  exact renderChunks_scan cs

theorem removeText_noSpans_out {S : List Int} {cs : List Char}
    (h : citsOfText cs = []) : noSpans (removeText S cs) := by
  intro j hj
  rw [scan_removeText S cs, List.mem_flatMap] at hj
  obtain ⟨k, hk, hjk⟩ := hj
  cases k with
  | ch c => simp [chunkRemove] at hjk
  | espan => simp [chunkRemove] at hjk
  | tailOpen t => simp [chunkRemove] at hjk
  | span i =>
    by_cases hkc : keepCond S i = true
    · obtain ⟨r, hr, hd, hmel⟩ := keepCond_survivor hkc
      have hv : digitsVal (pyStrip r) ∈ tokVals i := by
        unfold tokVals
        rw [List.mem_filterMap]
        exact ⟨r, hr, by simp [hd]⟩
      have hall : digitsVal (pyStrip r) ∈ citsOfText cs := by
        unfold citsOfText
        rw [List.mem_flatten]
        exact ⟨tokVals i, List.mem_map.2 ⟨i, spansOf_mem.2 hk, rfl⟩, hv⟩
      rw [h] at hall
      exact absurd hall (List.not_mem_nil _)
    · simp only [chunkRemove, if_neg hkc] at hjk
      exact absurd hjk (List.not_mem_nil _)

theorem filterMap_eq_self_of {α : Type} (f : α → Option α) :
    ∀ l : List α, (∀ x ∈ l, f x = some x) → l.filterMap f = l := by
  intro l h
  induction l with
  | nil => rfl
  | cons x t ih =>
    rw [filterMapConsSome f x t (h x (List.mem_cons_self x t)),
      ih fun y hy => h y (List.mem_cons_of_mem x hy)]

theorem removeText_nil_id {cs : List Char} (h : normSpans cs) :
    removeText [] cs = cs := by
  unfold removeText subSpans
  have hcongr : ∀ k ∈ scan cs, chunkSub (removeTok []) k = k.render := by
    intro k hk
    cases k with
    | ch c => rfl
    | espan => rfl
    | tailOpen t => rfl
    | span i =>
      have htoks := h i hk
      have hkc : keepCond [] i = true := by
        unfold keepCond
        rw [List.any_eq_true]
        cases hs : splitOnChar ',' i with
        | nil => exact absurd hs (splitOnChar_ne_nil i)
        | cons r0 rs =>
          refine ⟨r0, List.mem_cons_self r0 rs, ?_⟩
          have hd := htoks r0 (by rw [hs]; exact List.mem_cons_self r0 rs)
          rw [isDigits_pyStrip_self hd, hd]
          rfl
      have hout : outToksR [] i = splitOnChar ',' i := by
        unfold outToksR
        refine filterMap_eq_self_of _ _ ?_
        intro r hr
        have hd := htoks r hr
        rw [isDigits_pyStrip_self hd]
        simp [melem]
      rw [show chunkSub (removeTok []) (Chunk.span i) = removeTok [] i from rfl,
        removeTok_eq, if_pos hkc, hout, joinSep_splitOnChar]
      rfl
  rw [List.map_congr_left hcongr]
  exact renderChunks_scan cs

theorem normSpans_of_canon {K : List Int} {cs : List Char}
    (h : canonSpans K cs) : normSpans cs := by
  intro i hi r hr
  obtain ⟨v, hv0, _, he⟩ := h i hi r hr
  rw [he]
  exact isDigits_of_forall (intToStr_ne_nil hv0) (intToStr_isDigit hv0)

theorem updateText_fix {K : List Int} {m : List (Int × Int)} {cs : List Char}
    (hfix : ∀ v : Int, melem v K = true → remapGet m v = some v)
    (h : canonSpans K cs) : updateText m cs = cs := by
  unfold updateText subSpans
  have hcongr : ∀ k ∈ scan cs, chunkSub (updateTok m) k = k.render := by
    intro k hk
    cases k with
    | ch c => rfl
    | espan => rfl
    | tailOpen t => rfl
    | span i =>
      have htoks := h i hk
      have hnew : newToksU m i = splitOnChar ',' i := by
        unfold newToksU
        have hpt : ∀ r ∈ splitOnChar ',' i, newTokU m r = r := by
          intro r hr
          obtain ⟨v, hv0, hvK, he⟩ := htoks r hr
          subst he
          have hdv : isDigits (intToStr v) = true :=
            isDigits_of_forall (intToStr_ne_nil hv0) (intToStr_isDigit hv0)
          unfold newTokU
          rw [isDigits_pyStrip_self hdv]
          simp only [hdv, if_true]
          rw [digitsVal_intToStr hv0, hfix v hvK]
        rw [List.map_congr_left hpt]
        simp
      rw [show chunkSub (updateTok m) (Chunk.span i) = updateTok m i from rfl,
        updateTok_eq, hnew, joinSep_splitOnChar]
      rfl
  rw [List.map_congr_left hcongr]
  exact renderChunks_scan cs

/-! ### The lazy scanner on normalized texts -/

theorem lazyA_ch {c : Char} {cs : List Char} (h : c ≠ '[') :
    lazyA (c :: cs) none = lazyA cs none := by
  simp [lazyA, h]

theorem lazyA_open (cs : List Char) : lazyA ('[' :: cs) none = lazyA cs (some []) := by
  simp [lazyA]

theorem lazyA_close (cs acc : List Char) :
    lazyA (']' :: cs) (some acc) = acc.reverse :: lazyA cs none := by
  simp [lazyA]

theorem lazyA_no_rbracket : ∀ {cs : List Char}, ']' ∉ cs →
    lazyA cs none = [] ∧ ∀ acc, lazyA cs (some acc) = [] := by
  intro cs
  induction cs with
  | nil => intro _; exact ⟨rfl, fun _ => rfl⟩
  | cons c rest ih =>
    intro h
    have hc : c ≠ ']' := fun e => h (e ▸ List.mem_cons_self c rest)
    have ht : ']' ∉ rest := fun e => h (List.mem_cons_of_mem c e)
    obtain ⟨ih1, ih2⟩ := ih ht
    constructor
    · by_cases hcb : c = '['
      · subst hcb
        rw [lazyA_open]
        exact ih2 []
      · rw [lazyA_ch hcb]
        exact ih1
    · intro acc
      by_cases hnl : c = '\n'
      · subst hnl
        rw [show lazyA ('\n' :: rest) (some acc) = lazyA rest none from by
          simp [lazyA]]
        exact ih1
      · rw [show lazyA (c :: rest) (some acc) = lazyA rest (some (c :: acc)) from by
          simp [lazyA, hc, hnl]]
        exact ih2 _

theorem renderChunks_cons (k : Chunk) (l : List Chunk) :
    renderChunks (k :: l) = k.render ++ renderChunks l := rfl

theorem lazySpans_chunks : ∀ {l : List Chunk}, SpanNF l →
    (∀ i, Chunk.span i ∈ l → '\n' ∉ i) →
    lazyA (renderChunks l) none = l.filterMap lazKind := by
  intro l hl
  induction hl with
  | nil => intro _; rfl
  | last t h =>
    intro _
    rw [show renderChunks [Chunk.tailOpen t] = '[' :: t from by
      simp [renderChunks, Chunk.render]]
    rw [lazyA_open, (lazyA_no_rbracket h).2 []]
    rfl
  | ch c hc hl ih =>
    intro hnl
    rw [renderChunks_cons, show (Chunk.ch c).render = [c] from rfl,
      List.singleton_append, lazyA_ch hc,
      ih fun i hi => hnl i (List.mem_cons_of_mem _ hi)]
    rfl
  | espan hl ih =>
    intro hnl
    rw [renderChunks_cons, show Chunk.espan.render = ['[', ']'] from rfl]
    simp only [List.cons_append, List.nil_append]
    rw [lazyA_open, lazyA_close, ih fun i hi => hnl i (List.mem_cons_of_mem _ hi)]
    rfl
  | span i h1 h2 hl ih =>
    intro hnl
    have hni : '\n' ∉ i := hnl i (List.mem_cons_self _ _)
    rw [renderChunks_cons, show (Chunk.span i).render = '[' :: i ++ [']'] from rfl]
    simp only [List.cons_append, List.append_assoc, List.singleton_append]
    rw [lazyA_open, lazyA_span h2 hni [] _]
    simp only [List.nil_append, List.reverse_nil]
    rw [ih fun j hj => hnl j (List.mem_cons_of_mem _ hj)]
    simp [lazKind]

/-! ### The citation pattern on digit tokens -/

theorem isCSrest_digits : ∀ {ds : List Char}, (∀ c ∈ ds, c.isDigit = true) →
    isCSrest ds = true := by
  intro ds
  induction ds with
  | nil => intro _; rfl
  | cons c t ih =>
    intro h
    unfold isCSrest
    rw [if_pos (h c (List.mem_cons_self c t))]
    exact ih fun d hd => h d (List.mem_cons_of_mem c hd)

theorem isCSrest_extend : ∀ {ds rest : List Char},
    (∀ c ∈ ds, c.isDigit = true) → isCitationSpan rest = true →
    isCSrest (ds ++ ',' :: rest) = true := by
  intro ds
  induction ds with
  | nil =>
    intro rest _ hrest
    cases rest with
    | nil => exact absurd hrest (by decide)
    | cons d rest2 =>
      unfold isCitationSpan at hrest
      rw [Bool.and_eq_true] at hrest
      rw [List.nil_append]
      unfold isCSrest
      rw [if_neg (by decide), if_pos (by decide)]
      simp [hrest.1, hrest.2]
  | cons c t ih =>
    intro rest h hrest
    simp only [List.cons_append]
    unfold isCSrest
    rw [if_pos (h c (List.mem_cons_self c t))]
    exact ih (fun d hd => h d (List.mem_cons_of_mem c hd)) hrest

theorem isCitationSpan_join : ∀ {ts : List (List Char)}, ts ≠ [] →
    (∀ t ∈ ts, isDigits t = true) → isCitationSpan (joinSep ',' ts) = true := by
  intro ts
  induction ts with
  | nil => intro h; exact absurd rfl h
  | cons t rest ih =>
    intro _ h
    have hdt : isDigits t = true := h t (List.mem_cons_self t rest)
    cases rest with
    | nil =>
      rw [show joinSep ',' [t] = t from rfl]
      cases t with
      | nil => exact absurd hdt (by decide)
      | cons c cs =>
        rw [show isCitationSpan (c :: cs) = (c.isDigit && isCSrest cs) from rfl,
          isDigits_mem hdt c (List.mem_cons_self c cs),
          isCSrest_digits fun d hd => isDigits_mem hdt d (List.mem_cons_of_mem c hd)]
        rfl
    | cons t2 ts2 =>
      rw [show joinSep ',' (t :: t2 :: ts2) = t ++ ',' :: joinSep ',' (t2 :: ts2)
        from rfl]
      have hrest : isCitationSpan (joinSep ',' (t2 :: ts2)) = true :=
        ih (by simp) fun u hu => h u (List.mem_cons_of_mem t hu)
      cases t with
      | nil => exact absurd hdt (by decide)
      | cons c cs =>
        simp only [List.cons_append]
        rw [show isCitationSpan (c :: (cs ++ ',' :: joinSep ',' (t2 :: ts2))) =
          (c.isDigit && isCSrest (cs ++ ',' :: joinSep ',' (t2 :: ts2))) from rfl,
          isCSrest_extend
            (fun d hd => isDigits_mem hdt d (List.mem_cons_of_mem c hd)) hrest,
          isDigits_mem hdt c (List.mem_cons_self c cs)]
        rfl

theorem expandCR_digitToks {i : List Char}
    (h : ∀ r ∈ splitOnChar ',' i, isDigits r = true) :
    expandCR i = splitOnChar ',' i := by
  have hgen : ∀ (parts : List (List Char)) (acc : List (List Char)),
      (∀ p ∈ parts, isDigits p = true) →
      parts.foldl (fun acc part =>
        if part.any (fun c => c == '-') then
          match splitOnChar '-' part with
          | [a, b] =>
            match pyToInt? a, pyToInt? b with
            | some s, some e => acc ++ (intRange s e).map intToStr
            | _, _ => acc
          | _ => acc
        else acc ++ [pyStrip part]) acc = acc ++ parts := by
    intro parts
    induction parts with
    | nil => intro acc _; simp
    | cons p t ih =>
      intro acc hp
      have hnd : p.any (fun c => c == '-') = false := by
        rw [List.any_eq_false]
        intro c hc hbe
        have hcd := isDigits_mem (hp p (List.mem_cons_self p t)) c hc
        have hce : c = '-' := by simpa using hbe
        rw [hce] at hcd
        exact absurd hcd (by decide)
      rw [List.foldl_cons, if_neg (by simp [hnd]),
        isDigits_pyStrip_self (hp p (List.mem_cons_self p t)),
        ih (acc ++ [p]) fun q hq => hp q (List.mem_cons_of_mem p hq)]
      simp
  unfold expandCR
  rw [hgen (splitOnChar ',' i) [] h, List.nil_append]

/-- Token values of a normalized interior. -/
theorem tokVals_norm {i : List Char}
    (h : ∀ r ∈ splitOnChar ',' i, isDigits r = true) :
    tokVals i = (splitOnChar ',' i).map digitsVal := by
  unfold tokVals
  have hgen : ∀ rs : List (List Char), (∀ r ∈ rs, isDigits r = true) →
      (rs.filterMap fun r =>
        if isDigits (pyStrip r) then some (digitsVal (pyStrip r)) else none) =
      rs.map digitsVal := by
    intro rs
    induction rs with
    | nil => intro _; rfl
    | cons r t ih =>
      intro hr
      have hd := hr r (List.mem_cons_self r t)
      have h2 : (fun r =>
          if isDigits (pyStrip r) then some (digitsVal (pyStrip r)) else none) r =
          some (digitsVal r) := by
        simp [isDigits_pyStrip_self hd, hd]
      rw [filterMapConsSome _ r t h2, List.map_cons,
        ih fun q hq => hr q (List.mem_cons_of_mem r hq)]
  exact hgen _ h

theorem extract_fold_norm : ∀ (ms : List (List Char)) (acc : List (List Char)),
    (∀ m2 ∈ ms, m2 = [] ∨ ∀ r ∈ splitOnChar ',' m2, isDigits r = true) →
    ms.foldl (fun acc m2 => if isCitationSpan m2 then acc ++ expandCR m2 else acc)
      acc =
      acc ++ ms.flatMap fun m2 =>
        if m2.isEmpty then [] else splitOnChar ',' m2 := by
  intro ms
  induction ms with
  | nil => intro acc _; simp
  | cons m2 t ih =>
    intro acc h
    rw [List.foldl_cons, List.flatMap_cons]
    rcases h m2 (List.mem_cons_self m2 t) with he | hnorm
    · subst he
      rw [if_neg (by decide), ih acc fun u hu => h u (List.mem_cons_of_mem _ hu)]
      rfl
    · have hm2ne : m2 ≠ [] := by
        intro e
        subst e
        have := hnorm [] (by simp [splitOnChar])
        exact absurd this (by decide)
      have hcit : isCitationSpan m2 = true := by
        have := isCitationSpan_join (splitOnChar_ne_nil m2) hnorm
        rwa [joinSep_splitOnChar] at this
      rw [if_pos hcit, expandCR_digitToks hnorm,
        ih _ fun u hu => h u (List.mem_cons_of_mem _ hu)]
      rw [show m2.isEmpty = false from by
        cases m2 with
        | nil => exact absurd rfl hm2ne
        | cons a as => rfl]
      simp [List.append_assoc]

theorem chunkVals_of_lazy : ∀ l : List Chunk,
    (∀ i, Chunk.span i ∈ l → ∀ r ∈ splitOnChar ',' i, isDigits r = true) →
    ((((l.filterMap lazKind).flatMap fun m2 =>
        if m2.isEmpty then [] else splitOnChar ',' m2).map String.mk).filterMap
      fun t => pyToInt? t.data) = (l.map chunkCits).flatten := by
  intro l
  induction l with
  | nil => intro _; rfl
  | cons k t ih =>
    intro h
    have iht := ih fun i hi => h i (List.mem_cons_of_mem k hi)
    cases k with
    | ch c =>
      rw [show List.filterMap lazKind (Chunk.ch c :: t) = List.filterMap lazKind t
        from filterMapConsNone lazKind (Chunk.ch c) t rfl]
      rw [iht]
      rfl
    | tailOpen t2 =>
      rw [show List.filterMap lazKind (Chunk.tailOpen t2 :: t) =
        List.filterMap lazKind t
        from filterMapConsNone lazKind (Chunk.tailOpen t2) t rfl]
      rw [iht]
      rfl
    | espan =>
      rw [show List.filterMap lazKind (Chunk.espan :: t) =
        ([] : List Char) :: List.filterMap lazKind t
        from filterMapConsSome lazKind Chunk.espan t rfl]
      rw [List.flatMap_cons, if_pos (by decide), List.nil_append, iht]
      rfl
    | span i =>
      have hnorm := h i (List.mem_cons_self _ _)
      have hne : i ≠ [] := by
        intro e
        subst e
        have := hnorm [] (by simp [splitOnChar])
        exact absurd this (by decide)
      rw [show List.filterMap lazKind (Chunk.span i :: t) =
        i :: List.filterMap lazKind t
        from filterMapConsSome lazKind (Chunk.span i) t rfl]
      rw [List.flatMap_cons]
      rw [show i.isEmpty = false from by
        cases i with
        | nil => exact absurd rfl hne
        | cons a as => rfl]
      simp only [Bool.false_eq_true, if_false, List.map_append,
        List.filterMap_append]
      rw [iht]
      rw [List.map_cons, List.flatten_cons]
      congr 1
      rw [show chunkCits (Chunk.span i) = tokVals i from rfl, tokVals_norm hnorm]
      have hgen : ∀ rs : List (List Char), (∀ r ∈ rs, isDigits r = true) →
          ((rs.map String.mk).filterMap fun t => pyToInt? t.data) =
            rs.map digitsVal := by
        intro rs
        induction rs with
        | nil => intro _; rfl
        | cons r rt ihr =>
          intro hr
          have hd := hr r (List.mem_cons_self r rt)
          rw [List.map_cons]
          rw [filterMapConsSome (fun t => pyToInt? t.data) (String.mk r) _
            (by
              show pyToInt? (String.mk r).data = some (digitsVal r)
              exact pyToInt?_digits (isDigits_ne_nil hd) (isDigits_mem hd))]
          rw [List.map_cons, ihr fun q hq => hr q (List.mem_cons_of_mem r hq)]
      exact hgen _ hnorm

theorem chars_of_norm {i : List Char}
    (h : ∀ r ∈ splitOnChar ',' i, isDigits r = true) :
    ∀ c ∈ i, c.isDigit = true ∨ c = ',' := by
  intro c hc
  rw [← @joinSep_splitOnChar ',' i] at hc
  rcases joinSep_mem _ c hc with e | ⟨t, ht, hct⟩
  · exact Or.inr e
  · exact Or.inl (isDigits_mem (h t ht) c hct)

/-- On a normalized text, the Citation Parser semantics agrees with the
per-token digit values of the greedy spans. -/
theorem strCitVals_normalized {s : String} (h : normSpans s.data) :
    strCitVals s = citsOfText s.data := by
  have hnl : ∀ i, Chunk.span i ∈ scan s.data → '\n' ∉ i := by
    intro i hi hm
    rcases chars_of_norm (h i hi) '\n' hm with hd | hd
    · exact absurd hd (by decide)
    · exact absurd hd (by decide)
  have hlz : lazySpans s.data = (scan s.data).filterMap lazKind := by
    unfold lazySpans
    conv_lhs => rw [← renderChunks_scan s.data]
    exact lazySpans_chunks (scan_NF s.data) hnl
  have hms : ∀ m2 ∈ (scan s.data).filterMap lazKind,
      m2 = [] ∨ ∀ r ∈ splitOnChar ',' m2, isDigits r = true := by
    intro m2 hm2
    rw [List.mem_filterMap] at hm2
    obtain ⟨k, hk, hke⟩ := hm2
    cases k with
    | ch c => exact absurd hke (by simp [lazKind])
    | tailOpen t2 => exact absurd hke (by simp [lazKind])
    | espan =>
      refine Or.inl ?_
      have : ([] : List Char) = m2 := by simpa [lazKind] using hke
      exact this.symm
    | span i =>
      have : i = m2 := by simpa [lazKind] using hke
      exact Or.inr (this ▸ h i hk)
  unfold strCitVals extract_citations
  rw [hlz, extract_fold_norm _ [] hms, List.nil_append,
    citsOfText_chunks s.data]
  exact chunkVals_of_lazy (scan s.data) h

/-! ### Sorting, enumeration and the remap dictionary -/

theorem insertSorted_eq (x : Int) : ∀ l : List Int,
    insertSorted x l = List.orderedInsert (· ≤ ·) x l := by
  intro l
  induction l with
  | nil => rfl
  | cons y t ih => simp [insertSorted, List.orderedInsert, ih]

theorem isort_eq : ∀ l : List Int, isort l = List.insertionSort (· ≤ ·) l := by
  intro l
  induction l with
  | nil => rfl
  | cons x t ih =>
    rw [show isort (x :: t) = insertSorted x (isort t) from rfl, ih,
      insertSorted_eq]
    rfl

theorem isort_perm (l : List Int) : List.Perm (isort l) l := by
  rw [isort_eq]
  exact List.perm_insertionSort _ l

theorem isort_sorted (l : List Int) : List.Sorted (· ≤ ·) (isort l) := by
  rw [isort_eq]
  exact List.sorted_insertionSort _ l

theorem enumFrom_snd_ge : ∀ (l : List Int) (a : Int) (p : Int × Int),
    p ∈ enumFrom a l → a ≤ p.2 := by
  intro l
  induction l with
  | nil => intro a p h; exact absurd h (List.not_mem_nil p)
  | cons x t ih =>
    intro a p h
    rw [show enumFrom a (x :: t) = (x, a) :: enumFrom (a + 1) t from rfl] at h
    rcases List.mem_cons.1 h with e | h2
    · subst e
      exact le_refl a
    · exact le_trans (by omega) (ih (a + 1) p h2)

theorem enumFrom_keys : ∀ (l : List Int) (a : Int) (p : Int × Int),
    p ∈ enumFrom a l → p.1 ∈ l := by
  intro l
  induction l with
  | nil => intro a p h; exact absurd h (List.not_mem_nil p)
  | cons x t ih =>
    intro a p h
    rw [show enumFrom a (x :: t) = (x, a) :: enumFrom (a + 1) t from rfl] at h
    rcases List.mem_cons.1 h with e | h2
    · subst e
      exact List.mem_cons_self x t
    · exact List.mem_cons_of_mem x (ih (a + 1) p h2)

theorem remapGet_skip {k : Int} : ∀ (m : List (Int × Int)) (acc : Option Int),
    (∀ p ∈ m, p.1 ≠ k) →
    m.foldl (fun acc p => if p.1 == k then some p.2 else acc) acc = acc := by
  intro m
  induction m with
  | nil => intro acc _; rfl
  | cons p t ih =>
    intro acc h
    rw [List.foldl_cons, if_neg (by simp [h p (List.mem_cons_self p t)])]
    exact ih acc fun q hq => h q (List.mem_cons_of_mem p hq)

theorem intRange_cons {s e : Int} (h : s ≤ e) :
    intRange s e = s :: intRange (s + 1) e := by
  unfold intRange
  have hn : (e + 1 - s).toNat = (e + 1 - (s + 1)).toNat + 1 := by omega
  rw [hn, List.range_succ_eq_map]
  rw [List.map_cons, List.map_map]
  congr 1
  · simp
  · apply List.map_congr_left
    intro k _
    show s + ((k : Nat) + 1 : Nat) = s + 1 + (k : Nat)
    push_cast
    omega

theorem intRange_mem {s e v : Int} (h : v ∈ intRange s e) : s ≤ v ∧ v ≤ e := by
  unfold intRange at h
  rw [List.mem_map] at h
  obtain ⟨k, hk, he⟩ := h
  rw [List.mem_range] at hk
  omega

theorem map_remapApply_enumFrom : ∀ (s : List Int) (a : Int), s.Nodup →
    s.map (remapApply (enumFrom a s)) = intRange a (a - 1 + s.length) := by
  intro s
  induction s with
  | nil =>
    intro a _
    have h0 : (a - 1 + ([] : List Int).length + 1 - a).toNat = 0 := by
      simp
    unfold intRange
    rw [h0]
    rfl
  | cons x t ih =>
    intro a hnd
    obtain ⟨hxnot, hndt⟩ := List.nodup_cons.1 hnd
    rw [List.map_cons]
    have hx : remapApply (enumFrom a (x :: t)) x = a := by
      unfold remapApply remapGet
      rw [show enumFrom a (x :: t) = (x, a) :: enumFrom (a + 1) t from rfl,
        List.foldl_cons, if_pos (by simp)]
      rw [remapGet_skip (enumFrom (a + 1) t) (some a) fun p hp => by
        intro e
        exact hxnot (e ▸ enumFrom_keys t (a + 1) p hp)]
      rfl
    have ht : t.map (remapApply (enumFrom a (x :: t))) =
        t.map (remapApply (enumFrom (a + 1) t)) := by
      apply List.map_congr_left
      intro y hy
      unfold remapApply remapGet
      rw [show enumFrom a (x :: t) = (x, a) :: enumFrom (a + 1) t from rfl,
        List.foldl_cons, if_neg (by
          simp only [beq_iff_eq]
          intro e
          exact hxnot (e ▸ hy))]
    rw [hx, ht, ih (a + 1) hndt]
    have hR : intRange a (a - 1 + ((x :: t).length : Nat)) =
        a :: intRange (a + 1) (a + 1 - 1 + (t.length : Nat)) := by
      have harg2 : (a : Int) - 1 + ((x :: t).length : Nat) =
          a + 1 - 1 + (t.length : Nat) := by
        simp only [List.length_cons]
        push_cast
        omega
      rw [intRange_cons (by
        simp only [List.length_cons]
        push_cast
        omega)]
      rw [harg2]
    rw [hR]

theorem remapGet_enumFrom_intRange : ∀ (n : Nat) (a v : Int),
    v ∈ intRange a (a - 1 + n) →
    remapGet (enumFrom a (intRange a (a - 1 + n))) v = some v := by
  intro n
  induction n with
  | zero =>
    intro a v h
    have h0 : (a - 1 + (0 : Nat) + 1 - a).toNat = 0 := by simp
    unfold intRange at h
    rw [h0] at h
    exact absurd h (by simp)
  | succ n ih =>
    intro a v h
    have hle : a ≤ a - 1 + ((n : Nat) + 1 : Nat) := by push_cast; omega
    have harg : a - 1 + ((n + 1 : Nat) : Int) = a + 1 - 1 + (n : Nat) := by
      push_cast
      omega
    rw [intRange_cons hle] at h ⊢
    rw [show enumFrom a (a :: intRange (a + 1) (a - 1 + ((n + 1 : Nat) : Int))) =
      (a, a) :: enumFrom (a + 1) (intRange (a + 1) (a - 1 + ((n + 1 : Nat) : Int)))
      from rfl]
    unfold remapGet
    rw [List.foldl_cons]
    rcases List.mem_cons.1 h with e | h2
    · subst e
      rw [if_pos (by simp)]
      rw [remapGet_skip _ (some v) fun p hp => by
        intro e2
        have hk := enumFrom_keys _ _ p hp
        rw [e2] at hk
        have := (intRange_mem hk).1
        omega]
    · rw [harg] at h2
      have hvge := (intRange_mem h2).1
      rw [if_neg (by
        simp only [beq_iff_eq]
        omega)]
      have := ih (a + 1) v h2
      unfold remapGet at this
      rw [harg]
      exact this

/-! ### The document pipeline in closed form -/

theorem mapContent_comp (f g : String → String) (c : SecContent) :
    mapContent g (mapContent f c) = mapContent (fun s => g (f s)) c := by
  cases c <;> simp [mapContent, Function.comp]

theorem mapSection_comp (f g : String → String) (s : DocSection) :
    mapSection g (mapSection f s) = mapSection (fun x => g (f x)) s := by
  cases s with
  | mk h c => simp [mapSection, mapContent_comp]

theorem cleanDoc_eq (d : Doc) :
    cleanDoc d =
      { title := gFun d d.title
        subtitle := gFun d d.subtitle
        sections := d.sections.map (mapSection (gFun d))
        refHeading := d.refHeading
        refs := (survivorsL d).map (remapRefItem (remapFin d)) } := by
  have hsec : ((d.sections.map (mapSection (remS (orphL d)))).map
      (mapSection (remS (badL d)))).map (mapSection (updS (remapFin d))) =
      d.sections.map (mapSection (gFun d)) := by
    rw [List.map_map, List.map_map]
    apply List.map_congr_left
    intro s _
    show mapSection (updS (remapFin d)) (mapSection (remS (badL d))
      (mapSection (remS (orphL d)) s)) = mapSection (gFun d) s
    rw [mapSection_comp, mapSection_comp]
    rfl
  have h0 : cleanDoc d =
      { title := updS (remapFin d) (remS (badL d) (remS (orphL d) d.title))
        subtitle := updS (remapFin d) (remS (badL d) (remS (orphL d) d.subtitle))
        sections := ((d.sections.map (mapSection (remS (orphL d)))).map
          (mapSection (remS (badL d)))).map (mapSection (updS (remapFin d)))
        refHeading := d.refHeading
        refs := (survivorsL d).map (remapRefItem (remapFin d)) } := rfl
  rw [h0, hsec]
  rfl

theorem contentStringsOf_mapSection (f : String → String) (s : DocSection) :
    contentStringsOf (mapSection f s) = (contentStringsOf s).map f := by
  cases s with
  | mk h c =>
    cases c with
    | text t => rfl
    | items xs => rfl
    | faqs qa =>
      show ((qa.map fun p => (f p.1, f p.2)).map fun p => [p.1, p.2]).flatten =
        ((qa.map fun p => [p.1, p.2]).flatten).map f
      induction qa with
      | nil => rfl
      | cons p t ih =>
        simp only [List.map_cons, List.flatten_cons, List.map_append, ih]
        rfl

theorem docContentStrings_cleanDoc (d : Doc) :
    docContentStrings (cleanDoc d) = (docContentStrings d).map (gFun d) := by
  rw [cleanDoc_eq]
  show ((d.sections.map (mapSection (gFun d))).map contentStringsOf).flatten =
    ((d.sections.map contentStringsOf).flatten).map (gFun d)
  rw [List.map_map, List.map_flatten, List.map_map]
  congr 1
  apply List.map_congr_left
  intro s _
  exact contentStringsOf_mapSection (gFun d) s

theorem remapFin_nonneg (d : Doc) : ∀ p ∈ remapFin d, 0 ≤ p.2 := by
  intro p hp
  unfold remapFin at hp
  have := enumFrom_snd_ge _ 1 p hp
  omega

theorem gFun_cits (d : Doc) (s : String) :
    citsOfText (gFun d s).data =
      (((citsOfText s.data).filter fun v => !melem v (orphL d)).filter fun v =>
        !melem v (badL d)).map (remapApply (remapFin d)) := by
  show citsOfText (updateText (remapFin d)
      (removeText (badL d) (removeText (orphL d) s.data))) = _
  rw [citsOfText_updateText _ (remapFin_nonneg d), citsOfText_removeText,
    citsOfText_removeText]

theorem gFun_norm (d : Doc) {s : String}
    (h : ∀ i ∈ spansOf s.data, ∀ r ∈ splitOnChar ',' i,
      isDigits (pyStrip r) = true) :
    normSpans (gFun d s).data := by
  have h1 : normSpans (removeText (orphL d) s.data) :=
    removeText_norm fun i hi => h i (spansOf_mem.2 hi)
  have h2 : normSpans (removeText (badL d) (removeText (orphL d) s.data)) :=
    removeText_norm (normSpans_strip h1)
  have h3 := updateText_norm (remapFin_nonneg d) h2
  exact h3

theorem citedL_eq_content (d : Doc)
    (hheads : ∀ s ∈ d.sections, citsOfText s.heading.data = [])
    (hhead : citsOfText d.refHeading.data = [])
    (hrefs : ∀ r ∈ d.refs, ∀ f ∈ refItemStrings r, citsOfText f.data = []) :
    citedL d = citsOfStrings (docContentStrings d) := by
  unfold citedL identifyVisibleStrings
  rw [citsOfStrings_append]
  have h2 : citsOfStrings (d.refHeading :: (d.refs.map refItemStrings).flatten)
      = [] := by
    show citsOfText d.refHeading.data ++
      citsOfStrings ((d.refs.map refItemStrings).flatten) = []
    rw [hhead, List.nil_append, citsOfStrings_flatten]
    rw [List.flatten_eq_nil_iff]
    intro x hx
    rw [List.map_map, List.mem_map] at hx
    obtain ⟨r, hr, he⟩ := hx
    rw [← he]
    show citsOfStrings (refItemStrings r) = []
    unfold citsOfStrings
    rw [List.flatten_eq_nil_iff]
    intro y hy
    rw [List.mem_map] at hy
    obtain ⟨f, hf, hfe⟩ := hy
    rw [← hfe]
    exact hrefs r hr f hf
  rw [h2, List.append_nil]
  unfold docContentStrings
  rw [citsOfStrings_flatten, citsOfStrings_flatten, List.map_map, List.map_map]
  congr 1
  apply List.map_congr_left
  intro s hs
  show citsOfStrings (secStrings s) = citsOfStrings (contentStringsOf s)
  unfold secStrings
  show citsOfText s.heading.data ++ citsOfStrings (contentStringsOf s) = _
  rw [hheads s hs, List.nil_append]

/-! ### Every surviving number has a remap entry -/

theorem foldl_last_wins {k : Int} : ∀ (m : List (Int × Int)) (acc1 acc2 : Option Int),
    (∃ p ∈ m, p.1 = k) →
    m.foldl (fun acc p => if p.1 == k then some p.2 else acc) acc1 =
      m.foldl (fun acc p => if p.1 == k then some p.2 else acc) acc2 := by
  intro m
  induction m with
  | nil =>
    rintro acc1 acc2 ⟨p, hp, _⟩
    exact absurd hp (List.not_mem_nil p)
  | cons p t ih =>
    rintro acc1 acc2 ⟨q, hq, hqk⟩
    rw [List.foldl_cons, List.foldl_cons]
    by_cases hkt : ∃ q2 ∈ t, q2.1 = k
    · exact ih _ _ hkt
    · have hpk : p.1 = k := by
        rcases List.mem_cons.1 hq with e | hqt
        · exact e ▸ hqk
        · exact absurd ⟨q, hqt, hqk⟩ hkt
      simp [hpk]

theorem enumFrom_key_exists : ∀ (l : List Int) (a v : Int), v ∈ l →
    ∃ p ∈ enumFrom a l, p.1 = v := by
  intro l
  induction l with
  | nil => intro a v h; exact absurd h (List.not_mem_nil v)
  | cons x t ih =>
    intro a v h
    rcases List.mem_cons.1 h with e | h2
    · exact ⟨(x, a), List.mem_cons_self _ _, e.symm⟩
    · obtain ⟨p, hp, hpk⟩ := ih (a + 1) v h2
      exact ⟨p, List.mem_cons_of_mem _ hp, hpk⟩

theorem remapGet_enumFrom_mem : ∀ (l : List Int) (a v : Int), v ∈ l →
    ∃ w, remapGet (enumFrom a l) v = some w := by
  intro l
  induction l with
  | nil => intro a v h; exact absurd h (List.not_mem_nil v)
  | cons x t ih =>
    intro a v hv
    unfold remapGet
    rw [show enumFrom a (x :: t) = (x, a) :: enumFrom (a + 1) t from rfl,
      List.foldl_cons]
    by_cases hvt : v ∈ t
    · obtain ⟨w, hw⟩ := ih (a + 1) v hvt
      rw [foldl_last_wins (enumFrom (a + 1) t) _ none
        (enumFrom_key_exists t (a + 1) v hvt)]
      exact ⟨w, hw⟩
    · have hvx : v = x := by
        rcases List.mem_cons.1 hv with e | h2
        · exact e
        · exact absurd h2 hvt
      rw [if_pos (by simp [hvx])]
      rw [remapGet_skip _ (some a) fun p hp e =>
        hvt (by rw [← e]; exact enumFrom_keys t (a + 1) p hp)]
      exact ⟨a, rfl⟩

/-! ### Canonical form of cleaned content strings -/

theorem gFun_canon (d : Doc) {s : String}
    (hs : s ∈ docContentStrings d)
    (h : ∀ i ∈ spansOf s.data, ∀ r ∈ splitOnChar ',' i,
      isDigits (pyStrip r) = true)
    (hcd : citedL d = citsOfStrings (docContentStrings d)) :
    canonSpans ((cleanDoc d).refs.map fun r => r.reference_number)
      (gFun d s).data := by
  have h2 : normSpans (removeText (badL d) (removeText (orphL d) s.data)) :=
    removeText_norm (normSpans_strip
      (removeText_norm fun i hi => h i (spansOf_mem.2 hi)))
  intro j hj r hr
  have hdata : (gFun d s).data =
      updateText (remapFin d) (removeText (badL d) (removeText (orphL d) s.data)) :=
    rfl
  rw [hdata] at hj
  rw [scan_updateText, List.mem_map] at hj
  obtain ⟨k, hk, hjk⟩ := hj
  cases k with
  | ch c => exact absurd hjk (by simp [chunkUpdate])
  | espan => exact absurd hjk (by simp [chunkUpdate])
  | tailOpen t2 => exact absurd hjk (by simp [chunkUpdate])
  | span i =>
    by_cases hJ : (joinSep ',' (newToksU (remapFin d) i)).isEmpty = true
    · simp only [chunkUpdate, if_pos hJ] at hjk
      exact absurd hjk (by simp)
    · simp only [chunkUpdate, if_neg hJ] at hjk
      have hj2 : j = joinSep ',' (newToksU (remapFin d) i) := by
        simpa using hjk.symm
      subst hj2
      rw [splitOnChar_joinSep _ newToksU_ne_nil
        fun u hu => newToksU_no_comma hu] at hr
      unfold newToksU at hr
      rw [List.mem_map] at hr
      obtain ⟨r0, hr0, hre⟩ := hr
      have hd0 : isDigits r0 = true := h2 i hk r0 hr0
      have hvT2 : digitsVal r0 ∈
          citsOfText (removeText (badL d) (removeText (orphL d) s.data)) := by
        rw [citsOfText_chunks, List.mem_flatten]
        refine ⟨chunkCits (Chunk.span i), List.mem_map.2 ⟨Chunk.span i, hk, rfl⟩, ?_⟩
        show digitsVal r0 ∈ tokVals i
        unfold tokVals
        rw [List.mem_filterMap]
        exact ⟨r0, hr0, by simp [isDigits_pyStrip_self hd0, hd0]⟩
      rw [citsOfText_removeText, citsOfText_removeText, List.mem_filter,
        List.mem_filter] at hvT2
      obtain ⟨⟨hvs, hnorph⟩, hnbad⟩ := hvT2
      have horf : melem (digitsVal r0) (orphL d) = false := by
        rwa [Bool.not_eq_true'] at hnorph
      have hbadf : melem (digitsVal r0) (badL d) = false := by
        rwa [Bool.not_eq_true'] at hnbad
      have hvc : digitsVal r0 ∈ citedL d := by
        rw [hcd]
        unfold citsOfStrings
        rw [List.mem_flatten]
        exact ⟨citsOfText s.data, List.mem_map.2 ⟨s, hs, rfl⟩, hvs⟩
      have hvd : digitsVal r0 ∈ declaredL d := by
        by_contra hnd
        have hmo : digitsVal r0 ∈ orphL d := by
          unfold orphL
          rw [List.mem_filter]
          exact ⟨hvc, by rw [melem_false_iff.2 hnd]; rfl⟩
        rw [melem_iff.2 hmo] at horf
        exact absurd horf (by decide)
      obtain ⟨rr, hrr, hrre⟩ := List.mem_map.1 hvd
      have hrrs : rr ∈ survivorsL d := by
        unfold survivorsL
        rw [List.mem_filter, List.mem_filter]
        have hmf : melem (digitsVal r0) (unusedL d) = false := by
          rw [melem_false_iff]
          intro hmem
          unfold unusedL at hmem
          rw [List.mem_filter] at hmem
          have h5 := hmem.2
          rw [Bool.not_eq_true'] at h5
          rw [melem_iff.2 hvc] at h5
          exact absurd h5 (by decide)
        refine ⟨⟨hrr, ?_⟩, ?_⟩
        · rw [hrre, hmf]
          rfl
        · rw [hrre, hbadf]
          rfl
      have hvsort : digitsVal r0 ∈
          isort ((survivorsL d).map fun r => r.reference_number) :=
        (isort_perm _).mem_iff.2 (List.mem_map.2 ⟨rr, hrrs, hrre⟩)
      obtain ⟨w, hw⟩ := remapGet_enumFrom_mem _ 1 (digitsVal r0) hvsort
      have hwkey : remapGet (remapFin d) (digitsVal r0) = some w := hw
      have hw1 : 1 ≤ w := by
        obtain ⟨p, hp, hp1, hp2⟩ := remapGet_mem hwkey
        unfold remapFin at hp
        have h6 := enumFrom_snd_ge _ 1 p hp
        omega
      have hwin : melem w ((cleanDoc d).refs.map fun r =>
          r.reference_number) = true := by
        rw [melem_iff, cleanDoc_eq]
        show w ∈ ((survivorsL d).map (remapRefItem (remapFin d))).map fun r =>
          r.reference_number
        rw [List.map_map, List.mem_map]
        refine ⟨rr, hrrs, ?_⟩
        show (remapRefItem (remapFin d) rr).reference_number = w
        simp [remapRefItem, hrre, hwkey]
      refine ⟨w, by omega, hwin, ?_⟩
      rw [← hre]
      unfold newTokU
      rw [isDigits_pyStrip_self hd0]
      simp only [hd0, if_true]
      rw [hwkey]

/-! ### The final cited and declared sets coincide -/

theorem final_sets (d : Doc)
    (hcd : citedL d = citsOfStrings (docContentStrings d)) :
    ∀ n : Int,
      (n ∈ (((citsOfStrings (docContentStrings d)).filter fun v =>
          !melem v (orphL d)).filter fun v => !melem v (badL d)).map
          (remapApply (remapFin d))) ↔
      n ∈ (cleanDoc d).refs.map fun r => r.reference_number := by
  intro n
  constructor
  · intro hn
    rw [List.mem_map] at hn
    obtain ⟨v0, hv0, hne⟩ := hn
    rw [List.mem_filter] at hv0
    obtain ⟨hv1, hnbad⟩ := hv0
    rw [List.mem_filter] at hv1
    obtain ⟨hvC0, hnorph⟩ := hv1
    have horf : melem v0 (orphL d) = false := by rwa [Bool.not_eq_true'] at hnorph
    have hbadf : melem v0 (badL d) = false := by rwa [Bool.not_eq_true'] at hnbad
    have hvc : v0 ∈ citedL d := by
      rw [hcd]
      exact hvC0
    have hvd : v0 ∈ declaredL d := by
      by_contra hnd
      have hmo : v0 ∈ orphL d := by
        unfold orphL
        rw [List.mem_filter]
        exact ⟨hvc, by rw [melem_false_iff.2 hnd]; rfl⟩
      rw [melem_iff.2 hmo] at horf
      exact absurd horf (by decide)
    obtain ⟨rr, hrr, hrre⟩ := List.mem_map.1 hvd
    have hrrs : rr ∈ survivorsL d := by
      unfold survivorsL
      rw [List.mem_filter, List.mem_filter]
      have hmf : melem v0 (unusedL d) = false := by
        rw [melem_false_iff]
        intro hmem
        unfold unusedL at hmem
        rw [List.mem_filter] at hmem
        have h5 := hmem.2
        rw [Bool.not_eq_true'] at h5
        rw [melem_iff.2 hvc] at h5
        exact absurd h5 (by decide)
      refine ⟨⟨hrr, ?_⟩, ?_⟩
      · rw [hrre, hmf]
        rfl
      · rw [hrre, hbadf]
        rfl
    rw [cleanDoc_eq]
    show n ∈ ((survivorsL d).map (remapRefItem (remapFin d))).map fun r =>
      r.reference_number
    rw [List.map_map, List.mem_map]
    refine ⟨rr, hrrs, ?_⟩
    show (remapRefItem (remapFin d) rr).reference_number = n
    rw [← hne]
    simp [remapRefItem, remapApply, hrre]
  · intro hn
    rw [cleanDoc_eq] at hn
    have hn2 : n ∈ ((survivorsL d).map (remapRefItem (remapFin d))).map
        (fun r => r.reference_number) := hn
    rw [List.map_map, List.mem_map] at hn2
    obtain ⟨rr, hrrs, hne⟩ := hn2
    have hsurv := hrrs
    unfold survivorsL at hsurv
    rw [List.mem_filter] at hsurv
    obtain ⟨hsv1, hnbad⟩ := hsurv
    rw [List.mem_filter] at hsv1
    obtain ⟨hrr, hnunused⟩ := hsv1
    have hbadf : melem rr.reference_number (badL d) = false := by
      rwa [Bool.not_eq_true'] at hnbad
    have hunf : melem rr.reference_number (unusedL d) = false := by
      rwa [Bool.not_eq_true'] at hnunused
    have hvd : rr.reference_number ∈ declaredL d := List.mem_map.2 ⟨rr, hrr, rfl⟩
    have hvc : rr.reference_number ∈ citedL d := by
      by_contra hnc
      have hmu : rr.reference_number ∈ unusedL d := by
        unfold unusedL
        rw [List.mem_filter]
        exact ⟨hvd, by rw [melem_false_iff.2 hnc]; rfl⟩
      rw [melem_iff.2 hmu] at hunf
      exact absurd hunf (by decide)
    have horf : melem rr.reference_number (orphL d) = false := by
      rw [melem_false_iff]
      intro hmem
      unfold orphL at hmem
      rw [List.mem_filter] at hmem
      have h5 := hmem.2
      rw [Bool.not_eq_true'] at h5
      rw [melem_iff.2 hvd] at h5
      exact absurd h5 (by decide)
    rw [List.mem_map]
    refine ⟨rr.reference_number, ?_, ?_⟩
    · rw [List.mem_filter]
      refine ⟨?_, by rw [hbadf]; rfl⟩
      rw [List.mem_filter]
      refine ⟨by rw [← hcd]; exact hvc, by rw [horf]; rfl⟩
    · rw [← hne]
      simp [remapRefItem, remapApply]

theorem docCited_cleanDoc (d : Doc)
    (hcontent : ∀ s ∈ docContentStrings d, ∀ i ∈ spansOf s.data,
      ∀ r ∈ splitOnChar ',' i, isDigits (pyStrip r) = true) :
    docCitedInContent (cleanDoc d) =
      (((citsOfStrings (docContentStrings d)).filter fun v =>
        !melem v (orphL d)).filter fun v => !melem v (badL d)).map
        (remapApply (remapFin d)) := by
  unfold docCitedInContent
  rw [docContentStrings_cleanDoc, List.map_map]
  have hpt : ∀ s ∈ docContentStrings d,
      (strCitVals ∘ gFun d) s =
        ((((citsOfText s.data).filter fun v => !melem v (orphL d)).filter fun v =>
          !melem v (badL d)).map (remapApply (remapFin d))) := by
    intro s hs
    show strCitVals (gFun d s) = _
    rw [strCitVals_normalized (gFun_norm d (hcontent s hs)), gFun_cits]
  rw [List.map_congr_left hpt]
  unfold citsOfStrings
  rw [List.filter_flatten, List.filter_flatten, List.map_flatten]
  rw [List.map_map, List.map_map, List.map_map]
  apply congrArg
  apply List.map_congr_left
  intro s _
  simp [Function.comp]

/-! ### Strings fixed by the rewriting stages -/

theorem string_mk_data (s : String) : String.mk s.data = s := rfl

theorem remS_of_noSpans {x : String} (h : noSpans x.data) (S : List Int) :
    remS S x = x := by
  unfold remS
  rw [removeText_of_noSpans h]

theorem updS_of_noSpans {x : String} (h : noSpans x.data) (m : List (Int × Int)) :
    updS m x = x := by
  unfold updS
  rw [updateText_of_noSpans h]

theorem gFun_of_noSpans {x : String} (h : noSpans x.data) (d2 : Doc) :
    gFun d2 x = x := by
  unfold gFun
  rw [remS_of_noSpans h, remS_of_noSpans h, updS_of_noSpans h]

theorem gFun_noSpans_out (d : Doc) {x : String} (h : citsOfText x.data = []) :
    noSpans (gFun d x).data := by
  have h1 : noSpans (removeText (orphL d) x.data) := removeText_noSpans_out h
  have hdata : (gFun d x).data =
      updateText (remapFin d) (removeText (badL d) (removeText (orphL d) x.data)) :=
    rfl
  rw [hdata, removeText_of_noSpans h1, updateText_of_noSpans h1]
  exact h1

theorem refItemStrings_remap (m : List (Int × Int)) (r : RefItem) :
    refItemStrings (remapRefItem m r) = refItemStrings r := rfl

theorem refBad_remap (m : List (Int × Int)) (r : RefItem) :
    refBad (remapRefItem m r) = refBad r := rfl

theorem survivorsL_sub (d : Doc) {r : RefItem} (h : r ∈ survivorsL d) :
    r ∈ d.refs := by
  unfold survivorsL at h
  exact List.mem_of_mem_filter (List.mem_of_mem_filter h)

theorem mapSection_congr {f g : String → String} (s : DocSection)
    (h : ∀ x ∈ secStrings s, f x = g x) : mapSection f s = mapSection g s := by
  cases s with
  | mk hd c =>
    unfold mapSection
    have hh : f hd = g hd := h hd (List.mem_cons_self _ _)
    rw [hh]
    have hc : mapContent f c = mapContent g c := by
      cases c with
      | text t =>
        show SecContent.text (f t) = SecContent.text (g t)
        rw [h t (List.mem_cons_of_mem hd (by simp [contentStringsOf]))]
      | items xs =>
        show SecContent.items (xs.map f) = SecContent.items (xs.map g)
        congr 1
        apply List.map_congr_left
        intro x hx
        refine h x (List.mem_cons_of_mem hd ?_)
        show x ∈ contentStringsOf ⟨hd, SecContent.items xs⟩
        simpa [contentStringsOf] using hx
      | faqs qa =>
        show SecContent.faqs (qa.map fun p => (f p.1, f p.2)) =
          SecContent.faqs (qa.map fun p => (g p.1, g p.2))
        congr 1
        apply List.map_congr_left
        intro p hp
        have hm1 : p.1 ∈ contentStringsOf ⟨hd, SecContent.faqs qa⟩ := by
          show p.1 ∈ (qa.map fun p => [p.1, p.2]).flatten
          rw [List.mem_flatten]
          exact ⟨[p.1, p.2], List.mem_map.2 ⟨p, hp, rfl⟩, by simp⟩
        have hm2 : p.2 ∈ contentStringsOf ⟨hd, SecContent.faqs qa⟩ := by
          show p.2 ∈ (qa.map fun p => [p.1, p.2]).flatten
          rw [List.mem_flatten]
          exact ⟨[p.1, p.2], List.mem_map.2 ⟨p, hp, rfl⟩, by simp⟩
        rw [h p.1 (List.mem_cons_of_mem hd hm1), h p.2 (List.mem_cons_of_mem hd hm2)]
    rw [hc]

theorem flatten_filter_filter_map (strs : List String) (p1 p2 : Int → Bool)
    (f : Int → Int) :
    (strs.map fun s => (((citsOfText s.data).filter p1).filter p2).map f).flatten =
      ((((strs.map fun s => citsOfText s.data).flatten).filter p1).filter p2).map
        f := by
  rw [List.filter_flatten, List.filter_flatten, List.map_flatten]
  rw [List.map_map, List.map_map, List.map_map]
  congr 1

theorem intRange_sorted (s e : Int) : List.Sorted (· ≤ ·) (intRange s e) := by
  unfold intRange
  refine List.Pairwise.map _ ?_ (List.pairwise_lt_range _)
  intro a b hab
  omega

/-! ### The second cleaning pass finds nothing to do -/

theorem citedL_cleanDoc (d : Doc)
    (hheads : ∀ s ∈ d.sections, citsOfText s.heading.data = [])
    (hhead : citsOfText d.refHeading.data = [])
    (hrefs : ∀ r ∈ d.refs, ∀ f ∈ refItemStrings r, citsOfText f.data = []) :
    citedL (cleanDoc d) =
      (((citsOfStrings (docContentStrings d)).filter fun v =>
        !melem v (orphL d)).filter fun v => !melem v (badL d)).map
        (remapApply (remapFin d)) := by
  have hheads' : ∀ s' ∈ (cleanDoc d).sections, citsOfText s'.heading.data = [] := by
    intro s' hs'
    rw [cleanDoc_eq] at hs'
    have hs2 : s' ∈ d.sections.map (mapSection (gFun d)) := hs'
    rw [List.mem_map] at hs2
    obtain ⟨s, hsm, he⟩ := hs2
    rw [← he]
    show citsOfText (gFun d s.heading).data = []
    rw [gFun_cits, hheads s hsm]
    rfl
  have hhead' : citsOfText (cleanDoc d).refHeading.data = [] := by
    have he : (cleanDoc d).refHeading = d.refHeading := by rw [cleanDoc_eq]
    rw [he]
    exact hhead
  have hrefs' : ∀ r' ∈ (cleanDoc d).refs, ∀ f ∈ refItemStrings r',
      citsOfText f.data = [] := by
    intro r' hr' f hf
    rw [cleanDoc_eq] at hr'
    have hr2 : r' ∈ (survivorsL d).map (remapRefItem (remapFin d)) := hr'
    rw [List.mem_map] at hr2
    obtain ⟨rr, hrrs, he⟩ := hr2
    rw [← he, refItemStrings_remap] at hf
    exact hrefs rr (survivorsL_sub d hrrs) f hf
  rw [citedL_eq_content (cleanDoc d) hheads' hhead' hrefs']
  rw [docContentStrings_cleanDoc]
  unfold citsOfStrings
  rw [List.map_map]
  have hcomp : ((fun s => citsOfText s.data) ∘ gFun d) = fun s =>
      (((citsOfText s.data).filter fun v => !melem v (orphL d)).filter fun v =>
        !melem v (badL d)).map (remapApply (remapFin d)) :=
    funext fun s => gFun_cits d s
  rw [hcomp]
  exact flatten_filter_filter_map (docContentStrings d) _ _ _

theorem orphL_cleanDoc_nil (d : Doc)
    (hheads : ∀ s ∈ d.sections, citsOfText s.heading.data = [])
    (hhead : citsOfText d.refHeading.data = [])
    (hrefs : ∀ r ∈ d.refs, ∀ f ∈ refItemStrings r, citsOfText f.data = []) :
    orphL (cleanDoc d) = [] := by
  have hcd := citedL_eq_content d hheads hhead hrefs
  unfold orphL
  rw [List.filter_eq_nil_iff]
  intro v hv
  rw [citedL_cleanDoc d hheads hhead hrefs] at hv
  have hvd := (final_sets d hcd v).1 hv
  intro hpred
  rw [Bool.not_eq_true'] at hpred
  rw [melem_false_iff] at hpred
  exact hpred hvd

theorem unusedL_cleanDoc_nil (d : Doc)
    (hheads : ∀ s ∈ d.sections, citsOfText s.heading.data = [])
    (hhead : citsOfText d.refHeading.data = [])
    (hrefs : ∀ r ∈ d.refs, ∀ f ∈ refItemStrings r, citsOfText f.data = []) :
    unusedL (cleanDoc d) = [] := by
  have hcd := citedL_eq_content d hheads hhead hrefs
  unfold unusedL
  rw [List.filter_eq_nil_iff]
  intro v hv
  have hv2 : v ∈ (cleanDoc d).refs.map fun r => r.reference_number := hv
  have hvD := (final_sets d hcd v).2 hv2
  rw [← citedL_cleanDoc d hheads hhead hrefs] at hvD
  intro hpred
  rw [Bool.not_eq_true'] at hpred
  rw [melem_false_iff] at hpred
  exact hpred hvD

theorem badL_cleanDoc_nil (d : Doc) : badL (cleanDoc d) = [] := by
  have hfil : (cleanDoc d).refs.filter refBad = [] := by
    rw [List.filter_eq_nil_iff]
    intro r' hr'
    rw [cleanDoc_eq] at hr'
    have hr2 : r' ∈ (survivorsL d).map (remapRefItem (remapFin d)) := hr'
    rw [List.mem_map] at hr2
    obtain ⟨rr, hrrs, he⟩ := hr2
    intro hbad
    rw [← he, refBad_remap] at hbad
    unfold survivorsL at hrrs
    rw [List.mem_filter] at hrrs
    obtain ⟨hrr1, hnb⟩ := hrrs
    have hrr0 : rr ∈ d.refs := List.mem_of_mem_filter hrr1
    have hmem : rr.reference_number ∈ badL d := by
      unfold badL
      exact List.mem_map.2 ⟨rr, List.mem_filter.2 ⟨hrr0, hbad⟩, rfl⟩
    rw [Bool.not_eq_true'] at hnb
    rw [melem_false_iff] at hnb
    exact hnb hmem
  unfold badL
  rw [hfil]
  rfl

theorem doc_mk_congr {t1 t2 s1 s2 : String} {sec1 sec2 : List DocSection}
    {rh1 rh2 : String} {r1 r2 : List RefItem} (h1 : t1 = t2) (h2 : s1 = s2)
    (h3 : sec1 = sec2) (h4 : rh1 = rh2) (h5 : r1 = r2) :
    (⟨t1, s1, sec1, rh1, r1⟩ : Doc) = ⟨t2, s2, sec2, rh2, r2⟩ := by
  rw [h1, h2, h3, h4, h5]

/-- Idempotence of the document-level pipeline on plain documents. -/
theorem cleanDoc_idem (d : Doc)
    (htitle : citsOfText d.title.data = [])
    (hsub : citsOfText d.subtitle.data = [])
    (hheads : ∀ s ∈ d.sections, citsOfText s.heading.data = [])
    (hhead : citsOfText d.refHeading.data = [])
    (hrefs : ∀ r ∈ d.refs, ∀ f ∈ refItemStrings r, citsOfText f.data = [])
    (hcontent : ∀ s ∈ docContentStrings d, ∀ i ∈ spansOf s.data,
      ∀ t ∈ splitOnChar ',' i, isDigits (pyStrip t) = true)
    (hnd : (declaredL d).Nodup) :
    cleanDoc (cleanDoc d) = cleanDoc d := by
  have hcd := citedL_eq_content d hheads hhead hrefs
  have horph' := orphL_cleanDoc_nil d hheads hhead hrefs
  have hunused' := unusedL_cleanDoc_nil d hheads hhead hrefs
  have hbad' := badL_cleanDoc_nil d
  have hfilid : ∀ rs : List RefItem,
      rs.filter (fun r => !melem r.reference_number ([] : List Int)) = rs :=
    fun rs => List.filter_eq_self.mpr fun a _ => rfl
  have hsurv' : survivorsL (cleanDoc d) = (cleanDoc d).refs := by
    unfold survivorsL
    rw [hunused', hbad', hfilid, hfilid]
  have hSNnd : (((survivorsL d).map fun r => r.reference_number)).Nodup := by
    have hsub2 : List.Sublist ((survivorsL d).map fun r => r.reference_number)
        (declaredL d) := by
      unfold survivorsL declaredL
      exact ((List.filter_sublist _).trans (List.filter_sublist _)).map _
    exact hsub2.nodup hnd
  have hs0nd : (isort ((survivorsL d).map fun r => r.reference_number)).Nodup :=
    ((isort_perm _).nodup_iff).2 hSNnd
  have hrm : remapFin d =
      enumFrom 1 (isort ((survivorsL d).map fun r => r.reference_number)) := rfl
  have hmap := map_remapApply_enumFrom
    (isort ((survivorsL d).map fun r => r.reference_number)) 1 hs0nd
  have hdecl' : declaredL (cleanDoc d) =
      ((survivorsL d).map fun r => r.reference_number).map
        (remapApply (remapFin d)) := by
    unfold declaredL
    have hre : (cleanDoc d).refs =
        (survivorsL d).map (remapRefItem (remapFin d)) := by
      rw [cleanDoc_eq]
    rw [hre, List.map_map, List.map_map]
    rfl
  have hperm : List.Perm (declaredL (cleanDoc d))
      (intRange 1 (1 - 1 + ((isort ((survivorsL d).map fun r =>
        r.reference_number)).length : Nat))) := by
    rw [hdecl', ← hmap, hrm]
    exact (isort_perm _).symm.map _
  have hsorteq : isort (declaredL (cleanDoc d)) =
      intRange 1 (1 - 1 + ((isort ((survivorsL d).map fun r =>
        r.reference_number)).length : Nat)) :=
    List.eq_of_perm_of_sorted ((isort_perm _).trans hperm) (isort_sorted _)
      (intRange_sorted _ _)
  have hrm' : remapFin (cleanDoc d) =
      enumFrom 1 (intRange 1 (1 - 1 + ((isort ((survivorsL d).map fun r =>
        r.reference_number)).length : Nat))) := by
    unfold remapFin
    rw [hsurv']
    rw [show ((cleanDoc d).refs.map fun r => r.reference_number) =
      declaredL (cleanDoc d) from rfl]
    rw [hsorteq]
  have hfix' : ∀ v : Int, melem v (declaredL (cleanDoc d)) = true →
      remapGet (remapFin (cleanDoc d)) v = some v := by
    intro v hv
    have hvmem : v ∈ declaredL (cleanDoc d) := melem_iff.1 hv
    have hvint := hperm.mem_iff.1 hvmem
    rw [hrm']
    exact remapGet_enumFrom_intRange _ 1 v hvint
  have htitle' : (cleanDoc d).title = gFun d d.title := by rw [cleanDoc_eq]
  have hsub' : (cleanDoc d).subtitle = gFun d d.subtitle := by rw [cleanDoc_eq]
  have hsec' : (cleanDoc d).sections = d.sections.map (mapSection (gFun d)) := by
    rw [cleanDoc_eq]
  have hrefh' : (cleanDoc d).refHeading = d.refHeading := by rw [cleanDoc_eq]
  have hrefs2 : (cleanDoc d).refs =
      (survivorsL d).map (remapRefItem (remapFin d)) := by
    rw [cleanDoc_eq]
  rw [cleanDoc_eq (cleanDoc d)]
  conv_rhs => rw [cleanDoc_eq d]
  refine doc_mk_congr ?_ ?_ ?_ ?_ ?_
  · rw [htitle']
    exact gFun_of_noSpans (gFun_noSpans_out d htitle) (cleanDoc d)
  · rw [hsub']
    exact gFun_of_noSpans (gFun_noSpans_out d hsub) (cleanDoc d)
  · rw [hsec', List.map_map]
    apply List.map_congr_left
    intro s hsmem
    show mapSection (gFun (cleanDoc d)) (mapSection (gFun d) s) = mapSection (gFun d) s
    rw [mapSection_comp]
    apply mapSection_congr
    intro x hx
    show gFun (cleanDoc d) (gFun d x) = gFun d x
    unfold secStrings at hx
    rcases List.mem_cons.1 hx with e | hxc
    · subst e
      exact gFun_of_noSpans (gFun_noSpans_out d (hheads s hsmem)) (cleanDoc d)
    · have hxd : x ∈ docContentStrings d := by
        unfold docContentStrings
        rw [List.mem_flatten]
        exact ⟨contentStringsOf s, List.mem_map.2 ⟨s, hsmem, rfl⟩, hxc⟩
      have hnormy : normSpans (gFun d x).data := gFun_norm d (hcontent x hxd)
      have hcanony := gFun_canon d hxd (hcontent x hxd) hcd
      show updS (remapFin (cleanDoc d)) (remS (badL (cleanDoc d))
        (remS (orphL (cleanDoc d)) (gFun d x))) = gFun d x
      rw [horph', hbad']
      have hrid : remS [] (gFun d x) = gFun d x := by
        unfold remS
        rw [removeText_nil_id hnormy]
      rw [hrid, hrid]
      unfold updS
      rw [updateText_fix hfix' hcanony]
  · rw [hrefh']
  · rw [hsurv', ← hrefs2]
    have hpt : ∀ r' ∈ (cleanDoc d).refs,
        remapRefItem (remapFin (cleanDoc d)) r' = r' := by
      intro r' hr'
      have hnum : melem r'.reference_number (declaredL (cleanDoc d)) = true :=
        melem_iff.2 (List.mem_map.2 ⟨r', hr', rfl⟩)
      have hfx := hfix' _ hnum
      unfold remapRefItem
      rw [hfx]
      rfl
    rw [List.map_congr_left hpt]
    simp

/-- Witness for C9: a client with ten retries, every attempt answered
with status 429, returns the empty section map for a one-query batch. -/
theorem query_exhausted_retries_returns_empty_witness :
    SS.query ⟨10, 1, 50⟩ []
        (fun _ => ⟨fun _ => .response 429 .null, fun _ => .response 429 .null⟩)
        [⟨"Overview", "circadian"⟩]
      = .ok [("Overview", [])] :=
  query_exhausted_retries_returns_empty ⟨10, 1, 50⟩ []
    (fun _ => ⟨fun _ => .response 429 .null, fun _ => .response 429 .null⟩)
    [⟨"Overview", "circadian"⟩]
    (fun _ _ _ => rfl)

/-! ### C2: coverage after one cleaning run -/

/-- C2 amended: on an Article document whose section headings,
references heading and reference item string fields carry no inline
citations and whose content marker tokens all strip to digit strings,
one clean_references run leaves the set of numbers denoted by inline
markers in section content, under the Citation Parser semantics, equal
to the set of declared reference numbers: each is a subset of the
other.  Without the restriction on the references section's own
strings the property fails, as the counterexample shows. -/
theorem clean_references_coverage (d : Doc)
    (hheads : ∀ s ∈ d.sections, citsOfText s.heading.data = [])
    (hhead : citsOfText d.refHeading.data = [])
    (hrefs : ∀ r ∈ d.refs, ∀ f ∈ refItemStrings r, citsOfText f.data = [])
    (hcontent : ∀ s ∈ docContentStrings d, ∀ i ∈ spansOf s.data,
      ∀ t ∈ splitOnChar ',' i, isDigits (pyStrip t) = true) :
    clean_references (encodeDoc d) = encodeDoc (cleanDoc d) ∧
    ∀ n : Int, n ∈ docCitedInContent (cleanDoc d) ↔
      n ∈ (cleanDoc d).refs.map fun r => r.reference_number := by
  refine ⟨clean_references_encodeDoc d, ?_⟩
  intro n
  rw [docCited_cleanDoc d hcontent]
  exact final_sets d (citedL_eq_content d hheads hhead hrefs) n

/-- Witness for C2 at the end-to-end scenario document and the
reference number 1. -/
theorem clean_references_coverage_witness :
    clean_references (encodeDoc scenarioInput) = encodeDoc (cleanDoc scenarioInput) ∧
      ((1 : Int) ∈ docCitedInContent (cleanDoc scenarioInput) ↔
        (1 : Int) ∈ (cleanDoc scenarioInput).refs.map fun r =>
          r.reference_number) :=
  ⟨(clean_references_coverage scenarioInput (by decide) (by decide) (by decide)
      (by decide)).1,
   (clean_references_coverage scenarioInput (by decide) (by decide) (by decide)
      (by decide)).2 1⟩

/-! ### C3: idempotence on plain documents -/

/-- C3 amended: clean_references is idempotent on Article documents
whose title, subtitle, section headings, references heading and
reference item string fields carry no inline citations, whose content
marker tokens all strip to digit strings, and whose declared reference
numbers are distinct.  On arbitrary documents idempotence fails, as
the counterexample shows. -/
theorem clean_references_idempotent_on_plain_documents (d : Doc)
    (htitle : citsOfText d.title.data = [])
    (hsub : citsOfText d.subtitle.data = [])
    (hheads : ∀ s ∈ d.sections, citsOfText s.heading.data = [])
    (hhead : citsOfText d.refHeading.data = [])
    (hrefs : ∀ r ∈ d.refs, ∀ f ∈ refItemStrings r, citsOfText f.data = [])
    (hcontent : ∀ s ∈ docContentStrings d, ∀ i ∈ spansOf s.data,
      ∀ t ∈ splitOnChar ',' i, isDigits (pyStrip t) = true)
    (hnd : (declaredL d).Nodup) :
    clean_references (clean_references (encodeDoc d)) =
      clean_references (encodeDoc d) := by
  rw [clean_references_encodeDoc d, clean_references_encodeDoc (cleanDoc d)]
  exact congrArg encodeDoc
    (cleanDoc_idem d htitle hsub hheads hhead hrefs hcontent hnd)

/-- Witness for C3 at the end-to-end scenario document. -/
theorem clean_references_idempotent_witness :
    clean_references (clean_references (encodeDoc scenarioInput)) =
      clean_references (encodeDoc scenarioInput) :=
  clean_references_idempotent_on_plain_documents scenarioInput (by decide)
    (by decide) (by decide) (by decide) (by decide) (by decide) (by decide)

/-! ### C7: mixed markers -/

/-- C7 counterexample: on the document whose only marker holds the
tokens 1 and x and whose sole reference item 1 is bad, the whole
pipeline deletes the non-numeric token x together with the marker: the
character x occurs in the input content and not in the output. -/
theorem clean_references_prunes_mixed_marker_nonnumeric_token :
    clean_references (encodeDoc mixedSoleDoc) = encodeDoc mixedSoleDocExpected ∧
      'x' ∈ "see [1,x].".data ∧ 'x' ∉ "see .".data := by
  refine ⟨by decide, by decide, by decide⟩

/-- C7 amended: the rewriting stages evaluate only the numeric tokens
of a marker.  During pruning, when some digit token survives outside
the removal set, the marker is rebuilt from the surviving stripped
tokens and every non-numeric token survives, stripped but never
pruned; when no digit token survives, the whole marker and its
non-numeric tokens are deleted.  During renumbering the marker is
always rebuilt and every non-numeric token survives stripped. -/
theorem mixed_marker_numeric_only_evaluation :
    (∀ (S : List Int) (pre i post : List Char),
      (∀ c ∈ pre, c ≠ '[') → i ≠ [] → ']' ∉ i → keepCond S i = true →
      removeText S (pre ++ '[' :: (i ++ ']' :: post)) =
        pre ++ '[' :: (joinSep ',' (outToksR S i) ++ ']' :: removeText S post) ∧
      ∀ r ∈ splitOnChar ',' i, isDigits (pyStrip r) = false →
        pyStrip r ∈ outToksR S i) ∧
    (∀ (m : List (Int × Int)) (pre i post : List Char),
      (∀ c ∈ pre, c ≠ '[') → i ≠ [] → ']' ∉ i →
      updateText m (pre ++ '[' :: (i ++ ']' :: post)) =
        pre ++ '[' :: (joinSep ',' (newToksU m i) ++ ']' :: updateText m post) ∧
      ∀ r ∈ splitOnChar ',' i, isDigits (pyStrip r) = false →
        pyStrip r ∈ newToksU m i) := by
  constructor
  · intro S pre i post hpre h1 h2 hk
    constructor
    · unfold removeText
      rw [subSpans_decomp hpre h1 h2, removeTok_eq, if_pos hk]
      simp [List.append_assoc]
    · intro r hr hnd
      unfold outToksR
      rw [List.mem_filterMap]
      exact ⟨r, hr, by simp [hnd]⟩
  · intro m pre i post hpre h1 h2
    constructor
    · unfold updateText
      rw [subSpans_decomp hpre h1 h2, updateTok_eq]
      simp [List.append_assoc]
    · intro r hr hnd
      unfold newToksU
      rw [List.mem_map]
      refine ⟨r, hr, ?_⟩
      unfold newTokU
      simp [hnd]

/-- Witness for C7 at the marker with tokens 2, 9 and x, removal set
containing 2 and the empty remap. -/
theorem mixed_marker_numeric_only_evaluation_witness :
    (removeText [2] ("a ".data ++ '[' :: ("2,9,x".data ++ ']' :: [])) =
        "a ".data ++ '[' :: (joinSep ',' (outToksR [2] "2,9,x".data) ++ ']' ::
          removeText [2] []) ∧
      pyStrip "x".data ∈ outToksR [2] "2,9,x".data) ∧
      pyStrip "x".data ∈ newToksU [] "2,9,x".data :=
  ⟨⟨(mixed_marker_numeric_only_evaluation.1 [2] "a ".data "2,9,x".data []
      (by decide) (by decide) (by decide) (by decide)).1,
    (mixed_marker_numeric_only_evaluation.1 [2] "a ".data "2,9,x".data []
      (by decide) (by decide) (by decide) (by decide)).2 "x".data (by decide)
      (by decide)⟩,
   (mixed_marker_numeric_only_evaluation.2 [] "a ".data "2,9,x".data []
      (by decide) (by decide) (by decide)).2 "x".data (by decide) (by decide)⟩

end PaperGen
